import Mathlib

/-!
# Custom forms (`custom.go`, package `form`)

A shallow embedding of the `Custom` form of `src/custom.go` and of the parts of
the Go standard library it calls (`errors.New`, `fmt.Errorf` with `%w`,
`encoding/json`), followed by theorems about `Element`, `SubmitJSON` and
`MarshalJSON`.

Conventions.
* A byte slice `[]byte` is a `List Nat` of byte values; a possibly-nil slice is
  an `Option (List Nat)` with `none` for `nil`.
* A Go `error` is an `Option GoError` with `none` for `nil`.
* Calls of callbacks and of element methods are recorded, in order, in a
  trace of `Event`s.
* The methods are given on forms whose elements are a list, and a second time
  on records whose elements are a slice with a backing array (`CustomRecord`),
  to state what a method leaves unchanged.
* The grammar of JSON is given as a type of texts (`JSONText`) with their bytes
  and their values, to state what the decoder makes of a payload.
-/

set_option autoImplicit false

namespace Form

/-! ## Go errors -/

/-- Go error values that `custom.go` creates or passes on. -/
inductive GoError where
  /-- The value of `errors.New(msg)` (or `fmt.Errorf(msg)` without a verb). -/
  | new (msg : String)
  /-- The value of `fmt.Errorf(lead + "%w", cause)`: its text is `lead`
  followed by the text of `cause`, and `Unwrap` gives back `cause`. -/
  | wrapf (lead : String) (cause : GoError)
  /-- The value `io.EOF`. -/
  | ioEOF
  /-- The value `io.ErrUnexpectedEOF`. -/
  | ioUnexpectedEOF
  /-- A `*json.SyntaxError` raised at byte `byte`; `context` is the tail of its
  message (`"looking for beginning of value"`, ...). -/
  | jsonInvalidChar (byte : Nat) (context : String)
  /-- A `*json.SyntaxError` with message `exceeded max depth`. -/
  | jsonMaxDepth
  /-- A `*json.UnmarshalTypeError`: a JSON value of kind `value` cannot be
  stored in the Go target. -/
  | jsonUnmarshalType (value : String)
  deriving DecidableEq, Repr

/-- The method `Unwrap` as used by `errors.Unwrap`: the wrapped cause, if any. -/
def GoError.Unwrap : GoError → Option GoError
  | .wrapf _ cause => some cause
  | _ => none

/-! ## JSON values and the decoder of `encoding/json` -/

/-- A JSON document. The same type stands for the Go values of type `any`
that `encoding/json` produces when decoding with `UseNumber` (`nil`, `bool`,
`json.Number`, `string`, `[]any`, `map[string]any`): a `json.Number` keeps the
text of the literal. -/
inductive JSONValue where
  | null
  | bool (b : Bool)
  | number (literal : String)
  | string (s : String)
  | array (items : List JSONValue)
  | object (members : List (String × JSONValue))
  deriving Repr

/-- The function `isSpace` of the JSON scanner. -/
def isSpace (c : Nat) : Bool := c == 32 || c == 9 || c == 13 || c == 10

/-- An ASCII decimal digit. -/
def isDigit (c : Nat) : Bool := 48 ≤ c && c ≤ 57

/-- Drop leading JSON white space. -/
def skipSpace : List Nat → List Nat
  | [] => []
  | c :: cs => if isSpace c then skipSpace cs else c :: cs

/-- Text of a run of ASCII bytes. -/
def asciiText (bs : List Nat) : String := String.mk (bs.map Char.ofNat)

/-- The bytes of a literal word after its first letter (`rue`, `alse`, `ull`).
A byte `c` in the place of the letter `e` is the error
`invalid character c in literal name (expecting e)`, the letter in single
quotes. -/
def scanWord : List Nat → String → List Nat → Except GoError (List Nat)
  | [], _, cs => .ok cs
  | _ :: _, _, [] => .error .ioUnexpectedEOF
  | e :: es, name, c :: cs =>
    if c = e then scanWord es name cs
    else
      .error (.jsonInvalidChar c
        ("in literal " ++ name ++ " (expecting \x27" ++ String.singleton (Char.ofNat e) ++
          "\x27)"))

/-- The longest run of digits at the head of the input, and what follows. -/
def takeDigits : List Nat → List Nat × List Nat
  | [] => ([], [])
  | c :: cs =>
    if isDigit c then ((c :: (takeDigits cs).1), (takeDigits cs).2) else ([], c :: cs)

/-- The integer part of a number literal: `0`, or a non-zero digit followed by
digits (scanner states `state0` and `state1`). -/
def scanInt : List Nat → Except GoError (List Nat × List Nat)
  | [] => .error .ioUnexpectedEOF
  | c :: cs =>
    if c = 48 then .ok ([48], cs)
    else if 49 ≤ c ∧ c ≤ 57 then .ok (c :: (takeDigits cs).1, (takeDigits cs).2)
    else .error (.jsonInvalidChar c "in numeric literal")

/-- The optional fraction of a number literal (scanner states `stateDot`,
`stateDot0`). -/
def scanFrac : List Nat → Except GoError (List Nat × List Nat)
  | 46 :: [] => .error .ioUnexpectedEOF
  | 46 :: c :: cs =>
    if isDigit c then .ok (46 :: c :: (takeDigits cs).1, (takeDigits cs).2)
    else .error (.jsonInvalidChar c "after decimal point in numeric literal")
  | cs => .ok ([], cs)

/-- The digits of an exponent, after `e` and the optional sign (scanner states
`stateESign`, `stateE0`). -/
def scanExpDigits : List Nat → Except GoError (List Nat × List Nat)
  | [] => .error .ioUnexpectedEOF
  | c :: cs =>
    if isDigit c then .ok (c :: (takeDigits cs).1, (takeDigits cs).2)
    else .error (.jsonInvalidChar c "in exponent of numeric literal")

/-- The optional exponent of a number literal (scanner state `stateE`). -/
def scanExp : List Nat → Except GoError (List Nat × List Nat)
  | [] => .ok ([], [])
  | c :: cs =>
    if c = 101 ∨ c = 69 then
      match cs with
      | 43 :: r => (scanExpDigits r).map (fun p => (c :: 43 :: p.1, p.2))
      | 45 :: r => (scanExpDigits r).map (fun p => (c :: 45 :: p.1, p.2))
      | r => (scanExpDigits r).map (fun p => (c :: p.1, p.2))
    else .ok ([], c :: cs)

/-- The optional minus sign of a number literal. -/
def scanSign : List Nat → List Nat × List Nat
  | 45 :: r => ([45], r)
  | r => ([], r)

/-- A number literal at the head of the input: its bytes and what follows. -/
def scanNumber (cs : List Nat) : Except GoError (List Nat × List Nat) :=
  match scanInt (scanSign cs).2 with
  | .error e => .error e
  | .ok (int, r1) =>
    match scanFrac r1 with
    | .error e => .error e
    | .ok (frac, r2) =>
      match scanExp r2 with
      | .error e => .error e
      | .ok (exp, r3) => .ok ((scanSign cs).1 ++ int ++ frac ++ exp, r3)

/-- A UTF-8 continuation byte. -/
def isCont (b : Nat) : Bool := 128 ≤ b && b ≤ 191

/-- The function `utf8.DecodeRune` at a first byte `c` of 128 or more, followed
by `cs`: the rune and the input after it. An ill-formed sequence gives U+FFFD
and consumes the first byte only. -/
def decodeRune (c : Nat) (cs : List Nat) : Nat × List Nat :=
  if 194 ≤ c ∧ c ≤ 223 then
    match cs with
    | b1 :: r => if isCont b1 then ((c % 32) * 64 + b1 % 64, r) else (65533, cs)
    | _ => (65533, cs)
  else if 224 ≤ c ∧ c ≤ 239 then
    match cs with
    | b1 :: b2 :: r =>
      if (if c = 224 then 160 else 128) ≤ b1 ∧ b1 ≤ (if c = 237 then 159 else 191)
          ∧ isCont b2 then
        ((c % 16) * 4096 + (b1 % 64) * 64 + b2 % 64, r)
      else (65533, cs)
    | _ => (65533, cs)
  else if 240 ≤ c ∧ c ≤ 244 then
    match cs with
    | b1 :: b2 :: b3 :: r =>
      if (if c = 240 then 144 else 128) ≤ b1 ∧ b1 ≤ (if c = 244 then 143 else 191)
          ∧ isCont b2 ∧ isCont b3 then
        ((c % 8) * 262144 + (b1 % 64) * 4096 + (b2 % 64) * 64 + b3 % 64, r)
      else (65533, cs)
    | _ => (65533, cs)
  else (65533, cs)

/-- The value of a hexadecimal digit. -/
def hexVal (c : Nat) : Option Nat :=
  if 48 ≤ c ∧ c ≤ 57 then some (c - 48)
  else if 97 ≤ c ∧ c ≤ 102 then some (c - 87)
  else if 65 ≤ c ∧ c ≤ 70 then some (c - 55)
  else none

/-- The next `n` hexadecimal digits of a `\u` escape, added to `acc`. -/
def scanHex : Nat → Nat → List Nat → Except GoError (Nat × List Nat)
  | 0, acc, cs => .ok (acc, cs)
  | _ + 1, _, [] => .error .ioUnexpectedEOF
  | n + 1, acc, c :: cs =>
    match hexVal c with
    | some v => scanHex n (acc * 16 + v) cs
    | none => .error (.jsonInvalidChar c "in \\u hexadecimal character escape")

/-- The function `getu4` of the decoder: the code unit of a `\uXXXX` escape at
the head of the input, if there is one. -/
def getu4 : List Nat → Option (Nat × List Nat)
  | 92 :: 117 :: r =>
    match scanHex 4 0 r with
    | .ok p => some p
    | .error _ => none
  | _ => none

/-- The byte denoted by a one-letter escape. -/
def escapeByte (e : Nat) : Option Nat :=
  if e = 34 ∨ e = 92 ∨ e = 47 then some e
  else if e = 98 then some 8
  else if e = 102 then some 12
  else if e = 110 then some 10
  else if e = 114 then some 13
  else if e = 116 then some 9
  else none

/-- A string literal after its opening quote: the string it denotes (as
`unquote` computes it, `acc` holding the runes read so far in reverse) and the
input after the closing quote. Every step consumes a byte, so a `fuel` above the
length of the input is never used up (`scanString_fuel`). -/
def scanString : Nat → List Nat → List Char → Except GoError (String × List Nat)
  | 0, _, _ => .error .ioUnexpectedEOF
  | _ + 1, [], _ => .error .ioUnexpectedEOF
  | fuel + 1, c :: cs, acc =>
    if c = 34 then .ok (String.mk acc.reverse, cs)
    else if c = 92 then
      match cs with
      | [] => .error .ioUnexpectedEOF
      | e :: r =>
        if e = 117 then
          match scanHex 4 0 r with
          | .error err => .error err
          | .ok (rr, r1) =>
            if 55296 ≤ rr ∧ rr < 57344 then
              match getu4 r1 with
              | some (rr1, r2) =>
                if rr < 56320 ∧ 56320 ≤ rr1 ∧ rr1 < 57344 then
                  scanString fuel r2
                    (Char.ofNat ((rr - 55296) * 1024 + (rr1 - 56320) + 65536) :: acc)
                else scanString fuel r1 (Char.ofNat 65533 :: acc)
              | none => scanString fuel r1 (Char.ofNat 65533 :: acc)
            else scanString fuel r1 (Char.ofNat rr :: acc)
        else
          match escapeByte e with
          | some b => scanString fuel r (Char.ofNat b :: acc)
          | none => .error (.jsonInvalidChar e "in string escape code")
    else if c < 32 then .error (.jsonInvalidChar c "in string literal")
    else if c < 128 then scanString fuel cs (Char.ofNat c :: acc)
    else scanString fuel (decodeRune c cs).2 (Char.ofNat (decodeRune c cs).1 :: acc)

/-- The assignment `m[k] = v` on a `map[string]any`, kept as a list of
entries with distinct keys. -/
def objectSet : List (String × JSONValue) → String → JSONValue → List (String × JSONValue)
  | [], k, v => [(k, v)]
  | (k', v') :: r, k, v => if k' = k then (k, v) :: r else (k', v') :: objectSet r k v

/-- The constant `maxNestingDepth` of the JSON scanner. -/
def maxNestingDepth : Nat := 10000

mutual
/-- One JSON value at the head of the input (white space already skipped) and
the input after it. `depth` is the number of enclosing arrays and objects that
may still be opened. Each call of the three functions lowers `fuel` by one and
at least every second call consumes a byte, so a `fuel` above twice the length
of the input is never used up (`parseValue_fuel`). -/
def parseValue : Nat → Nat → List Nat → Except GoError (JSONValue × List Nat)
  | 0, _, _ => .error .ioUnexpectedEOF
  | _ + 1, _, [] => .error .ioUnexpectedEOF
  | fuel + 1, depth, c :: rest =>
    if c = 91 then
      if depth = 0 then .error .jsonMaxDepth
      else
        match skipSpace rest with
        | 93 :: r => .ok (.array [], r)
        | r => (parseItems fuel (depth - 1) r).map (fun p => (.array p.1, p.2))
    else if c = 123 then
      if depth = 0 then .error .jsonMaxDepth
      else
        match skipSpace rest with
        | 125 :: r => .ok (.object [], r)
        | r => (parseMembers fuel (depth - 1) r []).map (fun p => (.object p.1, p.2))
    else if c = 34 then
      (scanString (rest.length + 1) rest []).map (fun p => (.string p.1, p.2))
    else if c = 45 ∨ isDigit c then
      (scanNumber (c :: rest)).map (fun p => (.number (asciiText p.1), p.2))
    else if c = 116 then
      (scanWord [114, 117, 101] "true" rest).map (fun r => (.bool true, r))
    else if c = 102 then
      (scanWord [97, 108, 115, 101] "false" rest).map (fun r => (.bool false, r))
    else if c = 110 then
      (scanWord [117, 108, 108] "null" rest).map (fun r => (.null, r))
    else .error (.jsonInvalidChar c "looking for beginning of value")

/-- The elements of a non-empty array, from the first byte of an element to
the closing bracket. -/
def parseItems : Nat → Nat → List Nat → Except GoError (List JSONValue × List Nat)
  | 0, _, _ => .error .ioUnexpectedEOF
  | fuel + 1, depth, cs =>
    match parseValue fuel depth cs with
    | .error e => .error e
    | .ok (v, r) =>
      match skipSpace r with
      | [] => .error .ioUnexpectedEOF
      | c :: r1 =>
        if c = 44 then (parseItems fuel depth (skipSpace r1)).map (fun p => (v :: p.1, p.2))
        else if c = 93 then .ok ([v], r1)
        else .error (.jsonInvalidChar c "after array element")

/-- The members of a non-empty object, from the first byte of a key to the
closing brace, added to the map `m`. -/
def parseMembers : Nat → Nat → List Nat → List (String × JSONValue) →
    Except GoError (List (String × JSONValue) × List Nat)
  | 0, _, _, _ => .error .ioUnexpectedEOF
  | _ + 1, _, [], _ => .error .ioUnexpectedEOF
  | fuel + 1, depth, c :: rest, m =>
    if c = 34 then
      match scanString (rest.length + 1) rest [] with
      | .error e => .error e
      | .ok (k, r) =>
        match skipSpace r with
        | [] => .error .ioUnexpectedEOF
        | c1 :: r1 =>
          if c1 = 58 then
            match parseValue fuel depth (skipSpace r1) with
            | .error e => .error e
            | .ok (v, r2) =>
              match skipSpace r2 with
              | [] => .error .ioUnexpectedEOF
              | c2 :: r3 =>
                if c2 = 44 then parseMembers fuel depth (skipSpace r3) (objectSet m k v)
                else if c2 = 125 then .ok (objectSet m k v, r3)
                else .error (.jsonInvalidChar c2 "after object key:value pair")
          else .error (.jsonInvalidChar c1 "after object key")
    else .error (.jsonInvalidChar c "looking for beginning of object key string")
end

/-- The call `dec.Decode(&inputData)` of a decoder made by
`json.NewDecoder(bytes.NewBuffer(data))` after `dec.UseNumber()`, for
`inputData` of type `[]any`.

The decoder reads the first JSON value of the stream and ignores what follows
it. An array is stored element by element; the literal `null` sets the slice
to `nil` (here the empty list: the caller only uses the length and the entries
of the slice) and is no error; any other value is a
`*json.UnmarshalTypeError`. -/
def jsonDecode (data : List Nat) : Except GoError (List JSONValue) :=
  match skipSpace data with
  | [] => .error .ioEOF
  | cs =>
    match parseValue (2 * cs.length + 2) maxNestingDepth cs with
    | .error e => .error e
    | .ok (.array items, _) => .ok items
    | .ok (.null, _) => .ok []
    | .ok (.object _, _) => .error (.jsonUnmarshalType "object")
    | .ok (.string _, _) => .error (.jsonUnmarshalType "string")
    | .ok (.number _, _) => .error (.jsonUnmarshalType "number")
    | .ok (.bool _, _) => .error (.jsonUnmarshalType "bool")

/-- The bytes of an ASCII text, for writing payloads down. -/
def bytesOf (s : String) : List Nat := s.toList.map Char.toNat

/-! ## The data model of `custom.go` -/

/-- A `uuid.UUID` (sixteen bytes), given by its numeric value. -/
abbrev UUID := Nat

/-- The dynamic type of an `Element` value, which the type switch of
`SubmitJSON` inspects. The variants are those the specification lists; `other`
stands for any further implementation. -/
inductive ElementKind where
  | Divider
  | Header
  | Label
  | Input
  | Toggle
  | Slider
  | Dropdown
  | StepSlider
  | other (name : String)
  deriving DecidableEq, Repr

/-- Modelled from the spec: the interface `Element` and its implementations are
declared outside `custom.go`. An element has a dynamic type, the method
`submit(any) error` that `SubmitJSON` calls on it (`none` is the `nil` error),
and the JSON form that `json.Marshal` writes for it (the capability
`serializeSelf() -> JSON value` of the specification). -/
structure Element where
  kind : ElementKind
  submit : JSONValue → Option GoError
  json : JSONValue

/-- Modelled from the spec: the type `IdentifiedElement` is declared outside
`custom.go`; it pairs an element with its key and gives them back through the
methods `Key()` and `Value()`. -/
structure IdentifiedElement where
  Key : UUID
  Value : Element

/-- The `form.Submitter` that answered the form; passed on to the callbacks. -/
structure Submitter where
  id : Nat
  deriving DecidableEq, Repr

/-- The `*world.Tx` in which the answer is handled; passed on to the callbacks. -/
structure Tx where
  id : Nat
  deriving DecidableEq, Repr

/-- A function value stored in the field `Submit` or `Close`. It is run for its
effect on the application only, so it is known here by a tag, and a call of it
is an `Event`. -/
structure Callback where
  tag : Nat
  deriving DecidableEq, Repr

/-- The struct `Custom`; `none` in `Submit` or `Close` is a `nil` function. -/
structure Custom where
  Title : String
  Elements : List IdentifiedElement
  Submit : Option Callback
  Close : Option Callback

/-- A `map[uuid.UUID]any`, kept as a list of entries with distinct keys. -/
abbrev DataMap := List (UUID × JSONValue)

/-- The assignment `dataMap[key] = value`. -/
def mapSet : DataMap → UUID → JSONValue → DataMap
  | [], key, value => [(key, value)]
  | (k, v) :: rest, key, value =>
    if k = key then (key, value) :: rest else (k, v) :: mapSet rest key value

/-- The lookup `dataMap[key]`, with `none` for an absent key. -/
def mapGet : DataMap → UUID → Option JSONValue
  | [], _ => none
  | (k, v) :: rest, key => if k = key then some v else mapGet rest key

/-- What `SubmitJSON` does to the outside, in order. -/
inductive Event where
  /-- The call `element.Value().submit(value)` at index `index` of the loop, on
  the element with key `key`. -/
  | parse (index : Nat) (key : UUID) (value : JSONValue)
  /-- The call `form.Submit(submitter, tx, values)`. -/
  | submit (callback : Callback) (submitter : Submitter) (tx : Tx) (values : DataMap)
  /-- The call `form.Close(submitter, tx)`. -/
  | close (callback : Callback) (submitter : Submitter) (tx : Tx)

/-- How a call of `SubmitJSON` ends. -/
inductive Status where
  /-- The call returns `err`. -/
  | returned (err : Option GoError)
  /-- The index expression `inputData[i]` is out of range. -/
  | panicked

/-- A run of `SubmitJSON`: the calls it made and how it ended. -/
structure Run where
  trace : List Event
  status : Status

/-! ## The methods of `Custom` -/

/-- The method `Element`: `form.Elements = append(form.Elements, element)`. -/
def Custom.Element (form : Custom) (element : IdentifiedElement) : Custom :=
  { form with Elements := form.Elements ++ [element] }

/-- One turn of the loop over `form.Elements` that builds the filtered list:
the type switch keeps `elements` for a `Divider`, `Header` or `Label` and
appends the element otherwise. -/
def filterStep (elements : List IdentifiedElement) (element : IdentifiedElement) :
    List IdentifiedElement :=
  match element.Value.kind with
  | .Divider | .Header | .Label => elements
  | _ => elements ++ [element]

/-- The list `elements` that the loop of `SubmitJSON` ranges over: the
elements of the form when there are as many as response values, else the
filtered list when that has as many; `none` when neither has, where
`SubmitJSON` returns. -/
def matchElements (form : Custom) (inputData : List JSONValue) :
    Option (List IdentifiedElement) :=
  if form.Elements.length ≠ inputData.length then
    if (form.Elements.foldl filterStep []).length ≠ inputData.length then none
    else some (form.Elements.foldl filterStep [])
  else some form.Elements

/-- The loop `for i, element := range elements` of `SubmitJSON` from index `i`
on, with the map built so far: the calls it makes, and the finished map or the
way `SubmitJSON` ends inside the loop. -/
def parseLoop (inputData : List JSONValue) :
    List IdentifiedElement → Nat → DataMap → List Event × Except Status DataMap
  | [], _, dataMap => ([], .ok dataMap)
  | element :: rest, i, dataMap =>
    match inputData[i]? with
    | none => ([], .error .panicked)
    | some value =>
      match element.Value.submit value with
      | some err =>
        ([.parse i element.Key value],
          .error (.returned (some (.wrapf "error parsing form response value: " err))))
      | none =>
        (.parse i element.Key value ::
            (parseLoop inputData rest (i + 1) (mapSet dataMap element.Key value)).1,
          (parseLoop inputData rest (i + 1) (mapSet dataMap element.Key value)).2)

/-- The part of `SubmitJSON` after the decoding, on the decoded `inputData`. -/
def submitDecoded (form : Custom) (inputData : List JSONValue) (submitter : Submitter)
    (tx : Tx) : Run :=
  match matchElements form inputData with
  | none => ⟨[], .returned (some (.new "form JSON data array does not have enough values"))⟩
  | some elements =>
    match parseLoop inputData elements 0 [] with
    | (trace, .error status) => ⟨trace, status⟩
    | (trace, .ok dataMap) =>
      match form.Submit with
      | some submit => ⟨trace ++ [.submit submit submitter tx dataMap], .returned none⟩
      | none => ⟨trace, .returned none⟩

/-- The method `SubmitJSON`. -/
def Custom.SubmitJSON (form : Custom) (data : Option (List Nat)) (submitter : Submitter)
    (tx : Tx) : Run :=
  match data with
  | none =>
    match form.Close with
    | some close => ⟨[.close close submitter tx], .returned none⟩
    | none => ⟨[], .returned none⟩
  | some bytes =>
    match jsonDecode bytes with
    | .error err =>
      ⟨[], .returned (some (.wrapf "error decoding JSON data to slice: " err))⟩
    | .ok inputData => submitDecoded form inputData submitter tx

/-- The function `lo.Map`: the results of `f` on each item and its index. -/
def loMap {α β : Type} (collection : List α) (f : α → Nat → β) : List β :=
  (List.range collection.length).zipWith (fun i item => f item i) collection

/-- A Go value that `MarshalJSON` puts in the map it encodes. -/
inductive MapEntry where
  | text (s : String)
  | elements (items : List Element)

/-- The JSON form of a map entry: a string, or the array of the JSON forms of
the elements. -/
def MapEntry.json : MapEntry → JSONValue
  | .text s => .string s
  | .elements items => .array (items.map (fun e => e.json))

/-- The order of `strings.Compare(a, b) < 0` on the runes of two strings. -/
def keyLess : List Char → List Char → Bool
  | _, [] => false
  | [], _ :: _ => true
  | a :: as, b :: bs =>
    if a.toNat < b.toNat then true else if b.toNat < a.toNat then false else keyLess as bs

/-- Insert a member in a list of members sorted by key. -/
def insertByKey (kv : String × MapEntry) : List (String × MapEntry) → List (String × MapEntry)
  | [] => [kv]
  | x :: rest =>
    if keyLess kv.1.toList x.1.toList then kv :: x :: rest else x :: insertByKey kv rest

/-- The call `json.Marshal(m)` on a `map[string]any` given by its entries: the
object whose members are the entries in the order of their keys, and no error.
The bytes written are known by the JSON document they spell. -/
def jsonMarshal (m : List (String × MapEntry)) : Option JSONValue × Option GoError :=
  (some (.object ((m.foldr insertByKey []).map (fun kv => (kv.1, kv.2.json)))), none)

/-- The method `MarshalJSON`. -/
def Custom.MarshalJSON (form : Custom) : Option JSONValue × Option GoError :=
  if form.Elements.length = 0 then
    (none, some (.new "menu form requires at least one element"))
  else
    jsonMarshal [
      ("type", .text "custom_form"),
      ("title", .text form.Title),
      ("content", .elements (loMap form.Elements (fun item _ => item.Value)))]

/-! ## Notions used to state the properties -/

/-- The decorative element types: `Divider`, `Header` and `Label`. -/
def ElementKind.isDecorative : ElementKind → Bool
  | .Divider => true
  | .Header => true
  | .Label => true
  | _ => false

/-- The non-decorative elements of a list, in the order of the list. -/
def nonDecorative (elements : List IdentifiedElement) : List IdentifiedElement :=
  elements.filter (fun e => !e.Value.kind.isDecorative)

/-- The calls `submit` made on the elements `elements`, each with the response
value at its position, the first of them at index `i`. -/
def parseEvents : List IdentifiedElement → List JSONValue → Nat → List Event
  | e :: es, v :: vs, i => .parse i e.Key v :: parseEvents es vs (i + 1)
  | _, _, _ => []

/-- The map `m` after `m[e.Key()] = v` for each element and the value at its
position, in order. -/
def recordAll : List IdentifiedElement → List JSONValue → DataMap → DataMap
  | e :: es, v :: vs, m => recordAll es vs (mapSet m e.Key v)
  | _, _, m => m

/-- The text of the error of `SubmitJSON` for a response of the wrong length. -/
def countMismatch : GoError := .new "form JSON data array does not have enough values"

/-- The event is a call of a callback of the form (`Submit` or `Close`). -/
def Event.isCallback : Event → Bool
  | .parse _ _ _ => false
  | .submit _ _ _ _ => true
  | .close _ _ _ => true

/-- The event is a call of the `Submit` callback. -/
def Event.isSubmit : Event → Bool
  | .submit _ _ _ _ => true
  | _ => false

/-- The value is a JSON array or the literal `null`. -/
def JSONValue.isSliceLike : JSONValue → Bool
  | .array _ => true
  | .null => true
  | _ => false

/-- The event is a call of the `Close` callback. -/
def Event.isClose : Event → Bool
  | .close _ _ _ => true
  | _ => false

/-! ## The reconciliation as the specification words it

Used to compare the map that `SubmitJSON` builds with the map of
`identifier → parsed value` of the specification. -/

/-- Modelled from the spec: an element with the capability
`parseResponse(rawValue) -> (parsedValue, error)` of the specification (§6),
whose value-parsing operation yields a parsed value. `custom.go` has no such
operation: the method it calls, `submit`, returns an `error` only. -/
structure ParsingElement where
  Key : UUID
  kind : ElementKind
  parseResponse : JSONValue → Except GoError JSONValue
  json : JSONValue

/-- The identified element of `custom.go` for a parsing element: its `submit`
returns the error of `parseResponse`, or `nil` when there is none. -/
def ParsingElement.identified (p : ParsingElement) : IdentifiedElement :=
  { Key := p.Key
    Value :=
      { kind := p.kind
        submit := fun v =>
          match p.parseResponse v with
          | .ok _ => none
          | .error err => some err
        json := p.json } }

/-- Step 4 of the reconciliation in the words of the specification: for each
element and the raw value at its position, in order, `identifier → parsed
value` is recorded in the map; `none` when an element rejects its value. -/
def recordParsed : List ParsingElement → List JSONValue → DataMap → Option DataMap
  | p :: ps, v :: vs, m =>
    match p.parseResponse v with
    | .ok parsed => recordParsed ps vs (mapSet m p.Key parsed)
    | .error _ => none
  | _, _, m => some m

/-- The keys of a map, in the order of its entries. -/
def mapKeys (m : DataMap) : List UUID := m.map Prod.fst

/-! ## Number literals

The grammar of the number literals of JSON. -/

/-- A JSON number literal by its parts: an optional minus sign, the digits of
the integer part, the digits of an optional fraction, and an optional exponent
given by its marker (`e` or `E`), its sign bytes (none, `+` or `-`) and its
digits. -/
structure NumberLiteral where
  negative : Bool
  int : List Nat
  frac : Option (List Nat)
  exp : Option (Nat × List Nat × List Nat)

/-- A non-empty run of decimal digits. -/
def isDigits (ds : List Nat) : Bool := ds ≠ [] && ds.all isDigit

/-- The integer part is `0` or starts with a digit from `1` to `9`. -/
def intWellFormed (int : List Nat) : Bool :=
  int == [48] ||
    (match int with
      | d :: ds => 49 ≤ d && d ≤ 57 && ds.all isDigit
      | [] => false)

/-- A fraction has at least one digit. -/
def fracWellFormed : Option (List Nat) → Bool
  | none => true
  | some ds => isDigits ds

/-- An exponent has the marker `e` or `E`, no sign or one sign, and at least
one digit. -/
def expWellFormed : Option (Nat × List Nat × List Nat) → Bool
  | none => true
  | some (mark, sign, ds) =>
    (mark == 101 || mark == 69) && (sign == [] || sign == [43] || sign == [45]) &&
      isDigits ds

/-- The literal follows the grammar of JSON numbers. -/
def NumberLiteral.wellFormed (n : NumberLiteral) : Bool :=
  intWellFormed n.int && fracWellFormed n.frac && expWellFormed n.exp

/-- The bytes of a fraction: the point and the digits. -/
def fracBytes : Option (List Nat) → List Nat
  | none => []
  | some ds => 46 :: ds

/-- The bytes of an exponent: the marker, the sign and the digits. -/
def expBytes : Option (Nat × List Nat × List Nat) → List Nat
  | none => []
  | some (mark, sign, ds) => mark :: (sign ++ ds)

/-- The bytes of the literal. -/
def NumberLiteral.bytes (n : NumberLiteral) : List Nat :=
  (if n.negative then [45] else []) ++ n.int ++ fracBytes n.frac ++ expBytes n.exp

/-- A byte that stands for itself in a string literal: printable ASCII other
than the quote and the backslash. -/
def isPlain (c : Nat) : Bool := 32 ≤ c && c < 128 && c != 34 && c != 92

/-! ## JSON texts

The grammar of JSON as a type of texts with their white space, the bytes of a
text and the value it stands for when numbers are kept as texts, to state what
the decoder makes of a payload. -/

/-- A run of white space. -/
def isBlank (ws : List Nat) : Bool := ws.all isSpace

/-- A hexadecimal digit. -/
def isHex (c : Nat) : Bool := (hexVal c).isSome

/-- The number that a run of hexadecimal digits spells. -/
def hexNumber (hs : List Nat) : Nat :=
  hs.foldl (fun acc c => acc * 16 + (hexVal c).getD 0) 0

/-- The bytes after the first byte `c` of the UTF-8 encoding of one rune: one
continuation byte after `C2` to `DF`, two after `E0` to `EF`, three after `F0`
to `F4`, without overlong forms, surrogates and runes above `10FFFF`. -/
def utf8WellFormed (c : Nat) (tail : List Nat) : Bool :=
  match tail with
  | [b1] => 194 ≤ c && c ≤ 223 && isCont b1
  | [b1, b2] =>
    224 ≤ c && c ≤ 239 && (if c = 224 then 160 else 128) ≤ b1 &&
      b1 ≤ (if c = 237 then 159 else 191) && isCont b2
  | [b1, b2, b3] =>
    240 ≤ c && c ≤ 244 && (if c = 240 then 144 else 128) ≤ b1 &&
      b1 ≤ (if c = 244 then 143 else 191) && isCont b2 && isCont b3
  | _ => false

/-- The rune that a UTF-8 sequence of two, three or four bytes encodes. -/
def utf8Rune (c : Nat) (tail : List Nat) : Nat :=
  match tail with
  | [b1] => (c % 32) * 64 + b1 % 64
  | [b1, b2] => (c % 16) * 4096 + (b1 % 64) * 64 + b2 % 64
  | [b1, b2, b3] => (c % 8) * 262144 + (b1 % 64) * 4096 + (b2 % 64) * 64 + b3 % 64
  | _ => 65533

/-- A piece of the body of a string literal: an ASCII byte that stands for
itself, a backslash and a letter, `\u` and four hexadecimal digits, or the
UTF-8 encoding of a rune above 127. -/
inductive StringPiece where
  | plain (c : Nat)
  | escape (e : Nat)
  | unicode (hex : List Nat)
  | utf8 (c : Nat) (tail : List Nat)

/-- The piece follows the grammar of JSON strings. -/
def StringPiece.wellFormed : StringPiece → Bool
  | .plain c => isPlain c
  | .escape e => (escapeByte e).isSome
  | .unicode hex => hex.length == 4 && hex.all isHex
  | .utf8 c tail => utf8WellFormed c tail

/-- The bytes of a piece. -/
def StringPiece.bytes : StringPiece → List Nat
  | .plain c => [c]
  | .escape e => [92, e]
  | .unicode hex => 92 :: 117 :: hex
  | .utf8 c tail => c :: tail

/-- The bytes of the body of a string literal. -/
def bodyBytes : List StringPiece → List Nat
  | [] => []
  | p :: ps => p.bytes ++ bodyBytes ps

/-- The runes that the body of a string literal stands for. A `\u` escape of a
high surrogate followed by one of a low surrogate is the rune of the pair; any
other `\u` escape of a surrogate is U+FFFD. -/
def unquote : List StringPiece → List Char
  | [] => []
  | .plain c :: ps => Char.ofNat c :: unquote ps
  | .escape e :: ps => Char.ofNat ((escapeByte e).getD 0) :: unquote ps
  | .utf8 c tail :: ps => Char.ofNat (utf8Rune c tail) :: unquote ps
  | [.unicode hex] =>
    if 55296 ≤ hexNumber hex ∧ hexNumber hex < 57344 then [Char.ofNat 65533]
    else [Char.ofNat (hexNumber hex)]
  | .unicode hex :: .unicode low :: ps =>
    if 55296 ≤ hexNumber hex ∧ hexNumber hex < 57344 then
      if hexNumber hex < 56320 ∧ 56320 ≤ hexNumber low ∧ hexNumber low < 57344 then
        Char.ofNat ((hexNumber hex - 55296) * 1024 + (hexNumber low - 56320) + 65536) ::
          unquote ps
      else Char.ofNat 65533 :: unquote (.unicode low :: ps)
    else Char.ofNat (hexNumber hex) :: unquote (.unicode low :: ps)
  | .unicode hex :: p :: ps =>
    if 55296 ≤ hexNumber hex ∧ hexNumber hex < 57344 then
      Char.ofNat 65533 :: unquote (p :: ps)
    else Char.ofNat (hexNumber hex) :: unquote (p :: ps)

mutual
/-- A JSON text: a literal name, a number literal, a string literal, an array
or an object, with the white space between its tokens. -/
inductive JSONText where
  | null
  | bool (b : Bool)
  | number (n : NumberLiteral)
  | string (body : List StringPiece)
  /-- The text `[ws]`. -/
  | emptyArray (ws : List Nat)
  /-- The text `[ws items]`. -/
  | array (ws : List Nat) (items : JSONItems)
  /-- The text `{ws}`. -/
  | emptyObject (ws : List Nat)
  /-- The text `{ws members}`. -/
  | object (ws : List Nat) (members : JSONMembers)
/-- The elements of a non-empty array, each followed by white space, with a
comma and white space between two of them. -/
inductive JSONItems where
  | last (item : JSONText) (after : List Nat)
  | more (item : JSONText) (after before : List Nat) (rest : JSONItems)
/-- The members of a non-empty object: a key, white space, a colon, white
space, a value and white space, with a comma and white space between two
members. -/
inductive JSONMembers where
  | last (key : List StringPiece) (ws1 ws2 : List Nat) (value : JSONText) (after : List Nat)
  | more (key : List StringPiece) (ws1 ws2 : List Nat) (value : JSONText)
      (after before : List Nat) (rest : JSONMembers)
end

mutual
/-- The bytes of a text. -/
def JSONText.bytes : JSONText → List Nat
  | .null => [110, 117, 108, 108]
  | .bool true => [116, 114, 117, 101]
  | .bool false => [102, 97, 108, 115, 101]
  | .number n => n.bytes
  | .string body => 34 :: (bodyBytes body ++ [34])
  | .emptyArray ws => 91 :: (ws ++ [93])
  | .array ws items => 91 :: (ws ++ (items.bytes ++ [93]))
  | .emptyObject ws => 123 :: (ws ++ [125])
  | .object ws members => 123 :: (ws ++ (members.bytes ++ [125]))
/-- The bytes of the elements of an array. -/
def JSONItems.bytes : JSONItems → List Nat
  | .last item after => item.bytes ++ after
  | .more item after before rest => item.bytes ++ (after ++ 44 :: (before ++ rest.bytes))
/-- The bytes of the members of an object. -/
def JSONMembers.bytes : JSONMembers → List Nat
  | .last key ws1 ws2 value after =>
    34 :: (bodyBytes key ++ 34 :: (ws1 ++ 58 :: (ws2 ++ (value.bytes ++ after))))
  | .more key ws1 ws2 value after before rest =>
    34 :: (bodyBytes key ++ 34 :: (ws1 ++ 58 :: (ws2 ++ (value.bytes ++
      (after ++ 44 :: (before ++ rest.bytes))))))
end

mutual
/-- The value a text stands for when numbers are kept as texts: a number
literal is the `json.Number` with exactly the bytes of the literal, at any
depth. -/
def JSONText.value : JSONText → JSONValue
  | .null => .null
  | .bool b => .bool b
  | .number n => .number (asciiText n.bytes)
  | .string body => .string (String.mk (unquote body))
  | .emptyArray _ => .array []
  | .array _ items => .array items.values
  | .emptyObject _ => .object []
  | .object _ members => .object (members.entries [])
/-- The values of the elements of an array, in order. -/
def JSONItems.values : JSONItems → List JSONValue
  | .last item _ => [item.value]
  | .more item _ _ rest => item.value :: rest.values
/-- The map `m` after the members of an object are assigned to it in order. -/
def JSONMembers.entries : JSONMembers → List (String × JSONValue) → List (String × JSONValue)
  | .last key _ _ value _, m => objectSet m (String.mk (unquote key)) value.value
  | .more key _ _ value _ _ rest, m =>
    rest.entries (objectSet m (String.mk (unquote key)) value.value)
end

mutual
/-- The text follows the grammar of JSON: its white space is white space, its
number literals and its strings follow their grammars. -/
def JSONText.wellFormed : JSONText → Bool
  | .null => true
  | .bool _ => true
  | .number n => n.wellFormed
  | .string body => body.all StringPiece.wellFormed
  | .emptyArray ws => isBlank ws
  | .array ws items => isBlank ws && items.wellFormed
  | .emptyObject ws => isBlank ws
  | .object ws members => isBlank ws && members.wellFormed
/-- The elements follow the grammar. -/
def JSONItems.wellFormed : JSONItems → Bool
  | .last item after => item.wellFormed && isBlank after
  | .more item after before rest =>
    item.wellFormed && isBlank after && isBlank before && rest.wellFormed
/-- The members follow the grammar. -/
def JSONMembers.wellFormed : JSONMembers → Bool
  | .last key ws1 ws2 value after =>
    key.all StringPiece.wellFormed && isBlank ws1 && isBlank ws2 && value.wellFormed &&
      isBlank after
  | .more key ws1 ws2 value after before rest =>
    key.all StringPiece.wellFormed && isBlank ws1 && isBlank ws2 && value.wellFormed &&
      isBlank after && isBlank before && rest.wellFormed
end

mutual
/-- The number of arrays and objects that are open at the deepest place of the
text. -/
def JSONText.depth : JSONText → Nat
  | .emptyArray _ => 1
  | .array _ items => items.depth + 1
  | .emptyObject _ => 1
  | .object _ members => members.depth + 1
  | _ => 0
/-- The depth of the deepest element. -/
def JSONItems.depth : JSONItems → Nat
  | .last item _ => item.depth
  | .more item _ _ rest => max item.depth rest.depth
/-- The depth of the deepest member. -/
def JSONMembers.depth : JSONMembers → Nat
  | .last _ _ _ value _ => value.depth
  | .more _ _ _ value _ _ rest => max value.depth rest.depth
end

mutual
/-- The number of values, elements and members of a text. -/
def JSONText.size : JSONText → Nat
  | .array _ items => items.size + 1
  | .object _ members => members.size + 1
  | _ => 1
/-- The number of values and elements of the elements. -/
def JSONItems.size : JSONItems → Nat
  | .last item _ => item.size + 1
  | .more item _ _ rest => item.size + rest.size + 1
/-- The number of values and members of the members. -/
def JSONMembers.size : JSONMembers → Nat
  | .last _ _ _ value _ => value.size + 1
  | .more _ _ _ value _ _ rest => value.size + rest.size + 1
end

/-- The elements of a non-empty array, in order. -/
def JSONItems.toList : JSONItems → List JSONText
  | .last item _ => [item]
  | .more item _ _ rest => item :: rest.toList

/-- The elements of a text that is an array; `none` for any other text. -/
def JSONText.elements : JSONText → Option (List JSONText)
  | .emptyArray _ => some []
  | .array _ items => some items.toList
  | _ => none

/-- A byte that can follow a value in a JSON text: white space, a comma, a
closing bracket or a closing brace. -/
def isDelimiter (c : Nat) : Bool := isSpace c || c == 44 || c == 93 || c == 125

/-! ## Slices in memory

`custom.go` keeps the elements of a form in a slice, and `SubmitJSON` builds
a second slice with `make` and `append`. To state that the slice of the form
is left alone, the methods are given a second time on slices with their
backing arrays, and compared with the methods on lists above. -/

/-- A backing array of identified elements: its capacity and the cells
written so far, from the first on. -/
structure BackingArray where
  cap : Nat
  cells : List IdentifiedElement

/-- The arrays allocated so far; an array is known by its index. -/
abbrev Memory := List BackingArray

/-- A slice header: the backing array, the offset of the first element of the
slice in it, the length and the capacity. -/
structure Slice where
  array : Nat
  offset : Nat
  len : Nat
  cap : Nat

/-- The cells of the array with index `a`; none for an index without array,
as in the header of a `nil` slice. -/
def cellsOf (mem : Memory) (a : Nat) : List IdentifiedElement :=
  match mem[a]? with
  | some arr => arr.cells
  | none => []

/-- The elements of a slice, in order. -/
def sliceElements (mem : Memory) (s : Slice) : List IdentifiedElement :=
  ((cellsOf mem s.array).drop s.offset).take s.len

/-- The call `make([]IdentifiedElement, 0)`: a new array without cells, and the
empty slice of it. -/
def makeEmpty (mem : Memory) : Memory × Slice :=
  (mem ++ [⟨0, []⟩], ⟨mem.length, 0, 0, 0⟩)

/-- The array after the assignment of `x` to its cell `i`. -/
def BackingArray.write (arr : BackingArray) (i : Nat) (x : IdentifiedElement) :
    BackingArray :=
  ⟨arr.cap, arr.cells.take i ++ x :: arr.cells.drop (i + 1)⟩

/-- The call `append(s, x)`. With room left in the backing array, `x` is
written into it behind the elements of the slice, which changes the array for
every slice that shares it. Without room, a new array takes the elements of
the slice and `x`; its capacity `grow s.cap (s.len + 1)` is up to the runtime. -/
def appendSlice (grow : Nat → Nat → Nat) (mem : Memory) (s : Slice)
    (x : IdentifiedElement) : Memory × Slice :=
  if s.len < s.cap then
    (match mem[s.array]? with
      | some arr => mem.set s.array (arr.write (s.offset + s.len) x)
      | none => mem,
      ⟨s.array, s.offset, s.len + 1, s.cap⟩)
  else
    (mem ++ [⟨grow s.cap (s.len + 1), sliceElements mem s ++ [x]⟩],
      ⟨mem.length, 0, s.len + 1, grow s.cap (s.len + 1)⟩)

/-- The struct `Custom` as it lies in memory: the field `Elements` is a slice
header. -/
structure CustomRecord where
  Title : String
  Elements : Slice
  Submit : Option Callback
  Close : Option Callback

/-- The form that a record stands for in a memory. -/
def CustomRecord.form (record : CustomRecord) (mem : Memory) : Custom :=
  { Title := record.Title
    Elements := sliceElements mem record.Elements
    Submit := record.Submit
    Close := record.Close }

/-- The slice of the record holds written cells only. -/
def CustomRecord.wellFormed (record : CustomRecord) (mem : Memory) : Prop :=
  record.Elements.offset + record.Elements.len ≤ (cellsOf mem record.Elements.array).length

/-- The loop `for _, element := range form.Elements` of `SubmitJSON` on
slices, from index `i` of the slice `source` on, with `n` turns to go: a turn
reads the element at index `i` and appends it to `elements` unless it is a
`Divider`, `Header` or `Label`. (The slice of a well-formed record has a
written cell at every index below its length.) -/
def filterLoop (grow : Nat → Nat → Nat) (source : Slice) :
    Nat → Nat → Memory → Slice → Memory × Slice
  | 0, _, mem, elements => (mem, elements)
  | n + 1, i, mem, elements =>
    match (cellsOf mem source.array)[source.offset + i]? with
    | none => (mem, elements)
    | some element =>
      match element.Value.kind with
      | .Divider | .Header | .Label => filterLoop grow source n (i + 1) mem elements
      | _ =>
        filterLoop grow source n (i + 1) (appendSlice grow mem elements element).1
          (appendSlice grow mem elements element).2

/-- The loop over the matched elements and the call of `Submit` that end
`SubmitJSON`, on the list of the matched elements. -/
def submitMatched (submit : Option Callback) (inputData : List JSONValue)
    (elements : List IdentifiedElement) (submitter : Submitter) (tx : Tx) : Run :=
  match parseLoop inputData elements 0 [] with
  | (trace, .error status) => ⟨trace, status⟩
  | (trace, .ok dataMap) =>
    match submit with
    | some callback => ⟨trace ++ [.submit callback submitter tx dataMap], .returned none⟩
    | none => ⟨trace, .returned none⟩

/-- The method `SubmitJSON` on a record in memory: the memory and the record
after the call, and the run. The method assigns to no field of the form; the
memory changes by `make` and `append` only. -/
def CustomRecord.SubmitJSON (grow : Nat → Nat → Nat) (record : CustomRecord) (mem : Memory)
    (data : Option (List Nat)) (submitter : Submitter) (tx : Tx) :
    Memory × CustomRecord × Run :=
  match data with
  | none =>
    match record.Close with
    | some close => (mem, record, ⟨[.close close submitter tx], .returned none⟩)
    | none => (mem, record, ⟨[], .returned none⟩)
  | some bytes =>
    match jsonDecode bytes with
    | .error err =>
      (mem, record, ⟨[], .returned (some (.wrapf "error decoding JSON data to slice: " err))⟩)
    | .ok inputData =>
      if record.Elements.len ≠ inputData.length then
        if (filterLoop grow record.Elements record.Elements.len 0 (makeEmpty mem).1
            (makeEmpty mem).2).2.len ≠ inputData.length then
          ((filterLoop grow record.Elements record.Elements.len 0 (makeEmpty mem).1
              (makeEmpty mem).2).1, record,
            ⟨[], .returned (some (.new "form JSON data array does not have enough values"))⟩)
        else
          ((filterLoop grow record.Elements record.Elements.len 0 (makeEmpty mem).1
              (makeEmpty mem).2).1, record,
            submitMatched record.Submit inputData
              (sliceElements
                (filterLoop grow record.Elements record.Elements.len 0 (makeEmpty mem).1
                  (makeEmpty mem).2).1
                (filterLoop grow record.Elements record.Elements.len 0 (makeEmpty mem).1
                  (makeEmpty mem).2).2)
              submitter tx)
      else
        (mem, record,
          submitMatched record.Submit inputData (sliceElements mem record.Elements)
            submitter tx)

/-- The method `MarshalJSON` on a record in memory: the memory and the record
after the call, and the result. The method reads the slice of the form and
assigns to nothing but the slice that `lo.Map` makes for its result. -/
def CustomRecord.MarshalJSON (record : CustomRecord) (mem : Memory) :
    Memory × CustomRecord × (Option JSONValue × Option GoError) :=
  if record.Elements.len = 0 then
    (mem, record, (none, some (.new "menu form requires at least one element")))
  else
    (mem, record,
      jsonMarshal [
        ("type", .text "custom_form"),
        ("title", .text record.Title),
        ("content",
          .elements (loMap (sliceElements mem record.Elements) (fun item _ => item.Value)))])

/-- The method `Element` on a record in memory:
`form.Elements = append(form.Elements, element)`. -/
def CustomRecord.Element (grow : Nat → Nat → Nat) (record : CustomRecord) (mem : Memory)
    (element : IdentifiedElement) : Memory × CustomRecord :=
  ((appendSlice grow mem record.Elements element).1,
    { record with Elements := (appendSlice grow mem record.Elements element).2 })

/-! ## Example elements and forms

The elements below are examples to run the methods on; their `submit`
functions are not those of the element types of the package. -/

/-- An example toggle: its `submit` accepts a JSON boolean. -/
def exampleToggle : Element :=
  { kind := .Toggle
    submit := fun v =>
      match v with
      | .bool _ => none
      | _ => some (.new "value is not a bool")
    json := .object [("type", .string "toggle")] }

/-- An example slider: its `submit` accepts a JSON number. -/
def exampleSlider : Element :=
  { kind := .Slider
    submit := fun v =>
      match v with
      | .number _ => none
      | _ => some (.new "value is not a number")
    json := .object [("type", .string "slider")] }

/-- An example label: its `submit` accepts any value. -/
def exampleLabel : Element :=
  { kind := .Label
    submit := fun _ => none
    json := .object [("type", .string "label")] }

/-- The key `A` of the examples. -/
def keyA : UUID := 10

/-- The key `B` of the examples. -/
def keyB : UUID := 11

/-- The key of the label of the examples. -/
def keyL : UUID := 12

/-- The form `[Toggle(A), Slider(B)]` with both callbacks. -/
def formToggleSlider : Custom :=
  { Title := "settings"
    Elements := [⟨keyA, exampleToggle⟩, ⟨keyB, exampleSlider⟩]
    Submit := some ⟨1⟩
    Close := some ⟨2⟩ }

/-- The form `[Label, Toggle(A), Slider(B)]` with both callbacks. -/
def formLabelToggleSlider : Custom :=
  { Title := "settings"
    Elements := [⟨keyL, exampleLabel⟩, ⟨keyA, exampleToggle⟩, ⟨keyB, exampleSlider⟩]
    Submit := some ⟨1⟩
    Close := some ⟨2⟩ }

/-- A form without elements, with both callbacks. -/
def formNoElements : Custom :=
  { Title := "empty"
    Elements := []
    Submit := some ⟨1⟩
    Close := some ⟨2⟩ }

/-- A form with a label only, with both callbacks. -/
def formLabelOnly : Custom :=
  { Title := "notice"
    Elements := [⟨keyL, exampleLabel⟩]
    Submit := some ⟨1⟩
    Close := some ⟨2⟩ }

/-- An example dropdown with the options `red` and `green`: its parsing
operation turns the index of an option into the option. -/
def exampleDropdown : ParsingElement :=
  { Key := keyB
    kind := .Dropdown
    parseResponse := fun v =>
      match v with
      | .number "0" => .ok (.string "red")
      | .number "1" => .ok (.string "green")
      | _ => .error (.new "value is not the index of an option")
    json := .object [("type", .string "dropdown")] }

/-- The form `[Dropdown(B)]` with both callbacks. -/
def formDropdown : Custom :=
  { Title := "colour"
    Elements := [exampleDropdown.identified]
    Submit := some ⟨1⟩
    Close := some ⟨2⟩ }

/-- The form `[Toggle(A), Slider(A)]`, whose elements share the key `A`. -/
def formSharedKey : Custom :=
  { Title := "settings"
    Elements := [⟨keyA, exampleToggle⟩, ⟨keyA, exampleSlider⟩]
    Submit := some ⟨1⟩
    Close := some ⟨2⟩ }

/-- The form `[Toggle(A), Toggle(B)]` with both callbacks. -/
def formToggleToggle : Custom :=
  { Title := "switches"
    Elements := [⟨keyA, exampleToggle⟩, ⟨keyB, exampleToggle⟩]
    Submit := some ⟨1⟩
    Close := some ⟨2⟩ }

/-- The form `[Toggle(A), Label]` with both callbacks. -/
def formToggleLabel : Custom :=
  { Title := "settings"
    Elements := [⟨keyA, exampleToggle⟩, ⟨keyL, exampleLabel⟩]
    Submit := some ⟨1⟩
    Close := some ⟨2⟩ }

/-- The form `[Slider(B)]` with both callbacks. -/
def formSlider : Custom :=
  { Title := "amount"
    Elements := [⟨keyB, exampleSlider⟩]
    Submit := some ⟨1⟩
    Close := some ⟨2⟩ }

/-- The number literal `9007199254740993`, which is `2^53 + 1` and is not a
64-bit floating-point number. -/
def bigLiteral : NumberLiteral :=
  { negative := false
    int := bytesOf "9007199254740993"
    frac := none
    exp := none }

/-- A memory with one array, which holds a label, the toggle `A` and the
slider `B`. -/
def memoryOfExample : Memory :=
  [⟨3, [⟨keyL, exampleLabel⟩, ⟨keyA, exampleToggle⟩, ⟨keyB, exampleSlider⟩]⟩]

/-- The form `[Label, Toggle(A), Slider(B)]` as a record: its slice is the
whole of the array of the example memory. -/
def recordOfExample : CustomRecord :=
  { Title := "settings"
    Elements := ⟨0, 0, 3, 3⟩
    Submit := some ⟨1⟩
    Close := some ⟨2⟩ }

/-- A growth of capacities by doubling, for the examples. -/
def growDouble (cap needed : Nat) : Nat := max (2 * cap) needed

/-- The array text `[true, 9007199254740993 ]`, with white space after the
comma and before the closing bracket. -/
def exampleArray : JSONText :=
  .array [] (.more (.bool true) [] [32] (.last (.number bigLiteral) [32]))

/-- The submitter of the examples. -/
def somebody : Submitter := ⟨7⟩

/-- The transaction of the examples. -/
def someTx : Tx := ⟨3⟩

/-! ## Lemmas -/

theorem foldl_filterStep (es acc : List IdentifiedElement) :
    es.foldl filterStep acc = acc ++ nonDecorative es := by
  induction es generalizing acc with
  | nil => simp [nonDecorative]
  | cons e es ih =>
    rw [List.foldl_cons, ih]
    cases hk : e.Value.kind <;>
      simp [filterStep, nonDecorative, List.filter_cons, hk, ElementKind.isDecorative]

theorem filtered_eq (form : Custom) :
    form.Elements.foldl filterStep [] = nonDecorative form.Elements := by
  simp [foldl_filterStep]

theorem nonDecorative_length_le (es : List IdentifiedElement) :
    (nonDecorative es).length ≤ es.length :=
  List.length_filter_le _ _

theorem nonDecorative_eq_self (es : List IdentifiedElement)
    (h : (nonDecorative es).length = es.length) : nonDecorative es = es := by
  unfold nonDecorative at *
  exact List.filter_eq_self.mpr (fun a ha => by
    have := (List.filter_length_eq_length.mp h) a ha
    exact this)

theorem matchElements_eq (form : Custom) (inputData : List JSONValue) :
    matchElements form inputData =
      if form.Elements.length = inputData.length then some form.Elements
      else if (nonDecorative form.Elements).length = inputData.length then
        some (nonDecorative form.Elements)
      else none := by
  unfold matchElements
  rw [filtered_eq]
  by_cases h1 : form.Elements.length = inputData.length
  · simp [h1]
  · by_cases h2 : (nonDecorative form.Elements).length = inputData.length <;> simp [h1, h2]

theorem matchElements_length (form : Custom) (inputData : List JSONValue)
    (elements : List IdentifiedElement) (h : matchElements form inputData = some elements) :
    elements.length = inputData.length := by
  rw [matchElements_eq] at h
  split at h
  · cases h; assumption
  · split at h
    · cases h; assumption
    · cases h

theorem matchElements_of_nonDecorative (form : Custom) (inputData : List JSONValue)
    (h : inputData.length = (nonDecorative form.Elements).length) :
    matchElements form inputData = some (nonDecorative form.Elements) := by
  rw [matchElements_eq]
  by_cases h1 : form.Elements.length = inputData.length
  · rw [if_pos h1, nonDecorative_eq_self _ (by omega)]
  · rw [if_neg h1, if_pos h.symm]

theorem mapGet_mapSet (m : DataMap) (k k' : UUID) (v : JSONValue) :
    mapGet (mapSet m k v) k' = if k = k' then some v else mapGet m k' := by
  induction m with
  | nil => simp [mapSet, mapGet]
  | cons kv rest ih =>
    obtain ⟨k0, v0⟩ := kv
    by_cases h0 : k0 = k
    · subst h0
      by_cases h1 : k0 = k' <;> simp [mapSet, mapGet, h1]
    · by_cases h1 : k = k'
      · subst h1
        simp [mapSet, mapGet, h0, ih]
      · by_cases h2 : k0 = k'
        · subst h2
          simp [mapSet, mapGet, h0, h1]
        · simp [mapSet, mapGet, h0, h1, h2, ih]

theorem drop_cons_of_getElem (l : List JSONValue) (i : Nat) (v : JSONValue)
    (h : l[i]? = some v) : l.drop i = v :: l.drop (i + 1) := by
  obtain ⟨hi, hv⟩ := List.getElem?_eq_some.mp h
  rw [List.drop_eq_getElem_cons hi, hv]

theorem parseLoop_ok (inputData : List JSONValue) (es : List IdentifiedElement) (i : Nat)
    (m : DataMap) (hlen : i + es.length ≤ inputData.length)
    (hacc : ∀ k e v, es[k]? = some e → inputData[i + k]? = some v → e.Value.submit v = none) :
    parseLoop inputData es i m =
      (parseEvents es (inputData.drop i) i, .ok (recordAll es (inputData.drop i) m)) := by
  induction es generalizing i m with
  | nil => simp [parseLoop, parseEvents, recordAll]
  | cons e es ih =>
    have hi : i < inputData.length := by simp at hlen; omega
    have hv : inputData[i]? = some inputData[i] := List.getElem?_eq_getElem hi
    have h0 := hacc 0 e inputData[i] (by simp) (by simp)
    have ih' := ih (i + 1) (mapSet m e.Key inputData[i]) (by simp at hlen; omega)
      (fun k e' v' he' hv' => hacc (k + 1) e' v' (by simpa using he')
        (by rw [← hv']; congr 1; omega))
    rw [drop_cons_of_getElem _ _ _ hv]
    simp only [parseLoop, hv, h0, ih', parseEvents, recordAll]

theorem parseLoop_fail (inputData : List JSONValue) (es : List IdentifiedElement) (i : Nat)
    (m : DataMap) (j : Nat) (e : IdentifiedElement) (v : JSONValue) (err : GoError)
    (he : es[j]? = some e) (hv : inputData[i + j]? = some v)
    (herr : e.Value.submit v = some err)
    (hacc : ∀ k e' v', k < j → es[k]? = some e' → inputData[i + k]? = some v' →
      e'.Value.submit v' = none) :
    parseLoop inputData es i m =
      (parseEvents (es.take (j + 1)) (inputData.drop i) i,
        .error (.returned (some (.wrapf "error parsing form response value: " err)))) := by
  induction es generalizing i m j with
  | nil => simp at he
  | cons e0 es ih =>
    cases j with
    | zero =>
      simp at he hv
      subst he
      rw [drop_cons_of_getElem _ _ _ hv]
      simp [parseLoop, hv, herr, parseEvents]
    | succ j =>
      have hi : i < inputData.length := by
        have := (List.getElem?_eq_some.mp hv).1
        omega
      have hvi : inputData[i]? = some inputData[i] := List.getElem?_eq_getElem hi
      have h0 := hacc 0 e0 inputData[i] (by omega) (by simp) (by simp)
      have ih' := ih (i + 1) (mapSet m e0.Key inputData[i]) j (by simpa using he)
        (by rw [← hv]; congr 1; omega)
        (fun k e' v' hk he' hv' => hacc (k + 1) e' v' (by omega) (by simpa using he')
          (by rw [← hv']; congr 1; omega))
      rw [drop_cons_of_getElem _ _ _ hvi]
      simp only [parseLoop, hvi, h0, ih', parseEvents, List.take_succ_cons]

theorem parseLoop_trace (inputData : List JSONValue) (es : List IdentifiedElement) (i : Nat)
    (m : DataMap) : ∀ ev ∈ (parseLoop inputData es i m).1, ev.isCallback = false := by
  induction es generalizing i m with
  | nil => simp [parseLoop]
  | cons e es ih =>
    intro ev hev
    unfold parseLoop at hev
    cases hv : inputData[i]? with
    | none => simp [hv] at hev
    | some v =>
      cases hs : e.Value.submit v with
      | some err =>
        simp [hv, hs] at hev
        subst hev
        rfl
      | none =>
        simp only [hv, hs, List.mem_cons] at hev
        rcases hev with h | h
        · subst h; rfl
        · exact ih _ _ ev h

theorem parseLoop_inv_ok (inputData : List JSONValue) (es : List IdentifiedElement) (i : Nat)
    (m m' : DataMap) (hi : i ≤ inputData.length)
    (h : (parseLoop inputData es i m).2 = .ok m') :
    i + es.length ≤ inputData.length ∧
      ∀ k e v, es[k]? = some e → inputData[i + k]? = some v → e.Value.submit v = none := by
  induction es generalizing i m with
  | nil => simpa using hi
  | cons e es ih =>
    unfold parseLoop at h
    cases hv : inputData[i]? with
    | none => simp [hv] at h
    | some v =>
      cases hs : e.Value.submit v with
      | some err => simp [hv, hs] at h
      | none =>
        simp only [hv, hs] at h
        have hlt := (List.getElem?_eq_some.mp hv).1
        obtain ⟨h1, h2⟩ := ih _ _ (by omega) h
        refine ⟨by simp; omega, ?_⟩
        intro k e' v' he' hv'
        cases k with
        | zero =>
          simp at he' hv'
          subst he'
          rw [hv] at hv'
          cases hv'
          exact hs
        | succ k =>
          exact h2 k e' v' (by simpa using he') (by rw [← hv']; congr 1; omega)

theorem parseLoop_inv_error (inputData : List JSONValue) (es : List IdentifiedElement)
    (i : Nat) (m : DataMap) (st : Status) (h : (parseLoop inputData es i m).2 = .error st) :
    (st = .panicked ∧ inputData.length < i + es.length) ∨
      ∃ err, st = .returned (some (.wrapf "error parsing form response value: " err)) := by
  induction es generalizing i m with
  | nil => simp [parseLoop] at h
  | cons e es ih =>
    unfold parseLoop at h
    cases hv : inputData[i]? with
    | none =>
      simp [hv] at h
      left
      refine ⟨h.symm, ?_⟩
      have := List.getElem?_eq_none_iff.mp hv
      simp
      omega
    | some v =>
      cases hs : e.Value.submit v with
      | some err =>
        simp [hv, hs] at h
        exact Or.inr ⟨err, h.symm⟩
      | none =>
        simp only [hv, hs] at h
        rcases ih _ _ h with ⟨h1, h2⟩ | h1
        · left
          exact ⟨h1, by simp; omega⟩
        · exact Or.inr h1

theorem mapGet_recordAll_of_not_mem (es : List IdentifiedElement) (vs : List JSONValue)
    (m : DataMap) (k : UUID) (h : ∀ e ∈ es, e.Key ≠ k) :
    mapGet (recordAll es vs m) k = mapGet m k := by
  induction es generalizing vs m with
  | nil => simp [recordAll]
  | cons e es ih =>
    cases vs with
    | nil => simp [recordAll]
    | cons v vs =>
      simp only [recordAll]
      rw [ih vs _ (fun e' he' => h e' (List.mem_cons_of_mem _ he')), mapGet_mapSet,
        if_neg (h e (List.mem_cons_self _ _))]

theorem mapGet_recordAll_last (es : List IdentifiedElement) (vs : List JSONValue)
    (m : DataMap) (i : Nat) (e : IdentifiedElement) (v : JSONValue)
    (he : es[i]? = some e) (hv : vs[i]? = some v)
    (hlast : ∀ j e', i < j → es[j]? = some e' → e'.Key ≠ e.Key) :
    mapGet (recordAll es vs m) e.Key = some v := by
  induction es generalizing vs m i with
  | nil => simp at he
  | cons e0 es ih =>
    cases vs with
    | nil => simp at hv
    | cons v0 vs =>
      simp only [recordAll]
      cases i with
      | zero =>
        simp at he hv
        subst he hv
        rw [mapGet_recordAll_of_not_mem, mapGet_mapSet, if_pos rfl]
        intro e' he'
        obtain ⟨j, hj⟩ := List.getElem?_of_mem he'
        exact hlast (j + 1) e' (by omega) (by simpa using hj)
      | succ i =>
        exact ih vs _ i (by simpa using he) (by simpa using hv)
          (fun j e' hj he' => hlast (j + 1) e' (by omega) (by simpa using he'))

theorem mapGet_recordAll_isSome (es : List IdentifiedElement) (vs : List JSONValue)
    (m : DataMap) (k : UUID) (h : (mapGet (recordAll es vs m) k).isSome) :
    (mapGet m k).isSome ∨ ∃ e ∈ es, e.Key = k := by
  induction es generalizing vs m with
  | nil => simpa [recordAll] using h
  | cons e es ih =>
    cases vs with
    | nil => exact Or.inl (by simpa [recordAll] using h)
    | cons v vs =>
      simp only [recordAll] at h
      rcases ih vs _ h with h1 | ⟨e', he', hk⟩
      · rw [mapGet_mapSet] at h1
        by_cases hek : e.Key = k
        · exact Or.inr ⟨e, List.mem_cons_self _ _, hek⟩
        · rw [if_neg hek] at h1
          exact Or.inl h1
      · exact Or.inr ⟨e', List.mem_cons_of_mem _ he', hk⟩

theorem mapGet_recordAll_mono (es : List IdentifiedElement) (vs : List JSONValue)
    (m : DataMap) (k : UUID) (h : (mapGet m k).isSome) :
    (mapGet (recordAll es vs m) k).isSome := by
  induction es generalizing vs m with
  | nil => simpa [recordAll] using h
  | cons e es ih =>
    cases vs with
    | nil => simpa [recordAll] using h
    | cons v vs =>
      simp only [recordAll]
      apply ih
      rw [mapGet_mapSet]
      split
      · rfl
      · exact h

theorem mapGet_recordAll_mem (es : List IdentifiedElement) (vs : List JSONValue)
    (m : DataMap) (hlen : es.length ≤ vs.length) :
    ∀ e ∈ es, (mapGet (recordAll es vs m) e.Key).isSome := by
  induction es generalizing vs m with
  | nil => simp
  | cons e0 es ih =>
    cases vs with
    | nil => simp at hlen
    | cons v vs =>
      intro e he
      simp only [recordAll]
      rcases List.mem_cons.mp he with h | h
      · subst h
        apply mapGet_recordAll_mono
        rw [mapGet_mapSet, if_pos rfl]
        rfl
      · exact ih vs _ (by simpa using hlen) e h

theorem loMap_value {α β : Type} (l : List α) (f : α → β) :
    loMap l (fun item _ => f item) = l.map f := by
  unfold loMap
  apply List.ext_getElem?
  intro n
  simp only [List.getElem?_zipWith, List.getElem?_map, List.getElem?_range]
  by_cases h : n < l.length
  · simp [List.getElem?_range, h, List.getElem?_eq_getElem h]
  · simp [List.getElem?_eq_none (by omega : l.length ≤ n)]

theorem key_ne_of_nodup (es : List IdentifiedElement)
    (h : (es.map (fun e => e.Key)).Nodup) (i j : Nat) (e e' : IdentifiedElement)
    (hij : i < j) (he : es[i]? = some e) (he' : es[j]? = some e') : e'.Key ≠ e.Key := by
  have hj : j < (es.map (fun e => e.Key)).length := by
    have := (List.getElem?_eq_some.mp he').1
    simpa using this
  have := List.nodup_iff_getElem?_ne_getElem?.mp h i j hij hj
  intro hk
  apply this
  simp [List.getElem?_map, he, he', hk]

theorem SubmitJSON_decoded (form : Custom) (bytes : List Nat) (inputData : List JSONValue)
    (submitter : Submitter) (tx : Tx) (h : jsonDecode bytes = .ok inputData) :
    form.SubmitJSON (some bytes) submitter tx = submitDecoded form inputData submitter tx := by
  simp only [Custom.SubmitJSON, h]

theorem SubmitJSON_undecoded (form : Custom) (bytes : List Nat) (err : GoError)
    (submitter : Submitter) (tx : Tx) (h : jsonDecode bytes = .error err) :
    form.SubmitJSON (some bytes) submitter tx =
      ⟨[], .returned (some (.wrapf "error decoding JSON data to slice: " err))⟩ := by
  simp only [Custom.SubmitJSON, h]

theorem submitDecoded_unmatched (form : Custom) (inputData : List JSONValue)
    (submitter : Submitter) (tx : Tx) (h : matchElements form inputData = none) :
    submitDecoded form inputData submitter tx = ⟨[], .returned (some countMismatch)⟩ := by
  simp only [submitDecoded, h, countMismatch]

theorem submitDecoded_failed (form : Custom) (inputData : List JSONValue)
    (submitter : Submitter) (tx : Tx) (elements : List IdentifiedElement) (st : Status)
    (h : matchElements form inputData = some elements)
    (hl : (parseLoop inputData elements 0 []).2 = .error st) :
    submitDecoded form inputData submitter tx = ⟨(parseLoop inputData elements 0 []).1, st⟩ := by
  simp only [submitDecoded, h]
  generalize parseLoop inputData elements 0 [] = r at hl
  obtain ⟨tr, res⟩ := r
  simp only at hl
  subst hl
  rfl

theorem submitDecoded_finished (form : Custom) (inputData : List JSONValue)
    (submitter : Submitter) (tx : Tx) (elements : List IdentifiedElement) (dataMap : DataMap)
    (h : matchElements form inputData = some elements)
    (hl : (parseLoop inputData elements 0 []).2 = .ok dataMap) :
    submitDecoded form inputData submitter tx =
      ⟨(parseLoop inputData elements 0 []).1 ++
          (match form.Submit with
            | some submit => [Event.submit submit submitter tx dataMap]
            | none => []),
        .returned none⟩ := by
  simp only [submitDecoded, h]
  generalize parseLoop inputData elements 0 [] = r at hl
  obtain ⟨tr, res⟩ := r
  simp only at hl
  subst hl
  cases form.Submit <;> simp

theorem matchElements_cases (form : Custom) (inputData : List JSONValue)
    (elements : List IdentifiedElement) (h : matchElements form inputData = some elements) :
    elements = form.Elements ∨ elements = nonDecorative form.Elements := by
  rw [matchElements_eq] at h
  split at h
  · cases h; exact Or.inl rfl
  · split at h
    · cases h; exact Or.inr rfl
    · cases h

theorem isSubmit_of_not_callback (ev : Event) (h : ev.isCallback = false) :
    ev.isSubmit = false := by
  cases ev <;> simp_all [Event.isCallback, Event.isSubmit]

theorem parseLoop_result (inputData : List JSONValue) (es : List IdentifiedElement)
    (dataMap : DataMap) (h : (parseLoop inputData es 0 []).2 = .ok dataMap) :
    es.length ≤ inputData.length ∧
      (∀ (k : Nat) (e : IdentifiedElement) (v : JSONValue), es[k]? = some e →
        inputData[k]? = some v → e.Value.submit v = none) ∧
      (parseLoop inputData es 0 []).1 = parseEvents es inputData 0 ∧
      dataMap = recordAll es inputData [] := by
  obtain ⟨h1, h2⟩ := parseLoop_inv_ok inputData es 0 [] dataMap (Nat.zero_le _) h
  have h3 := parseLoop_ok inputData es 0 [] h1 h2
  rw [h3] at h
  simp only [List.drop_zero, Except.ok.injEq] at h
  refine ⟨by omega, by simpa using h2, by rw [h3]; simp, h.symm⟩

theorem mem_parseEvents (es : List IdentifiedElement) (vs : List JSONValue) (i0 : Nat)
    (ev : Event) (h : ev ∈ parseEvents es vs i0) :
    ∃ (i : Nat) (e : IdentifiedElement) (v : JSONValue),
      ev = .parse (i0 + i) e.Key v ∧ es[i]? = some e ∧ vs[i]? = some v := by
  induction es generalizing vs i0 with
  | nil => simp [parseEvents] at h
  | cons e es ih =>
    cases vs with
    | nil => simp [parseEvents] at h
    | cons v vs =>
      simp only [parseEvents, List.mem_cons] at h
      rcases h with h | h
      · exact ⟨0, e, v, by simpa using h, by simp, by simp⟩
      · obtain ⟨i, e', v', h1, h2, h3⟩ := ih vs (i0 + 1) h
        exact ⟨i + 1, e', v', by rw [h1]; congr 1; omega, by simpa using h2,
          by simpa using h3⟩

theorem except_map_ok {α β : Type} (f : α → β) (x : Except GoError α) (b : β)
    (h : x.map f = .ok b) : ∃ a, x = .ok a ∧ f a = b := by
  cases x with
  | error e => simp [Except.map] at h
  | ok a => exact ⟨a, rfl, by simpa [Except.map] using h⟩

theorem parseValue_first_byte (fuel depth c : Nat) (rest r : List Nat) (v : JSONValue)
    (h1 : c ≠ 91) (h2 : c ≠ 110)
    (h : parseValue (fuel + 1) depth (c :: rest) = .ok (v, r)) : v.isSliceLike = false := by
  unfold parseValue at h
  simp only [h1, h2, if_false] at h
  split_ifs at h
  · split at h
    · cases h; rfl
    · obtain ⟨a, _, ha⟩ := except_map_ok _ _ _ h
      cases ha; rfl
  · obtain ⟨a, _, ha⟩ := except_map_ok _ _ _ h
    cases ha; rfl
  · obtain ⟨a, _, ha⟩ := except_map_ok _ _ _ h
    cases ha; rfl
  · obtain ⟨a, _, ha⟩ := except_map_ok _ _ _ h
    cases ha; rfl
  · obtain ⟨a, _, ha⟩ := except_map_ok _ _ _ h
    cases ha; rfl

theorem jsonDecode_first_byte (data rest : List Nat) (c : Nat)
    (hs : skipSpace data = c :: rest) (h1 : c ≠ 91) (h2 : c ≠ 110) :
    ∃ err, jsonDecode data = .error err := by
  unfold jsonDecode
  rw [hs]
  simp only [List.length_cons]
  rw [show 2 * (rest.length + 1) + 2 = (2 * rest.length + 3) + 1 by omega]
  cases hp : parseValue (2 * rest.length + 3 + 1) maxNestingDepth (c :: rest) with
  | error e => exact ⟨e, rfl⟩
  | ok p =>
    obtain ⟨v, r⟩ := p
    have := parseValue_first_byte _ _ _ _ _ _ h1 h2 hp
    cases v <;> simp [JSONValue.isSliceLike] at this ⊢

theorem jsonDecode_null : jsonDecode (bytesOf "null") = .ok [] := rfl

/-! ### The decoder consumes its input and never runs out of fuel -/

theorem skipSpace_length_le (cs : List Nat) : (skipSpace cs).length ≤ cs.length := by
  induction cs with
  | nil => simp [skipSpace]
  | cons c cs ih =>
    unfold skipSpace
    split
    · simp; omega
    · simp

theorem skipSpace_cons_length (cs r : List Nat) (c : Nat) (h : skipSpace cs = c :: r) :
    r.length < cs.length := by
  have := skipSpace_length_le cs
  rw [h] at this
  simp at this
  omega

theorem takeDigits_length_le (cs : List Nat) : (takeDigits cs).2.length ≤ cs.length := by
  induction cs with
  | nil => simp [takeDigits]
  | cons c cs ih =>
    unfold takeDigits
    split
    · simp; omega
    · simp

theorem scanWord_length_le (es : List Nat) (name : String) (cs r : List Nat)
    (h : scanWord es name cs = .ok r) : r.length ≤ cs.length := by
  induction es generalizing cs with
  | nil =>
    simp [scanWord] at h
    subst h
    exact Nat.le_refl _
  | cons e es ih =>
    cases cs with
    | nil => simp [scanWord] at h
    | cons c cs =>
      simp only [scanWord] at h
      split at h
      · have := ih cs h
        simp; omega
      · cases h

theorem scanInt_length_lt (cs a r : List Nat) (h : scanInt cs = .ok (a, r)) :
    r.length < cs.length := by
  cases cs with
  | nil => simp [scanInt] at h
  | cons c cs =>
    simp only [scanInt] at h
    have := takeDigits_length_le cs
    split_ifs at h <;> simp at h <;> obtain ⟨_, h⟩ := h <;> subst h <;> first | (simp; done) | (simp; omega)

theorem scanFrac_length_le (cs a r : List Nat) (h : scanFrac cs = .ok (a, r)) :
    r.length ≤ cs.length := by
  unfold scanFrac at h
  split at h
  · cases h
  · rename_i c cs'
    have := takeDigits_length_le cs'
    split_ifs at h
    simp at h
    obtain ⟨_, h⟩ := h
    subst h
    simp; omega
  · simp at h
    obtain ⟨_, h⟩ := h
    subst h
    exact Nat.le_refl _

theorem scanExpDigits_length_le (cs a r : List Nat) (h : scanExpDigits cs = .ok (a, r)) :
    r.length ≤ cs.length := by
  cases cs with
  | nil => simp [scanExpDigits] at h
  | cons c cs =>
    simp only [scanExpDigits] at h
    have := takeDigits_length_le cs
    split_ifs at h
    simp at h
    obtain ⟨_, h⟩ := h
    subst h
    simp; omega

theorem scanExp_length_le (cs a r : List Nat) (h : scanExp cs = .ok (a, r)) :
    r.length ≤ cs.length := by
  cases cs with
  | nil =>
    simp [scanExp] at h
    obtain ⟨_, h⟩ := h
    subst h
    simp
  | cons c cs =>
    simp only [scanExp] at h
    split_ifs at h
    · split at h
      all_goals
        obtain ⟨p, hp, hf⟩ := except_map_ok _ _ _ h
        obtain ⟨p1, p2⟩ := p
        have := scanExpDigits_length_le _ _ _ hp
        simp at hf
        obtain ⟨_, hf⟩ := hf
        subst hf
        simp at this ⊢
        omega
    · simp at h
      obtain ⟨_, h⟩ := h
      subst h
      simp

theorem scanSign_length_le (cs : List Nat) : (scanSign cs).2.length ≤ cs.length := by
  unfold scanSign
  split <;> simp

theorem scanNumber_length_lt (cs lit r : List Nat) (h : scanNumber cs = .ok (lit, r)) :
    r.length < cs.length := by
  unfold scanNumber at h
  have hsigned := scanSign_length_le cs
  cases h1 : scanInt (scanSign cs).2 with
  | error e => simp [h1] at h
  | ok p1 =>
    obtain ⟨a1, r1⟩ := p1
    have l1 := scanInt_length_lt _ _ _ h1
    simp only [h1] at h
    cases h2 : scanFrac r1 with
    | error e => simp [h2] at h
    | ok p2 =>
      obtain ⟨a2, r2⟩ := p2
      have l2 := scanFrac_length_le _ _ _ h2
      simp only [h2] at h
      cases h3 : scanExp r2 with
      | error e => simp [h3] at h
      | ok p3 =>
        obtain ⟨a3, r3⟩ := p3
        have l3 := scanExp_length_le _ _ _ h3
        simp only [h3] at h
        simp at h
        obtain ⟨_, h⟩ := h
        subst h
        omega

theorem scanHex_length_le (n acc : Nat) (cs r : List Nat) (x : Nat)
    (h : scanHex n acc cs = .ok (x, r)) : r.length ≤ cs.length := by
  induction n generalizing acc cs with
  | zero =>
    simp [scanHex] at h
    obtain ⟨_, h⟩ := h
    subst h
    exact Nat.le_refl _
  | succ n ih =>
    cases cs with
    | nil => simp [scanHex] at h
    | cons c cs =>
      simp only [scanHex] at h
      split at h
      · have := ih _ _ h
        simp; omega
      · cases h

theorem getu4_length_le (cs r : List Nat) (x : Nat) (h : getu4 cs = some (x, r)) :
    r.length ≤ cs.length := by
  unfold getu4 at h
  split at h
  · rename_i r0
    split at h
    · rename_i p hp
      cases h
      have := scanHex_length_le _ _ _ _ _ hp
      simp; omega
    · cases h
  · cases h

theorem decodeRune_length_le (c : Nat) (cs : List Nat) :
    (decodeRune c cs).2.length ≤ cs.length := by
  unfold decodeRune
  split_ifs <;> (try split) <;> (try split_ifs) <;> simp <;> omega

theorem scanString_length_lt (fuel : Nat) (cs : List Nat) (acc : List Char) (s : String)
    (r : List Nat) (h : scanString fuel cs acc = .ok (s, r)) : r.length < cs.length := by
  induction fuel generalizing cs acc with
  | zero => simp [scanString] at h
  | succ fuel ih =>
    cases cs with
    | nil => simp [scanString] at h
    | cons c cs =>
      simp only [scanString] at h
      split_ifs at h
      · simp at h
        obtain ⟨_, h⟩ := h
        subst h
        simp
      · split at h
        · cases h
        · rename_i e r0
          split_ifs at h
          · split at h
            · cases h
            · rename_i rr r1 hhex
              have l1 := scanHex_length_le _ _ _ _ _ hhex
              split_ifs at h
              · split at h
                · rename_i rr1 r2 hu
                  have l2 := getu4_length_le _ _ _ hu
                  split_ifs at h
                  · have := ih _ _ h
                    simp; omega
                  · have := ih _ _ h
                    simp; omega
                · have := ih _ _ h
                  simp; omega
              · have := ih _ _ h
                simp; omega
          · split at h
            · have := ih _ _ h
              simp; omega
            · cases h
      · have := ih _ _ h
        simp; omega
      · have l1 := ih _ _ h
        have l2 := decodeRune_length_le c cs
        simp; omega

theorem scanString_succ (fuel : Nat) (cs : List Nat) (acc : List Char)
    (h : cs.length ≤ fuel) : scanString (fuel + 1) cs acc = scanString fuel cs acc := by
  induction fuel generalizing cs acc with
  | zero =>
    have : cs = [] := List.length_eq_zero.mp (by omega)
    subst this
    simp [scanString]
  | succ fuel ih =>
    cases cs with
    | nil => simp [scanString]
    | cons c cs =>
      simp only [List.length_cons] at h
      simp only [scanString]
      split_ifs
      · rfl
      · split
        · rfl
        · rename_i e r0
          split_ifs
          · split
            · rfl
            · rename_i rr r1 hhex
              have l1 := scanHex_length_le _ _ _ _ _ hhex
              simp only [List.length_cons] at l1 h
              split_ifs
              · split
                · rename_i rr1 r2 hu
                  have l2 := getu4_length_le _ _ _ hu
                  split_ifs
                  · exact ih _ _ (by omega)
                  · exact ih _ _ (by omega)
                · exact ih _ _ (by omega)
              · exact ih _ _ (by omega)
          · split
            · simp only [List.length_cons] at h
              exact ih _ _ (by omega)
            · rfl
      · rfl
      · exact ih _ _ (by omega)
      · have l2 := decodeRune_length_le c cs
        exact ih _ _ (by omega)

/-- The fuel that `parseValue` gives to `scanString` is never used up: more
fuel gives the same result. -/
theorem scanString_fuel (cs : List Nat) (acc : List Char) (extra : Nat) :
    scanString (cs.length + 1 + extra) cs acc = scanString (cs.length + 1) cs acc := by
  induction extra with
  | zero => rfl
  | succ n ih =>
    rw [← ih, ← Nat.add_assoc]
    exact scanString_succ _ cs acc (by omega)

theorem parse_length_lt (fuel : Nat) :
    (∀ (d : Nat) (cs : List Nat) (v : JSONValue) (r : List Nat),
      parseValue fuel d cs = .ok (v, r) → r.length < cs.length) ∧
    (∀ (d : Nat) (cs : List Nat) (vs : List JSONValue) (r : List Nat),
      parseItems fuel d cs = .ok (vs, r) → r.length < cs.length) ∧
    (∀ (d : Nat) (cs : List Nat) (m ms : List (String × JSONValue)) (r : List Nat),
      parseMembers fuel d cs m = .ok (ms, r) → r.length < cs.length) := by
  induction fuel with
  | zero =>
    refine ⟨?_, ?_, ?_⟩
    · intro d cs v r h
      simp [parseValue] at h
    · intro d cs vs r h
      simp [parseItems] at h
    · intro d cs m ms r h
      simp [parseMembers] at h
  | succ fuel ih =>
    obtain ⟨ihV, ihI, ihM⟩ := ih
    refine ⟨?_, ?_, ?_⟩
    · intro d cs v r h
      cases cs with
      | nil => simp [parseValue] at h
      | cons c rest =>
        unfold parseValue at h
        split_ifs at h
        · split at h
          · rename_i r0 hs
            have := skipSpace_cons_length _ _ _ hs
            simp at h
            obtain ⟨_, h⟩ := h
            subst h
            simp; omega
          · obtain ⟨p, hp, hf⟩ := except_map_ok _ _ _ h
            have l1 := ihI _ _ _ _ (by rw [hp])
            have l2 := skipSpace_length_le rest
            simp at hf
            obtain ⟨_, hf⟩ := hf
            subst hf
            simp; omega
        · split at h
          · rename_i r0 hs
            have := skipSpace_cons_length _ _ _ hs
            simp at h
            obtain ⟨_, h⟩ := h
            subst h
            simp; omega
          · obtain ⟨p, hp, hf⟩ := except_map_ok _ _ _ h
            have l1 := ihM _ _ _ _ _ (by rw [hp])
            have l2 := skipSpace_length_le rest
            simp at hf
            obtain ⟨_, hf⟩ := hf
            subst hf
            simp; omega
        · obtain ⟨p, hp, hf⟩ := except_map_ok _ _ _ h
          have l1 := scanString_length_lt _ _ _ _ _ (by rw [hp])
          simp at hf
          obtain ⟨_, hf⟩ := hf
          subst hf
          simp; omega
        · obtain ⟨p, hp, hf⟩ := except_map_ok _ _ _ h
          have l1 := scanNumber_length_lt _ _ _ (by rw [hp])
          simp at hf
          obtain ⟨_, hf⟩ := hf
          subst hf
          exact l1
        all_goals
          obtain ⟨p, hp, hf⟩ := except_map_ok _ _ _ h
          have l1 := scanWord_length_le _ _ _ _ hp
          simp at hf
          obtain ⟨_, hf⟩ := hf
          subst hf
          simp; omega
    · intro d cs vs r h
      unfold parseItems at h
      split at h
      · cases h
      · rename_i v r0 hv
        have l1 := ihV _ _ _ _ hv
        split at h
        · cases h
        · rename_i c r1 hs
          have l2 := skipSpace_cons_length _ _ _ hs
          split_ifs at h
          · obtain ⟨p, hp, hf⟩ := except_map_ok _ _ _ h
            have l3 := ihI _ _ _ _ (by rw [hp])
            have l4 := skipSpace_length_le r1
            simp at hf
            obtain ⟨_, hf⟩ := hf
            subst hf
            omega
          · simp at h
            obtain ⟨_, h⟩ := h
            subst h
            omega
    · intro d cs m ms r h
      cases cs with
      | nil => simp [parseMembers] at h
      | cons c rest =>
        unfold parseMembers at h
        split_ifs at h
        split at h
        · cases h
        · rename_i k r0 hk
          have l1 := scanString_length_lt _ _ _ _ _ hk
          split at h
          · cases h
          · rename_i c1 r1 hs1
            have l2 := skipSpace_cons_length _ _ _ hs1
            split_ifs at h
            split at h
            · cases h
            · rename_i v r2 hv
              have l3 := ihV _ _ _ _ hv
              have l4 := skipSpace_length_le r1
              split at h
              · cases h
              · rename_i c2 r3 hs2
                have l5 := skipSpace_cons_length _ _ _ hs2
                split_ifs at h
                · have l6 := ihM _ _ _ _ _ h
                  have l7 := skipSpace_length_le r3
                  simp; omega
                · simp at h
                  obtain ⟨_, h⟩ := h
                  subst h
                  simp; omega

theorem parse_succ (fuel : Nat) :
    (∀ (d : Nat) (cs : List Nat), 2 * cs.length ≤ fuel + 1 →
      parseValue (fuel + 1) d cs = parseValue fuel d cs) ∧
    (∀ (d : Nat) (cs : List Nat), 2 * cs.length ≤ fuel →
      parseItems (fuel + 1) d cs = parseItems fuel d cs) ∧
    (∀ (d : Nat) (cs : List Nat) (m : List (String × JSONValue)), 2 * cs.length ≤ fuel →
      parseMembers (fuel + 1) d cs m = parseMembers fuel d cs m) := by
  induction fuel with
  | zero =>
    refine ⟨?_, ?_, ?_⟩
    · intro d cs h
      have : cs = [] := List.length_eq_zero.mp (by omega)
      subst this
      simp [parseValue]
    · intro d cs h
      have : cs = [] := List.length_eq_zero.mp (by omega)
      subst this
      simp [parseItems, parseValue]
    · intro d cs m h
      have : cs = [] := List.length_eq_zero.mp (by omega)
      subst this
      simp [parseMembers]
  | succ fuel ih =>
    obtain ⟨ihV, ihI, ihM⟩ := ih
    refine ⟨?_, ?_, ?_⟩
    · intro d cs h
      cases cs with
      | nil => simp [parseValue]
      | cons c rest =>
        have l0 := skipSpace_length_le rest
        simp only [List.length_cons] at h
        rw [parseValue, parseValue]
        split_ifs
        · rfl
        · split
          · rfl
          · rw [ihI _ _ (by omega)]
        · rfl
        · split
          · rfl
          · rw [ihM _ _ _ (by omega)]
        all_goals rfl
    · intro d cs h
      rw [parseItems, parseItems, ihV _ _ (by omega)]
      split
      · rfl
      · rename_i v r hv
        have l1 := (parse_length_lt fuel).1 _ _ _ _ hv
        split
        · rfl
        · rename_i c r1 hs
          have l2 := skipSpace_cons_length _ _ _ hs
          have l3 := skipSpace_length_le r1
          split_ifs
          · rw [ihI _ _ (by omega)]
          · rfl
          · rfl
    · intro d cs m h
      cases cs with
      | nil => simp [parseMembers]
      | cons c rest =>
        simp only [List.length_cons] at h
        rw [parseMembers, parseMembers]
        split_ifs
        · split
          · rfl
          · rename_i k r hk
            have l1 := scanString_length_lt _ _ _ _ _ hk
            split
            · rfl
            · rename_i c1 r1 hs1
              have l2 := skipSpace_cons_length _ _ _ hs1
              have l3 := skipSpace_length_le r1
              split_ifs
              · rw [ihV _ _ (by omega)]
                split
                · rfl
                · rename_i v r2 hv
                  have l4 := (parse_length_lt fuel).1 _ _ _ _ hv
                  split
                  · rfl
                  · rename_i c2 r3 hs2
                    have l5 := skipSpace_cons_length _ _ _ hs2
                    have l6 := skipSpace_length_le r3
                    split_ifs
                    · rw [ihM _ _ _ (by omega)]
                    · rfl
                    · rfl
              · rfl
        · rfl

/-- The fuel that `jsonDecode` gives to `parseValue` is never used up: more
fuel gives the same result. -/
theorem parseValue_fuel (d : Nat) (cs : List Nat) (extra : Nat) :
    parseValue (2 * cs.length + 2 + extra) d cs = parseValue (2 * cs.length + 2) d cs := by
  induction extra with
  | zero => rfl
  | succ n ih =>
    rw [← ih, ← Nat.add_assoc]
    exact (parse_succ _).1 d cs (by omega)

theorem mem_mapKeys_iff (m : DataMap) (k : UUID) :
    k ∈ mapKeys m ↔ (mapGet m k).isSome := by
  induction m with
  | nil => simp [mapKeys, mapGet]
  | cons kv rest ih =>
    obtain ⟨k0, v0⟩ := kv
    by_cases h : k0 = k
    · simp [mapKeys, mapGet, h]
    · have h' : ¬ k = k0 := fun h' => h h'.symm
      simp only [mapKeys, List.map_cons, List.mem_cons, mapGet, h, h', if_false, false_or]
      exact ih

theorem mapKeys_mapSet (m : DataMap) (k : UUID) (v : JSONValue) :
    mapKeys (mapSet m k v) = if k ∈ mapKeys m then mapKeys m else mapKeys m ++ [k] := by
  induction m with
  | nil => simp [mapKeys, mapSet]
  | cons kv rest ih =>
    obtain ⟨k0, v0⟩ := kv
    by_cases h : k0 = k
    · subst h
      simp [mapKeys, mapSet]
    · have h' : ¬ k = k0 := fun h' => h h'.symm
      simp only [mapKeys, mapSet, h, if_false, List.map_cons, List.mem_cons, h', false_or]
      simp only [mapKeys] at ih
      rw [ih]
      split <;> simp

theorem length_mapSet (m : DataMap) (k : UUID) (v : JSONValue) :
    (mapSet m k v).length = if k ∈ mapKeys m then m.length else m.length + 1 := by
  have h := congrArg List.length (mapKeys_mapSet m k v)
  by_cases hk : k ∈ mapKeys m
  · rw [if_pos hk] at h ⊢
    simpa [mapKeys] using h
  · rw [if_neg hk] at h ⊢
    simpa [mapKeys] using h

theorem nodup_mapKeys_mapSet (m : DataMap) (k : UUID) (v : JSONValue)
    (h : (mapKeys m).Nodup) : (mapKeys (mapSet m k v)).Nodup := by
  rw [mapKeys_mapSet]
  split
  · exact h
  · rename_i hk
    exact List.Nodup.append h (List.nodup_singleton k) (by simpa using hk)

theorem nodup_mapKeys_recordAll (es : List IdentifiedElement) (vs : List JSONValue)
    (m : DataMap) (h : (mapKeys m).Nodup) : (mapKeys (recordAll es vs m)).Nodup := by
  induction es generalizing vs m with
  | nil => simpa [recordAll] using h
  | cons e es ih =>
    cases vs with
    | nil => simpa [recordAll] using h
    | cons v vs =>
      simp only [recordAll]
      exact ih vs _ (nodup_mapKeys_mapSet m e.Key v h)

theorem length_recordAll (es : List IdentifiedElement) (vs : List JSONValue) (m : DataMap)
    (hlen : es.length ≤ vs.length) :
    (recordAll es vs m).length ≤ m.length + es.length ∧
      ((recordAll es vs m).length = m.length + es.length ↔
        (es.map (fun e => e.Key)).Nodup ∧ ∀ e ∈ es, e.Key ∉ mapKeys m) := by
  induction es generalizing vs m with
  | nil => simp [recordAll]
  | cons e es ih =>
    cases vs with
    | nil => simp at hlen
    | cons v vs =>
      simp only [recordAll, List.length_cons]
      obtain ⟨h1, h2⟩ := ih vs (mapSet m e.Key v) (by simpa using hlen)
      rw [length_mapSet] at h1 h2
      by_cases hk : e.Key ∈ mapKeys m
      · rw [if_pos hk] at h1 h2
        refine ⟨by omega, ?_⟩
        constructor
        · intro h
          omega
        · intro h
          exact absurd hk (h.2 e (List.mem_cons_self _ _))
      · rw [if_neg hk] at h1 h2
        refine ⟨by omega, ?_⟩
        rw [show m.length + (es.length + 1) = m.length + 1 + es.length by omega, h2,
          mapKeys_mapSet, if_neg hk]
        simp only [List.map_cons, List.nodup_cons, List.mem_map, List.mem_append,
          List.mem_singleton, List.mem_cons, forall_eq_or_imp, List.not_mem_nil, or_false]
        constructor
        · rintro ⟨hn, hd⟩
          refine ⟨⟨?_, hn⟩, hk, fun a ha hm => (hd a ha) (Or.inl hm)⟩
          rintro ⟨a, ha, hka⟩
          exact (hd a ha) (Or.inr hka)
        · rintro ⟨⟨hne, hn⟩, _, hd⟩
          refine ⟨hn, fun a ha hm => ?_⟩
          rcases hm with hm | hm
          · exact hd a ha hm
          · exact hne ⟨a, ha, hm⟩

theorem parseEvents_mem (es : List IdentifiedElement) (vs : List JSONValue) (i0 i : Nat)
    (e : IdentifiedElement) (v : JSONValue) (he : es[i]? = some e) (hv : vs[i]? = some v) :
    Event.parse (i0 + i) e.Key v ∈ parseEvents es vs i0 := by
  induction es generalizing vs i0 i with
  | nil => simp at he
  | cons e0 es ih =>
    cases vs with
    | nil => simp at hv
    | cons v0 vs =>
      cases i with
      | zero =>
        simp at he hv
        subst he hv
        simp [parseEvents]
      | succ i =>
        simp only [parseEvents, List.mem_cons]
        right
        have := ih vs (i0 + 1) i (by simpa using he) (by simpa using hv)
        rw [show i0 + (i + 1) = i0 + 1 + i by omega]
        exact this

theorem SubmitJSON_run_rejected (form : Custom) (data : List Nat)
    (inputData : List JSONValue) (elements : List IdentifiedElement) (j : Nat)
    (e : IdentifiedElement) (v : JSONValue) (err : GoError) (submitter : Submitter) (tx : Tx)
    (hdec : jsonDecode data = .ok inputData)
    (hm : matchElements form inputData = some elements)
    (he : elements[j]? = some e) (hv : inputData[j]? = some v)
    (herr : e.Value.submit v = some err)
    (hfirst : ∀ (i : Nat) (e' : IdentifiedElement) (v' : JSONValue), i < j →
      elements[i]? = some e' → inputData[i]? = some v' → e'.Value.submit v' = none) :
    form.SubmitJSON (some data) submitter tx =
      ⟨parseEvents (elements.take (j + 1)) inputData 0,
        .returned (some (.wrapf "error parsing form response value: " err))⟩ := by
  have hloop := parseLoop_fail inputData elements 0 [] j e v err he (by simpa using hv) herr
    (fun k e' v' hk he' hv' => hfirst k e' v' hk he' (by simpa using hv'))
  rw [SubmitJSON_decoded form data inputData submitter tx hdec,
    submitDecoded_failed form inputData submitter tx elements _ hm (by rw [hloop]), hloop]
  simp

theorem SubmitJSON_run_finished (form : Custom) (bytes : List Nat)
    (inputData : List JSONValue) (elements : List IdentifiedElement) (dataMap : DataMap)
    (submitter : Submitter) (tx : Tx)
    (hdec : jsonDecode bytes = .ok inputData)
    (hm : matchElements form inputData = some elements)
    (hl : (parseLoop inputData elements 0 []).2 = .ok dataMap) :
    form.SubmitJSON (some bytes) submitter tx =
      ⟨parseEvents elements inputData 0 ++
          (match form.Submit with
            | some submit => [Event.submit submit submitter tx dataMap]
            | none => []),
        .returned none⟩ := by
  rw [SubmitJSON_decoded form bytes inputData submitter tx hdec,
    submitDecoded_finished form inputData submitter tx elements dataMap hm hl,
    (parseLoop_result inputData elements dataMap hl).2.2.1]

theorem SubmitJSON_submit_inv (form : Custom) (data : Option (List Nat))
    (submitter : Submitter) (tx : Tx) (cb : Callback) (s : Submitter) (t : Tx)
    (values : DataMap)
    (hmem : Event.submit cb s t values ∈ (form.SubmitJSON data submitter tx).trace) :
    ∃ (bytes : List Nat) (inputData : List JSONValue) (elements : List IdentifiedElement),
      data = some bytes ∧ jsonDecode bytes = .ok inputData ∧
      matchElements form inputData = some elements ∧
      (parseLoop inputData elements 0 []).2 = .ok values ∧
      form.Submit = some cb ∧ s = submitter ∧ t = tx := by
  cases data with
  | none =>
    simp only [Custom.SubmitJSON] at hmem
    cases hc : form.Close <;> simp [hc] at hmem
  | some bytes =>
    cases hdec : jsonDecode bytes with
    | error e =>
      rw [SubmitJSON_undecoded form bytes e submitter tx hdec] at hmem
      simp at hmem
    | ok inputData =>
      rw [SubmitJSON_decoded form bytes inputData submitter tx hdec] at hmem
      cases hm : matchElements form inputData with
      | none =>
        rw [submitDecoded_unmatched form inputData submitter tx hm] at hmem
        simp at hmem
      | some elements =>
        cases hl : (parseLoop inputData elements 0 []).2 with
        | error st =>
          rw [submitDecoded_failed form inputData submitter tx elements st hm hl] at hmem
          have := parseLoop_trace inputData elements 0 [] _ hmem
          simp [Event.isCallback] at this
        | ok dataMap =>
          rw [submitDecoded_finished form inputData submitter tx elements dataMap hm hl]
            at hmem
          simp only [List.mem_append] at hmem
          rcases hmem with hmem | hmem
          · have := parseLoop_trace inputData elements 0 [] _ hmem
            simp [Event.isCallback] at this
          · cases hs : form.Submit with
            | none => simp [hs] at hmem
            | some submit =>
              simp only [hs, List.mem_singleton, Event.submit.injEq] at hmem
              obtain ⟨h1, h2, h3, h4⟩ := hmem
              subst h1 h2 h3 h4
              exact ⟨bytes, inputData, elements, rfl, hdec, hm, hl, rfl, rfl, rfl⟩

theorem parseLoop_mem_of_accepted (inputData : List JSONValue)
    (es : List IdentifiedElement) (i0 : Nat) (m : DataMap) (i : Nat)
    (e : IdentifiedElement) (v : JSONValue)
    (he : es[i]? = some e) (hv : inputData[i0 + i]? = some v)
    (hacc : ∀ (k : Nat) (x : IdentifiedElement) (w : JSONValue), k < i →
      es[k]? = some x → inputData[i0 + k]? = some w → x.Value.submit w = none) :
    Event.parse (i0 + i) e.Key v ∈ (parseLoop inputData es i0 m).1 := by
  induction es generalizing i0 m i with
  | nil => simp at he
  | cons e0 es ih =>
    cases i with
    | zero =>
      simp at he hv
      subst he
      unfold parseLoop
      simp only [hv]
      cases e0.Value.submit v <;> simp
    | succ i =>
      have hi : i0 < inputData.length := by
        have := (List.getElem?_eq_some.mp hv).1
        omega
      have hv0 : inputData[i0]? = some inputData[i0] := List.getElem?_eq_getElem hi
      have h0 := hacc 0 e0 inputData[i0] (by omega) (by simp) (by simp)
      unfold parseLoop
      simp only [hv0, h0, List.mem_cons]
      right
      have := ih (i0 + 1) (mapSet m e0.Key inputData[i0]) i (by simpa using he)
        (by rw [← hv]; congr 1; omega)
        (fun k x w hk hx hw => hacc (k + 1) x w (by omega) (by simpa using hx)
          (by rw [← hw]; congr 1; omega))
      rw [show i0 + (i + 1) = i0 + 1 + i by omega]
      exact this

/-! ### The decoder on number literals -/

theorem takeDigits_append (ds : List Nat) (c : Nat) (r : List Nat)
    (hds : ds.all isDigit = true) (hc : isDigit c = false) :
    takeDigits (ds ++ c :: r) = (ds, c :: r) := by
  induction ds with
  | nil => simp [takeDigits, hc]
  | cons d ds ih =>
    simp only [List.all_cons, Bool.and_eq_true] at hds
    simp [takeDigits, hds.1, ih hds.2]

theorem scanInt_literal (int : List Nat) (c : Nat) (r : List Nat)
    (hint : intWellFormed int = true) (hc : isDigit c = false) :
    scanInt (int ++ c :: r) = .ok (int, c :: r) := by
  unfold intWellFormed at hint
  cases int with
  | nil => simp at hint
  | cons d ds =>
    simp only [Bool.or_eq_true, beq_iff_eq, Bool.and_eq_true, decide_eq_true_eq] at hint
    rcases hint with h | ⟨⟨h1, h2⟩, h3⟩
    · cases h
      simp [scanInt]
    · have hd : d ≠ 48 := by omega
      simp [scanInt, hd, h1, h2, takeDigits_append ds c r h3 hc]

theorem isDigit_range (d : Nat) (h : isDigit d = true) : 48 ≤ d ∧ d ≤ 57 := by
  simpa [isDigit] using h

theorem scanFrac_none (c : Nat) (r : List Nat) (hc : c ≠ 46) :
    scanFrac (c :: r) = .ok ([], c :: r) := by
  unfold scanFrac
  split
  · rename_i h
    cases h
    exact absurd rfl hc
  · rename_i h
    cases h
    exact absurd rfl hc
  · rfl

theorem scanFrac_some (ds : List Nat) (c : Nat) (r : List Nat)
    (hds : isDigits ds = true) (hc : isDigit c = false) :
    scanFrac (46 :: (ds ++ c :: r)) = .ok (46 :: ds, c :: r) := by
  cases ds with
  | nil => simp [isDigits] at hds
  | cons d ds =>
    simp only [isDigits, List.all_cons, Bool.and_eq_true] at hds
    simp [scanFrac, hds.2.1, takeDigits_append ds c r hds.2.2 hc]

theorem scanExpDigits_literal (ds : List Nat) (c : Nat) (r : List Nat)
    (hds : isDigits ds = true) (hc : isDigit c = false) :
    scanExpDigits (ds ++ c :: r) = .ok (ds, c :: r) := by
  cases ds with
  | nil => simp [isDigits] at hds
  | cons d ds =>
    simp only [isDigits, List.all_cons, Bool.and_eq_true] at hds
    simp [scanExpDigits, hds.2.1, takeDigits_append ds c r hds.2.2 hc]

theorem scanExp_none (c : Nat) (r : List Nat) (h1 : c ≠ 101) (h2 : c ≠ 69) :
    scanExp (c :: r) = .ok ([], c :: r) := by
  simp [scanExp, h1, h2]

theorem scanExp_some (mark : Nat) (sign ds : List Nat) (c : Nat) (r : List Nat)
    (hmark : (mark == 101 || mark == 69) = true)
    (hsign : (sign == [] || sign == [43] || sign == [45]) = true)
    (hds : isDigits ds = true) (hc : isDigit c = false) :
    scanExp (mark :: (sign ++ ds) ++ c :: r) = .ok (mark :: (sign ++ ds), c :: r) := by
  have hm : mark = 101 ∨ mark = 69 := by simpa using hmark
  simp only [Bool.or_eq_true, beq_iff_eq] at hsign
  have hdig := scanExpDigits_literal ds c r hds hc
  rcases hsign with (h | h) | h
  · subst h
    cases ds with
    | nil => simp [isDigits] at hds
    | cons d ds =>
      have hd : 48 ≤ d ∧ d ≤ 57 := by
        simp only [isDigits, List.all_cons, Bool.and_eq_true] at hds
        exact isDigit_range d hds.2.1
      simp only [List.nil_append, List.cons_append, scanExp, hm, if_true]
      split
      · rename_i h
        cases h
        omega
      · rename_i h
        cases h
        omega
      · simp only [List.cons_append] at hdig
        rw [hdig]
        rfl
  · subst h
    simp only [List.cons_append, List.nil_append, scanExp, hm, if_true, List.append_assoc]
    rw [hdig]
    rfl
  · subst h
    simp only [List.cons_append, List.nil_append, scanExp, hm, if_true, List.append_assoc]
    rw [hdig]
    rfl

theorem scanFrac_part (frac : Option (List Nat)) (x : Nat) (xs : List Nat)
    (hfrac : fracWellFormed frac = true) (hx : isDigit x = false) (hdot : x ≠ 46) :
    scanFrac (fracBytes frac ++ x :: xs) = .ok (fracBytes frac, x :: xs) ∧
      ∃ y ys, fracBytes frac ++ x :: xs = y :: ys ∧ isDigit y = false := by
  cases frac with
  | none => exact ⟨scanFrac_none x xs hdot, x, xs, rfl, hx⟩
  | some ds =>
    exact ⟨by simpa [fracBytes] using scanFrac_some ds x xs hfrac hx, 46, ds ++ x :: xs,
      by simp [fracBytes], by decide⟩

theorem numberLiteral_head (n : NumberLiteral) (hn : n.wellFormed = true) :
    ∃ h t, n.bytes = h :: t ∧ (h = 45 ∨ (48 ≤ h ∧ h ≤ 57)) := by
  obtain ⟨neg, int, frac, exp⟩ := n
  simp only [NumberLiteral.wellFormed, Bool.and_eq_true] at hn
  obtain ⟨⟨hint, _⟩, _⟩ := hn
  cases neg with
  | true =>
    exact ⟨45, int ++ (fracBytes frac ++ expBytes exp), by simp [NumberLiteral.bytes],
      Or.inl rfl⟩
  | false =>
    unfold intWellFormed at hint
    cases int with
    | nil => simp at hint
    | cons d ds =>
      refine ⟨d, ds ++ (fracBytes frac ++ expBytes exp), by simp [NumberLiteral.bytes],
        Or.inr ?_⟩
      simp only [Bool.or_eq_true, beq_iff_eq, Bool.and_eq_true, decide_eq_true_eq] at hint
      rcases hint with h | ⟨⟨h1, h2⟩, _⟩
      · cases h
        omega
      · omega

theorem parseLoop_event_value (inputData : List JSONValue) (es : List IdentifiedElement)
    (i0 : Nat) (m : DataMap) (i : Nat) (k : UUID) (v : JSONValue)
    (h : Event.parse i k v ∈ (parseLoop inputData es i0 m).1) : inputData[i]? = some v := by
  induction es generalizing i0 m with
  | nil => simp [parseLoop] at h
  | cons e es ih =>
    unfold parseLoop at h
    cases hv : inputData[i0]? with
    | none => simp [hv] at h
    | some w =>
      cases hs : e.Value.submit w with
      | some err =>
        simp only [hv, hs, List.mem_singleton, Event.parse.injEq] at h
        obtain ⟨h1, _, h3⟩ := h
        subst h1 h3
        exact hv
      | none =>
        simp only [hv, hs, List.mem_cons, Event.parse.injEq] at h
        rcases h with ⟨h1, _, h3⟩ | h
        · subst h1 h3
          exact hv
        · exact ih _ _ h

theorem mapGet_recordAll_value (es : List IdentifiedElement) (vs : List JSONValue)
    (m : DataMap) (k : UUID) (v : JSONValue) (h : mapGet (recordAll es vs m) k = some v) :
    mapGet m k = some v ∨ ∃ i : Nat, vs[i]? = some v := by
  induction es generalizing vs m with
  | nil => exact Or.inl (by simpa [recordAll] using h)
  | cons e es ih =>
    cases vs with
    | nil => exact Or.inl (by simpa [recordAll] using h)
    | cons v0 vs =>
      simp only [recordAll] at h
      rcases ih vs _ h with h1 | ⟨i, hi⟩
      · rw [mapGet_mapSet] at h1
        split at h1
        · cases h1
          exact Or.inr ⟨0, by simp⟩
        · exact Or.inl h1
      · exact Or.inr ⟨i + 1, by simpa using hi⟩

theorem SubmitJSON_parse_inv (form : Custom) (data : Option (List Nat))
    (submitter : Submitter) (tx : Tx) (i : Nat) (k : UUID) (v : JSONValue)
    (hmem : Event.parse i k v ∈ (form.SubmitJSON data submitter tx).trace) :
    ∃ (bytes : List Nat) (inputData : List JSONValue),
      data = some bytes ∧ jsonDecode bytes = .ok inputData ∧ inputData[i]? = some v := by
  cases data with
  | none =>
    simp only [Custom.SubmitJSON] at hmem
    cases hc : form.Close <;> simp [hc] at hmem
  | some bytes =>
    cases hdec : jsonDecode bytes with
    | error e =>
      rw [SubmitJSON_undecoded form bytes e submitter tx hdec] at hmem
      simp at hmem
    | ok inputData =>
      refine ⟨bytes, inputData, rfl, hdec, ?_⟩
      rw [SubmitJSON_decoded form bytes inputData submitter tx hdec] at hmem
      cases hm : matchElements form inputData with
      | none =>
        rw [submitDecoded_unmatched form inputData submitter tx hm] at hmem
        simp at hmem
      | some elements =>
        cases hl : (parseLoop inputData elements 0 []).2 with
        | error st =>
          rw [submitDecoded_failed form inputData submitter tx elements st hm hl] at hmem
          exact parseLoop_event_value inputData elements 0 [] i k v hmem
        | ok dataMap =>
          rw [submitDecoded_finished form inputData submitter tx elements dataMap hm hl]
            at hmem
          simp only [List.mem_append] at hmem
          rcases hmem with hmem | hmem
          · exact parseLoop_event_value inputData elements 0 [] i k v hmem
          · cases hs : form.Submit <;> simp [hs] at hmem

theorem takeDigits_eq (cs : List Nat) : (takeDigits cs).1 ++ (takeDigits cs).2 = cs := by
  induction cs with
  | nil => simp [takeDigits]
  | cons c cs ih =>
    unfold takeDigits
    split
    · simp [ih]
    · simp

theorem scanInt_eq (cs a r : List Nat) (h : scanInt cs = .ok (a, r)) : cs = a ++ r := by
  cases cs with
  | nil => simp [scanInt] at h
  | cons c cs =>
    simp only [scanInt] at h
    split_ifs at h
    · simp at h
      obtain ⟨h1, h2⟩ := h
      subst h1 h2
      simp_all
    · simp at h
      obtain ⟨h1, h2⟩ := h
      subst h1 h2
      simp [takeDigits_eq]

theorem scanFrac_eq (cs a r : List Nat) (h : scanFrac cs = .ok (a, r)) : cs = a ++ r := by
  unfold scanFrac at h
  split at h
  · cases h
  · split_ifs at h
    simp at h
    obtain ⟨h1, h2⟩ := h
    subst h1 h2
    simp [takeDigits_eq]
  · simp at h
    obtain ⟨h1, h2⟩ := h
    subst h1 h2
    simp

theorem scanExpDigits_eq (cs a r : List Nat) (h : scanExpDigits cs = .ok (a, r)) :
    cs = a ++ r := by
  cases cs with
  | nil => simp [scanExpDigits] at h
  | cons c cs =>
    simp only [scanExpDigits] at h
    split_ifs at h
    simp at h
    obtain ⟨h1, h2⟩ := h
    subst h1 h2
    simp [takeDigits_eq]

theorem scanExp_eq (cs a r : List Nat) (h : scanExp cs = .ok (a, r)) : cs = a ++ r := by
  cases cs with
  | nil =>
    simp [scanExp] at h
    obtain ⟨h1, h2⟩ := h
    subst h1 h2
    rfl
  | cons c cs =>
    simp only [scanExp] at h
    split_ifs at h
    · split at h
      all_goals
        obtain ⟨p, hp, hf⟩ := except_map_ok _ _ _ h
        obtain ⟨p1, p2⟩ := p
        have := scanExpDigits_eq _ _ _ hp
        simp at hf
        obtain ⟨hf1, hf2⟩ := hf
        subst hf1 hf2
        simp [this]
    · simp at h
      obtain ⟨h1, h2⟩ := h
      subst h1 h2
      rfl

theorem scanSign_eq (cs : List Nat) : (scanSign cs).1 ++ (scanSign cs).2 = cs := by
  unfold scanSign
  split <;> simp

theorem scanNumber_eq (cs lit r : List Nat) (h : scanNumber cs = .ok (lit, r)) :
    cs = lit ++ r := by
  unfold scanNumber at h
  have hsign := scanSign_eq cs
  cases h1 : scanInt (scanSign cs).2 with
  | error e => simp [h1] at h
  | ok p1 =>
    obtain ⟨a1, r1⟩ := p1
    have l1 := scanInt_eq _ _ _ h1
    simp only [h1] at h
    cases h2 : scanFrac r1 with
    | error e => simp [h2] at h
    | ok p2 =>
      obtain ⟨a2, r2⟩ := p2
      have l2 := scanFrac_eq _ _ _ h2
      simp only [h2] at h
      cases h3 : scanExp r2 with
      | error e => simp [h3] at h
      | ok p3 =>
        obtain ⟨a3, r3⟩ := p3
        have l3 := scanExp_eq _ _ _ h3
        simp only [h3] at h
        simp at h
        obtain ⟨hl, hr⟩ := h
        subst hl hr
        have hcs : cs = (scanSign cs).1 ++ (a1 ++ (a2 ++ (a3 ++ r3))) := by
          rw [← l3, ← l2, ← l1]
          exact hsign.symm
        simp only [List.append_assoc]
        exact hcs

theorem parseValue_number (fuel d c : Nat) (rest r : List Nat) (v : JSONValue)
    (hc : c = 45 ∨ isDigit c = true)
    (h : parseValue (fuel + 1) d (c :: rest) = .ok (v, r)) :
    ∃ lit, c :: rest = lit ++ r ∧ scanNumber (c :: rest) = .ok (lit, r) ∧
      v = .number (asciiText lit) := by
  have h1 : c ≠ 91 := by
    rcases hc with h | h
    · omega
    · have := isDigit_range c h
      omega
  have h2 : c ≠ 123 := by
    rcases hc with h | h
    · omega
    · have := isDigit_range c h
      omega
  have h3 : c ≠ 34 := by
    rcases hc with h | h
    · omega
    · have := isDigit_range c h
      omega
  unfold parseValue at h
  simp only [h1, h2, h3, if_false, hc, if_true] at h
  obtain ⟨p, hp, hf⟩ := except_map_ok _ _ _ h
  obtain ⟨lit, r'⟩ := p
  simp at hf
  obtain ⟨hf1, hf2⟩ := hf
  subst hf1 hf2
  exact ⟨lit, scanNumber_eq _ _ _ hp, hp, rfl⟩

/-! ### The decoder on JSON texts -/

theorem skipSpace_blank (ws : List Nat) (c : Nat) (r : List Nat) (hws : isBlank ws = true)
    (hc : isSpace c = false) : skipSpace (ws ++ c :: r) = c :: r := by
  induction ws with
  | nil => simp [skipSpace, hc]
  | cons w ws ih =>
    simp only [isBlank, List.all_cons, Bool.and_eq_true] at hws
    simp only [List.cons_append, skipSpace, hws.1, if_true]
    exact ih hws.2

theorem scanHex_hex (hs : List Nat) (acc : Nat) (r : List Nat) (hhs : hs.all isHex = true) :
    scanHex hs.length acc (hs ++ r) =
      .ok (hs.foldl (fun a c => a * 16 + (hexVal c).getD 0) acc, r) := by
  induction hs generalizing acc with
  | nil => simp [scanHex]
  | cons h hs ih =>
    simp only [List.all_cons, Bool.and_eq_true] at hhs
    obtain ⟨hh, hrest⟩ := hhs
    simp only [isHex, Option.isSome_iff_exists] at hh
    obtain ⟨v, hv⟩ := hh
    simp only [List.length_cons, List.cons_append, scanHex, hv, List.foldl_cons,
      Option.getD_some]
    exact ih _ hrest

theorem scanHex_four (hex : List Nat) (r : List Nat)
    (h : (hex.length == 4 && hex.all isHex) = true) :
    scanHex 4 0 (hex ++ r) = .ok (hexNumber hex, r) := by
  simp only [Bool.and_eq_true, beq_iff_eq] at h
  have := scanHex_hex hex 0 r h.2
  rw [h.1] at this
  exact this

theorem decodeRune_utf8 (c : Nat) (tail r : List Nat) (h : utf8WellFormed c tail = true) :
    decodeRune c (tail ++ r) = (utf8Rune c tail, r) ∧ 128 ≤ c := by
  unfold utf8WellFormed at h
  split at h
  · rename_i b1
    simp only [Bool.and_eq_true, decide_eq_true_eq] at h
    obtain ⟨⟨h1, h2⟩, h3⟩ := h
    refine ⟨?_, by omega⟩
    simp [decodeRune, utf8Rune, h1, h2, h3]
  · rename_i b1 b2
    simp only [Bool.and_eq_true, decide_eq_true_eq] at h
    obtain ⟨⟨⟨⟨h1, h2⟩, h3⟩, h4⟩, h5⟩ := h
    refine ⟨?_, by omega⟩
    have hn : ¬ (194 ≤ c ∧ c ≤ 223) := by omega
    simp [decodeRune, utf8Rune, hn, h1, h2, h3, h4, h5]
  · rename_i b1 b2 b3
    simp only [Bool.and_eq_true, decide_eq_true_eq] at h
    obtain ⟨⟨⟨⟨⟨h1, h2⟩, h3⟩, h4⟩, h5⟩, h6⟩ := h
    refine ⟨?_, by omega⟩
    have hn : ¬ (194 ≤ c ∧ c ≤ 223) := by omega
    have hn2 : ¬ (224 ≤ c ∧ c ≤ 239) := by omega
    simp [decodeRune, utf8Rune, hn, hn2, h1, h2, h3, h4, h5, h6]
  · cases h

theorem escapeByte_ne_u (e b : Nat) (h : escapeByte e = some b) : e ≠ 117 := by
  intro he
  subst he
  simp [escapeByte] at h

theorem getu4_quote (r : List Nat) : getu4 (34 :: r) = none := by
  simp [getu4]

theorem getu4_piece (p : StringPiece) (rest : List Nat) :
    p.wellFormed = true →
      getu4 (p.bytes ++ rest) =
        match p with
        | .unicode low => some (hexNumber low, rest)
        | _ => none := by
  intro hp
  cases p with
  | plain c =>
    simp only [StringPiece.wellFormed, isPlain, Bool.and_eq_true, decide_eq_true_eq,
      bne_iff_ne, ne_eq] at hp
    have : c ≠ 92 := hp.2
    simp only [StringPiece.bytes, List.cons_append, List.nil_append]
    unfold getu4
    split
    · rename_i h
      cases h
      exact absurd rfl this
    · rfl
  | escape e =>
    simp only [StringPiece.wellFormed, Option.isSome_iff_exists] at hp
    obtain ⟨b, hb⟩ := hp
    have := escapeByte_ne_u e b hb
    simp only [StringPiece.bytes, List.cons_append, List.nil_append]
    unfold getu4
    split
    · rename_i h
      cases h
      exact absurd rfl this
    · rfl
  | unicode low =>
    simp only [StringPiece.wellFormed] at hp
    simp [StringPiece.bytes, getu4, scanHex_four low rest hp]
  | utf8 c tail =>
    simp only [StringPiece.wellFormed] at hp
    have := (decodeRune_utf8 c tail [] hp).2
    show getu4 (c :: (tail ++ rest)) = none
    unfold getu4
    split
    · rename_i h
      have := (List.cons.inj h).1
      omega
    · rfl

theorem scanString_body (n : Nat) :
    ∀ (ps : List StringPiece), ps.length ≤ n → ps.all StringPiece.wellFormed = true →
      ∀ (fuel : Nat) (acc : List Char) (r : List Nat), ps.length < fuel →
        scanString fuel (bodyBytes ps ++ 34 :: r) acc =
          .ok (String.mk (acc.reverse ++ unquote ps), r) := by
  induction n with
  | zero =>
    intro ps hlen _ fuel acc r hfuel
    have : ps = [] := List.length_eq_zero.mp (by omega)
    subst this
    obtain ⟨f, rfl⟩ : ∃ f, fuel = f + 1 := ⟨fuel - 1, by simp at hfuel; omega⟩
    simp [bodyBytes, scanString, unquote]
  | succ n ih =>
    intro ps hlen hwf fuel acc r hfuel
    obtain ⟨f, rfl⟩ : ∃ f, fuel = f + 1 := ⟨fuel - 1, by omega⟩
    cases ps with
    | nil => simp [bodyBytes, scanString, unquote]
    | cons p ps =>
      simp only [List.all_cons, Bool.and_eq_true] at hwf
      obtain ⟨hp, hps⟩ := hwf
      simp only [List.length_cons] at hlen hfuel
      have hrec := fun (a : List Char) =>
        ih ps (by omega) hps f a r (by omega)
      cases p with
      | plain c =>
        simp only [StringPiece.wellFormed, isPlain, Bool.and_eq_true, decide_eq_true_eq,
          bne_iff_ne, ne_eq] at hp
        obtain ⟨⟨⟨h32, h128⟩, h34⟩, h92⟩ := hp
        have hlt : ¬ c < 32 := by omega
        show scanString (f + 1) (c :: (bodyBytes ps ++ 34 :: r)) acc = _
        simp only [scanString, h34, h92, if_false, hlt, h128, if_true]
        rw [hrec]
        simp [unquote]
      | escape e =>
        simp only [StringPiece.wellFormed, Option.isSome_iff_exists] at hp
        obtain ⟨b, hb⟩ := hp
        have hu := escapeByte_ne_u e b hb
        show scanString (f + 1) (92 :: e :: (bodyBytes ps ++ 34 :: r)) acc = _
        simp only [scanString, show ¬ (92 : Nat) = 34 by decide, if_false, if_true, hu, hb]
        rw [hrec]
        simp [unquote, hb]
      | utf8 c tail =>
        simp only [StringPiece.wellFormed] at hp
        obtain ⟨hdec, hc⟩ := decodeRune_utf8 c tail (bodyBytes ps ++ 34 :: r) hp
        have h34 : c ≠ 34 := by omega
        have h92 : c ≠ 92 := by omega
        have h32 : ¬ c < 32 := by omega
        have h128 : ¬ c < 128 := by omega
        have hb : bodyBytes (.utf8 c tail :: ps) ++ 34 :: r =
            c :: (tail ++ (bodyBytes ps ++ 34 :: r)) := by
          simp [bodyBytes, StringPiece.bytes]
        rw [hb]
        simp only [scanString, h34, h92, h32, h128, if_false, hdec]
        rw [hrec]
        simp [unquote]
      | unicode hex =>
        simp only [StringPiece.wellFormed] at hp
        have hhex := scanHex_four hex (bodyBytes ps ++ 34 :: r) hp
        have hb : bodyBytes (.unicode hex :: ps) ++ 34 :: r =
            92 :: 117 :: (hex ++ (bodyBytes ps ++ 34 :: r)) := by
          simp [bodyBytes, StringPiece.bytes]
        rw [hb]
        simp only [scanString, show ¬ (92 : Nat) = 34 by decide, if_false, if_true, hhex]
        by_cases hsur : 55296 ≤ hexNumber hex ∧ hexNumber hex < 57344
        · simp only [hsur, and_self, if_true]
          cases ps with
          | nil =>
            simp only [bodyBytes, List.nil_append, getu4_quote]
            have := hrec (Char.ofNat 65533 :: acc)
            simp only [bodyBytes, List.nil_append] at this
            rw [this]
            simp [unquote, hsur]
          | cons q qs =>
            simp only [List.all_cons, Bool.and_eq_true] at hps
            have hg := getu4_piece q (bodyBytes qs ++ 34 :: r) hps.1
            simp only [bodyBytes, List.append_assoc] at hrec ⊢
            rw [hg]
            cases q with
            | unicode low =>
              simp only
              by_cases hpair : hexNumber hex < 56320 ∧ 56320 ≤ hexNumber low ∧
                  hexNumber low < 57344
              · simp only [hpair, and_self, if_true]
                simp only [List.length_cons] at hlen hfuel
                rw [ih qs (by omega) hps.2 f _ r (by omega)]
                simp [unquote, hsur, hpair]
              · simp only [hpair, if_false]
                rw [hrec]
                simp [unquote, hsur, hpair]
            | plain c =>
              simp only
              rw [hrec]
              simp [unquote, hsur]
            | escape e =>
              simp only
              rw [hrec]
              simp [unquote, hsur]
            | utf8 c tail =>
              simp only
              rw [hrec]
              simp [unquote, hsur]
        · simp only [hsur, if_false]
          rw [hrec]
          cases ps with
          | nil => simp [unquote, hsur]
          | cons q qs => cases q <;> simp [unquote, hsur]

theorem isDelimiter_spec (c : Nat) (hc : isDelimiter c = true) :
    isDigit c = false ∧ c ≠ 46 ∧ c ≠ 101 ∧ c ≠ 69 := by
  simp only [isDelimiter, isSpace, Bool.or_eq_true, beq_iff_eq] at hc
  simp only [isDigit, Bool.and_eq_false_iff, decide_eq_false_iff_not]
  omega

theorem scanExp_delimited (exp : Option (Nat × List Nat × List Nat)) (c : Nat) (r : List Nat)
    (hexp : expWellFormed exp = true) (hc : isDelimiter c = true) :
    scanExp (expBytes exp ++ c :: r) = .ok (expBytes exp, c :: r) ∧
      ∃ x xs, expBytes exp ++ c :: r = x :: xs ∧ isDigit x = false ∧ x ≠ 46 := by
  obtain ⟨hcd, h46, h101, h69⟩ := isDelimiter_spec c hc
  cases exp with
  | none =>
    exact ⟨scanExp_none c r h101 h69, c, r, rfl, hcd, h46⟩
  | some p =>
    obtain ⟨mark, sign, ds⟩ := p
    simp only [expWellFormed, Bool.and_eq_true] at hexp
    obtain ⟨⟨hmark, hsign⟩, hds⟩ := hexp
    have hm : mark = 101 ∨ mark = 69 := by simpa using hmark
    refine ⟨scanExp_some mark sign ds c r hmark hsign hds hcd, mark, sign ++ ds ++ c :: r,
      by simp [expBytes], ?_, by omega⟩
    rcases hm with h | h <;> subst h <;> decide

theorem scanNumber_delimited (n : NumberLiteral) (c : Nat) (r : List Nat)
    (hn : n.wellFormed = true) (hc : isDelimiter c = true) :
    scanNumber (n.bytes ++ c :: r) = .ok (n.bytes, c :: r) := by
  obtain ⟨neg, int, frac, exp⟩ := n
  simp only [NumberLiteral.wellFormed, Bool.and_eq_true] at hn
  obtain ⟨⟨hint, hfrac⟩, hexp⟩ := hn
  obtain ⟨hE, x, xs, hxs, hx, hdot⟩ := scanExp_delimited exp c r hexp hc
  obtain ⟨hF, y, ys, hys, hy⟩ := scanFrac_part frac x xs hfrac hx hdot
  have hI := scanInt_literal int y ys hint hy
  have hhead : ∃ d ds, int = d :: ds ∧ d ≠ 45 := by
    unfold intWellFormed at hint
    cases int with
    | nil => simp at hint
    | cons d ds =>
      refine ⟨d, ds, rfl, ?_⟩
      simp only [Bool.or_eq_true, beq_iff_eq, Bool.and_eq_true, decide_eq_true_eq] at hint
      rcases hint with h | ⟨⟨h1, h2⟩, _⟩
      · cases h
        decide
      · omega
  obtain ⟨d, ds, hd, hd45⟩ := hhead
  have hsign : scanSign ((if neg = true then [45] else []) ++ int ++ y :: ys) =
      (if neg = true then [45] else [], int ++ y :: ys) := by
    cases neg with
    | true => simp [scanSign]
    | false =>
      subst hd
      simp only [Bool.false_eq_true, if_false, List.nil_append, List.cons_append]
      unfold scanSign
      split
      · rename_i h
        cases h
        exact absurd rfl hd45
      · rfl
  have hbytes : NumberLiteral.bytes ⟨neg, int, frac, exp⟩ ++ c :: r =
      (if neg = true then [45] else []) ++ int ++ y :: ys := by
    simp only [NumberLiteral.bytes, List.append_assoc]
    rw [hxs, hys]
  rw [hbytes]
  unfold scanNumber
  rw [hsign]
  dsimp only
  rw [hI]
  dsimp only
  rw [← hys, hF]
  dsimp only
  rw [← hxs, hE]
  simp [NumberLiteral.bytes]

theorem parseValue_numberLiteral (n : NumberLiteral) (fuel d c : Nat) (r : List Nat)
    (hn : n.wellFormed = true) (hc : isDelimiter c = true) :
    parseValue (fuel + 1) d (n.bytes ++ c :: r) =
      .ok (.number (asciiText n.bytes), c :: r) := by
  obtain ⟨h, t, hb, hh⟩ := numberLiteral_head n hn
  have hscan := scanNumber_delimited n c r hn hc
  rw [hb] at hscan
  rw [hb]
  have h1 : h ≠ 91 := by omega
  have h2 : h ≠ 123 := by omega
  have h3 : h ≠ 34 := by omega
  have h4 : h = 45 ∨ isDigit h = true := by
    rcases hh with hh | hh
    · exact Or.inl hh
    · right
      simp [isDigit, hh.1, hh.2]
  simp only [List.cons_append] at hscan ⊢
  unfold parseValue
  simp only [h1, h2, h3, if_false, h4, if_true, hscan]
  rw [← hb]
  rfl

theorem text_head (t : JSONText) (ht : t.wellFormed = true) :
    ∃ h tl, t.bytes = h :: tl ∧ isSpace h = false ∧ h ≠ 93 ∧ h ≠ 125 := by
  cases t with
  | null => exact ⟨_, _, rfl, by decide, by decide, by decide⟩
  | bool b => cases b <;> exact ⟨_, _, rfl, by decide, by decide, by decide⟩
  | number n =>
    obtain ⟨h, t, hb, hh⟩ := numberLiteral_head n ht
    refine ⟨h, t, hb, ?_, by omega, by omega⟩
    simp only [isSpace, Bool.or_eq_false_iff, beq_eq_false_iff_ne]
    omega
  | string body => exact ⟨_, _, rfl, by decide, by decide, by decide⟩
  | emptyArray ws => exact ⟨_, _, rfl, by decide, by decide, by decide⟩
  | array ws items => exact ⟨_, _, rfl, by decide, by decide, by decide⟩
  | emptyObject ws => exact ⟨_, _, rfl, by decide, by decide, by decide⟩
  | object ws members => exact ⟨_, _, rfl, by decide, by decide, by decide⟩

theorem items_head (items : JSONItems) (h : items.wellFormed = true) :
    ∃ c tl, items.bytes = c :: tl ∧ isSpace c = false ∧ c ≠ 93 := by
  cases items with
  | last item after =>
    simp only [JSONItems.wellFormed, Bool.and_eq_true] at h
    obtain ⟨c, tl, hb, h1, h2, _⟩ := text_head item h.1
    exact ⟨c, tl ++ after, by simp [JSONItems.bytes, hb], h1, h2⟩
  | more item after before rest =>
    simp only [JSONItems.wellFormed, Bool.and_eq_true] at h
    obtain ⟨c, tl, hb, h1, h2, _⟩ := text_head item h.1.1.1
    exact ⟨c, tl ++ (after ++ 44 :: (before ++ rest.bytes)),
      by simp only [JSONItems.bytes, hb, List.cons_append], h1, h2⟩

theorem members_head (members : JSONMembers) :
    ∃ tl, members.bytes = 34 :: tl := by
  cases members with
  | last key ws1 ws2 value after => exact ⟨_, rfl⟩
  | more key ws1 ws2 value after before rest => exact ⟨_, rfl⟩

theorem delimited_blank (ws : List Nat) (c : Nat) (r : List Nat) (hws : isBlank ws = true)
    (hc : isDelimiter c = true) :
    ∃ c' r', ws ++ c :: r = c' :: r' ∧ isDelimiter c' = true := by
  cases ws with
  | nil => exact ⟨c, r, rfl, hc⟩
  | cons w ws =>
    simp only [isBlank, List.all_cons, Bool.and_eq_true] at hws
    exact ⟨w, ws ++ c :: r, rfl, by simp [isDelimiter, hws.1]⟩

theorem bodyBytes_length (ps : List StringPiece) : ps.length ≤ (bodyBytes ps).length := by
  induction ps with
  | nil => simp [bodyBytes]
  | cons p ps ih =>
    cases p <;> simp [bodyBytes, StringPiece.bytes] <;> omega

theorem scanString_literal (body : List StringPiece) (rest : List Nat)
    (h : body.all StringPiece.wellFormed = true) :
    scanString ((bodyBytes body ++ 34 :: rest).length + 1) (bodyBytes body ++ 34 :: rest) [] =
      .ok (String.mk (unquote body), rest) := by
  have := scanString_body body.length body (Nat.le_refl _) h
    ((bodyBytes body ++ 34 :: rest).length + 1) [] rest
    (by
      have := bodyBytes_length body
      simp only [List.length_append, List.length_cons]
      omega)
  simpa using this

theorem text_size_pos (t : JSONText) : 1 ≤ t.size := by
  cases t <;> simp [JSONText.size]

theorem items_size_pos (items : JSONItems) : 1 ≤ items.size := by
  cases items <;> simp [JSONItems.size]

theorem members_size_pos (members : JSONMembers) : 1 ≤ members.size := by
  cases members <;> simp [JSONMembers.size]

mutual
theorem parseValue_text (t : JSONText) (fuel d : Nat) (rest : List Nat)
    (hwf : t.wellFormed = true) (hfuel : t.size ≤ fuel) (hd : t.depth ≤ d)
    (hrest : ∀ n, t = .number n → ∃ c r, rest = c :: r ∧ isDelimiter c = true) :
    parseValue fuel d (t.bytes ++ rest) = .ok (t.value, rest) := by
  obtain ⟨f, rfl⟩ : ∃ f, fuel = f + 1 := ⟨fuel - 1, by have := text_size_pos t; omega⟩
  match t, hwf, hfuel, hd, hrest with
  | .null, _, _, _, _ =>
    simp [JSONText.bytes, JSONText.value, parseValue, scanWord, isDigit, Except.map]
  | .bool true, _, _, _, _ =>
    simp [JSONText.bytes, JSONText.value, parseValue, scanWord, isDigit, Except.map]
  | .bool false, _, _, _, _ =>
    simp [JSONText.bytes, JSONText.value, parseValue, scanWord, isDigit, Except.map]
  | .number n, hwf, _, _, hrest =>
    obtain ⟨c, r, hr, hc⟩ := hrest n rfl
    subst hr
    exact parseValue_numberLiteral n f d c r hwf hc
  | .string body, hwf, _, _, _ =>
    have hb : (JSONText.string body).bytes ++ rest = 34 :: (bodyBytes body ++ 34 :: rest) := by
      simp [JSONText.bytes]
    rw [hb]
    unfold parseValue
    simp only [show ¬ (34 : Nat) = 91 by decide, show ¬ (34 : Nat) = 123 by decide, if_false,
      if_true, scanString_literal body rest hwf]
    rfl
  | .emptyArray ws, hwf, _, hd, _ =>
    have hb : (JSONText.emptyArray ws).bytes ++ rest = 91 :: (ws ++ 93 :: rest) := by
      simp [JSONText.bytes]
    have hd0 : ¬ d = 0 := by
      simp only [JSONText.depth] at hd
      omega
    rw [hb]
    unfold parseValue
    simp only [if_true, hd0, if_false, skipSpace_blank ws 93 rest hwf (by decide)]
    rfl
  | .array ws items, hwf, hfuel, hd, _ =>
    simp only [JSONText.wellFormed, Bool.and_eq_true] at hwf
    simp only [JSONText.size] at hfuel
    simp only [JSONText.depth] at hd
    have hb : (JSONText.array ws items).bytes ++ rest =
        91 :: (ws ++ (items.bytes ++ 93 :: rest)) := by
      simp [JSONText.bytes]
    have hd0 : ¬ d = 0 := by omega
    obtain ⟨c, tl, hc, hsp, h93⟩ := items_head items hwf.2
    have hskip : skipSpace (ws ++ (items.bytes ++ 93 :: rest)) = items.bytes ++ 93 :: rest := by
      rw [hc]
      exact skipSpace_blank ws c _ hwf.1 hsp
    have hrec := parseItems_text items f (d - 1) rest hwf.2 (by omega) (by omega)
    rw [hb]
    unfold parseValue
    simp only [if_true, hd0, if_false, hskip]
    split
    · rename_i r heq
      rw [hc] at heq
      have := (List.cons.inj heq).1
      exact absurd this h93
    · rw [hrec]
      rfl
  | .emptyObject ws, hwf, _, hd, _ =>
    have hb : (JSONText.emptyObject ws).bytes ++ rest = 123 :: (ws ++ 125 :: rest) := by
      simp [JSONText.bytes]
    have hd0 : ¬ d = 0 := by
      simp only [JSONText.depth] at hd
      omega
    rw [hb]
    unfold parseValue
    simp only [show ¬ (123 : Nat) = 91 by decide, if_true, hd0, if_false,
      skipSpace_blank ws 125 rest hwf (by decide)]
    rfl
  | .object ws members, hwf, hfuel, hd, _ =>
    simp only [JSONText.wellFormed, Bool.and_eq_true] at hwf
    simp only [JSONText.size] at hfuel
    simp only [JSONText.depth] at hd
    have hb : (JSONText.object ws members).bytes ++ rest =
        123 :: (ws ++ (members.bytes ++ 125 :: rest)) := by
      simp [JSONText.bytes]
    have hd0 : ¬ d = 0 := by omega
    obtain ⟨tl, hc⟩ := members_head members
    have hskip : skipSpace (ws ++ (members.bytes ++ 125 :: rest)) =
        members.bytes ++ 125 :: rest := by
      rw [hc]
      exact skipSpace_blank ws 34 _ hwf.1 (by decide)
    have hrec := parseMembers_text members f (d - 1) rest [] hwf.2 (by omega) (by omega)
    rw [hb]
    unfold parseValue
    simp only [show ¬ (123 : Nat) = 91 by decide, if_true, hd0, if_false, hskip]
    split
    · rename_i r heq
      rw [hc] at heq
      have := (List.cons.inj heq).1
      omega
    · rw [hrec]
      rfl
theorem parseItems_text (items : JSONItems) (fuel d : Nat) (rest : List Nat)
    (hwf : items.wellFormed = true) (hfuel : items.size ≤ fuel) (hd : items.depth ≤ d) :
    parseItems fuel d (items.bytes ++ 93 :: rest) = .ok (items.values, rest) := by
  obtain ⟨f, rfl⟩ : ∃ f, fuel = f + 1 := ⟨fuel - 1, by have := items_size_pos items; omega⟩
  match items, hwf, hfuel, hd with
  | .last item after, hwf, hfuel, hd =>
    simp only [JSONItems.wellFormed, Bool.and_eq_true] at hwf
    simp only [JSONItems.size] at hfuel
    simp only [JSONItems.depth] at hd
    have hb : (JSONItems.last item after).bytes ++ 93 :: rest =
        item.bytes ++ (after ++ 93 :: rest) := by
      simp [JSONItems.bytes]
    have hv := parseValue_text item f d (after ++ 93 :: rest) hwf.1 (by omega) hd
      (fun _ _ => delimited_blank after 93 rest hwf.2 (by decide))
    rw [hb]
    unfold parseItems
    simp only [hv, skipSpace_blank after 93 rest hwf.2 (by decide)]
    simp [JSONItems.values]
  | .more item after before more, hwf, hfuel, hd =>
    simp only [JSONItems.wellFormed, Bool.and_eq_true] at hwf
    simp only [JSONItems.size] at hfuel
    simp only [JSONItems.depth] at hd
    obtain ⟨⟨⟨hitem, hafter⟩, hbefore⟩, hmore⟩ := hwf
    have hb : (JSONItems.more item after before more).bytes ++ 93 :: rest =
        item.bytes ++ (after ++ 44 :: (before ++ (more.bytes ++ 93 :: rest))) := by
      simp [JSONItems.bytes]
    have hv := parseValue_text item f d (after ++ 44 :: (before ++ (more.bytes ++ 93 :: rest)))
      hitem (by omega) (by omega) (fun _ _ => delimited_blank after 44 _ hafter (by decide))
    obtain ⟨c, tl, hc, hsp, _⟩ := items_head more hmore
    have hskip : skipSpace (before ++ (more.bytes ++ 93 :: rest)) = more.bytes ++ 93 :: rest := by
      rw [hc]
      exact skipSpace_blank before c _ hbefore hsp
    have hrec := parseItems_text more f d rest hmore (by omega) (by omega)
    rw [hb]
    unfold parseItems
    simp only [hv, skipSpace_blank after 44 _ hafter (by decide), if_true, hskip, hrec]
    simp [JSONItems.values, Except.map]
theorem parseMembers_text (members : JSONMembers) (fuel d : Nat) (rest : List Nat)
    (m : List (String × JSONValue))
    (hwf : members.wellFormed = true) (hfuel : members.size ≤ fuel) (hd : members.depth ≤ d) :
    parseMembers fuel d (members.bytes ++ 125 :: rest) m = .ok (members.entries m, rest) := by
  obtain ⟨f, rfl⟩ : ∃ f, fuel = f + 1 := ⟨fuel - 1, by have := members_size_pos members; omega⟩
  match members, hwf, hfuel, hd with
  | .last key ws1 ws2 value after, hwf, hfuel, hd =>
    simp only [JSONMembers.wellFormed, Bool.and_eq_true] at hwf
    simp only [JSONMembers.size] at hfuel
    simp only [JSONMembers.depth] at hd
    obtain ⟨⟨⟨⟨hkey, hws1⟩, hws2⟩, hvalue⟩, hafter⟩ := hwf
    have hb : (JSONMembers.last key ws1 ws2 value after).bytes ++ 125 :: rest =
        34 :: (bodyBytes key ++ 34 :: (ws1 ++ 58 :: (ws2 ++ (value.bytes ++
          (after ++ 125 :: rest))))) := by
      simp [JSONMembers.bytes]
    obtain ⟨c, tl, hc, hsp, _, _⟩ := text_head value hvalue
    have hskip : skipSpace (ws2 ++ (value.bytes ++ (after ++ 125 :: rest))) =
        value.bytes ++ (after ++ 125 :: rest) := by
      rw [hc]
      exact skipSpace_blank ws2 c _ hws2 hsp
    have hv := parseValue_text value f d (after ++ 125 :: rest) hvalue (by omega) hd
      (fun _ _ => delimited_blank after 125 rest hafter (by decide))
    rw [hb]
    unfold parseMembers
    simp only [if_true, scanString_literal key _ hkey,
      skipSpace_blank ws1 58 _ hws1 (by decide), hskip, hv,
      skipSpace_blank after 125 rest hafter (by decide)]
    simp [JSONMembers.entries]
  | .more key ws1 ws2 value after before more, hwf, hfuel, hd =>
    simp only [JSONMembers.wellFormed, Bool.and_eq_true] at hwf
    simp only [JSONMembers.size] at hfuel
    simp only [JSONMembers.depth] at hd
    obtain ⟨⟨⟨⟨⟨⟨hkey, hws1⟩, hws2⟩, hvalue⟩, hafter⟩, hbefore⟩, hmore⟩ := hwf
    have hb : (JSONMembers.more key ws1 ws2 value after before more).bytes ++ 125 :: rest =
        34 :: (bodyBytes key ++ 34 :: (ws1 ++ 58 :: (ws2 ++ (value.bytes ++
          (after ++ 44 :: (before ++ (more.bytes ++ 125 :: rest))))))) := by
      simp [JSONMembers.bytes]
    obtain ⟨c, tl, hc, hsp, _, _⟩ := text_head value hvalue
    have hskip : skipSpace (ws2 ++ (value.bytes ++
          (after ++ 44 :: (before ++ (more.bytes ++ 125 :: rest))))) =
        value.bytes ++ (after ++ 44 :: (before ++ (more.bytes ++ 125 :: rest))) := by
      rw [hc]
      exact skipSpace_blank ws2 c _ hws2 hsp
    have hv := parseValue_text value f d
      (after ++ 44 :: (before ++ (more.bytes ++ 125 :: rest))) hvalue (by omega) (by omega)
      (fun _ _ => delimited_blank after 44 _ hafter (by decide))
    obtain ⟨tl', hc'⟩ := members_head more
    have hskip' : skipSpace (before ++ (more.bytes ++ 125 :: rest)) =
        more.bytes ++ 125 :: rest := by
      rw [hc']
      exact skipSpace_blank before 34 _ hbefore (by decide)
    have hrec := parseMembers_text more f d rest
      (objectSet m (String.mk (unquote key)) value.value) hmore (by omega) (by omega)
    rw [hb]
    unfold parseMembers
    simp only [if_true, scanString_literal key _ hkey,
      skipSpace_blank ws1 58 _ hws1 (by decide), hskip, hv,
      skipSpace_blank after 44 _ hafter (by decide), hskip', hrec]
    simp [JSONMembers.entries]
end

theorem items_values : ∀ items : JSONItems, items.values = items.toList.map JSONText.value
  | .last _ _ => rfl
  | .more item _ _ rest => by
    simp only [JSONItems.values, JSONItems.toList, List.map_cons, items_values rest]

theorem text_value_of_elements (doc : JSONText) (elems : List JSONText)
    (h : doc.elements = some elems) : doc.value = .array (elems.map JSONText.value) := by
  cases doc with
  | emptyArray ws =>
    simp only [JSONText.elements, Option.some.injEq] at h
    subst h
    rfl
  | array ws items =>
    simp only [JSONText.elements, Option.some.injEq] at h
    subst h
    simp only [JSONText.value, items_values]
  | null => simp [JSONText.elements] at h
  | bool b => simp [JSONText.elements] at h
  | number n => simp [JSONText.elements] at h
  | string body => simp [JSONText.elements] at h
  | emptyObject ws => simp [JSONText.elements] at h
  | object ws members => simp [JSONText.elements] at h

/-- The decoder on a payload that holds a JSON array, with any white space
before it and between its tokens and any bytes after it: the result is the list
of the values of its elements. -/
theorem jsonDecode_text (lead : List Nat) (doc : JSONText) (elems : List JSONText)
    (trailing : List Nat) (hlead : isBlank lead = true) (hwf : doc.wellFormed = true)
    (hel : doc.elements = some elems) (hd : doc.depth ≤ maxNestingDepth) :
    jsonDecode (lead ++ (doc.bytes ++ trailing)) = .ok (elems.map JSONText.value) := by
  obtain ⟨c, tl, hc, hsp, _, _⟩ := text_head doc hwf
  have hskip : skipSpace (lead ++ (doc.bytes ++ trailing)) = doc.bytes ++ trailing := by
    rw [hc]
    exact skipSpace_blank lead c _ hlead hsp
  have hnum : ∀ n, doc = .number n → ∃ c r, trailing = c :: r ∧ isDelimiter c = true := by
    intro n hn
    subst hn
    simp [JSONText.elements] at hel
  have hparse := parseValue_text doc (2 * (doc.bytes ++ trailing).length + 2 + doc.size)
    maxNestingDepth trailing hwf (by omega) hd hnum
  rw [parseValue_fuel] at hparse
  unfold jsonDecode
  rw [hskip]
  split
  · rename_i heq
    rw [hc] at heq
    cases heq
  · rw [hparse, text_value_of_elements doc elems hel]

theorem SubmitJSON_parse_made (form : Custom) (bytes : List Nat)
    (inputData : List JSONValue) (matched : List IdentifiedElement) (i : Nat)
    (e : IdentifiedElement) (v : JSONValue) (submitter : Submitter) (tx : Tx)
    (hdec : jsonDecode bytes = .ok inputData)
    (hm : matchElements form inputData = some matched)
    (he : matched[i]? = some e) (hv : inputData[i]? = some v)
    (hacc : ∀ (k : Nat) (x : IdentifiedElement) (w : JSONValue), k < i →
      matched[k]? = some x → inputData[k]? = some w → x.Value.submit w = none) :
    Event.parse i e.Key v ∈ (form.SubmitJSON (some bytes) submitter tx).trace := by
  have hmem := parseLoop_mem_of_accepted inputData matched 0 [] i e v he (by simpa using hv)
    (fun k x w hk hx hw => hacc k x w hk hx (by simpa using hw))
  simp only [Nat.zero_add] at hmem
  rw [SubmitJSON_decoded form bytes inputData submitter tx hdec]
  cases hl : (parseLoop inputData matched 0 []).2 with
  | error st =>
    rw [submitDecoded_failed form inputData submitter tx matched st hm hl]
    exact hmem
  | ok dataMap =>
    rw [submitDecoded_finished form inputData submitter tx matched dataMap hm hl]
    exact List.mem_append_left _ hmem

theorem toNat_ofNat_ascii (b : Nat) (h : b < 128) : (Char.ofNat b).toNat = b := by
  have hv : b.isValidChar := Or.inl (by omega)
  simp only [Char.ofNat, hv, dite_true, Char.ofNatAux, Char.toNat, Char.val]
  simp [UInt32.toNat, BitVec.toNat_ofNatLt]

theorem bytesOf_asciiText (bs : List Nat) (h : ∀ b ∈ bs, b < 128) :
    bytesOf (asciiText bs) = bs := by
  induction bs with
  | nil => rfl
  | cons b bs ih =>
    have hb := toNat_ofNat_ascii b (h b (List.mem_cons_self _ _))
    have ht := ih (fun x hx => h x (List.mem_cons_of_mem _ hx))
    simp only [bytesOf, asciiText, List.map_cons] at ht ⊢
    show (Char.ofNat b).toNat :: List.map Char.toNat (List.map Char.ofNat bs) = b :: bs
    rw [hb]
    congr 1

theorem digits_ascii (ds : List Nat) (h : ds.all isDigit = true) : ∀ b ∈ ds, b < 128 := by
  intro b hb
  have := isDigit_range b (List.all_eq_true.mp h b hb)
  omega

theorem numberLiteral_ascii (n : NumberLiteral) (hn : n.wellFormed = true) :
    ∀ b ∈ n.bytes, b < 128 := by
  obtain ⟨neg, int, frac, exp⟩ := n
  simp only [NumberLiteral.wellFormed, Bool.and_eq_true] at hn
  obtain ⟨⟨hint, hfrac⟩, hexp⟩ := hn
  intro b hb
  simp only [NumberLiteral.bytes, List.mem_append] at hb
  rcases hb with ((hb | hb) | hb) | hb
  · cases neg <;> simp at hb
    omega
  · unfold intWellFormed at hint
    cases int with
    | nil => simp at hb
    | cons d ds =>
      simp only [Bool.or_eq_true, beq_iff_eq, Bool.and_eq_true, decide_eq_true_eq] at hint
      rcases hint with h | ⟨⟨_, h2⟩, h3⟩
      · cases h
        simp at hb
        omega
      · rcases List.mem_cons.mp hb with h | h
        · omega
        · exact digits_ascii ds h3 b h
  · cases frac with
    | none => simp [fracBytes] at hb
    | some ds =>
      simp only [fracWellFormed, isDigits, Bool.and_eq_true] at hfrac
      simp only [fracBytes, List.mem_cons] at hb
      rcases hb with h | h
      · omega
      · exact digits_ascii ds hfrac.2 b h
  · cases exp with
    | none => simp [expBytes] at hb
    | some p =>
      obtain ⟨mark, sign, ds⟩ := p
      simp only [expWellFormed, isDigits, Bool.and_eq_true, Bool.or_eq_true, beq_iff_eq]
        at hexp
      obtain ⟨⟨hmark, hsign⟩, _, hds⟩ := hexp
      simp only [expBytes, List.mem_cons, List.mem_append] at hb
      rcases hb with h | h | h
      · omega
      · rcases hsign with (hs | hs) | hs <;> subst hs <;> simp at h <;> omega
      · exact digits_ascii ds hds b h

theorem items_wellFormed : ∀ items : JSONItems, items.wellFormed = true →
    ∀ t ∈ items.toList, t.wellFormed = true
  | .last item after, h, t, ht => by
    simp only [JSONItems.wellFormed, Bool.and_eq_true] at h
    simp only [JSONItems.toList, List.mem_singleton] at ht
    subst ht
    exact h.1
  | .more item after before rest, h, t, ht => by
    simp only [JSONItems.wellFormed, Bool.and_eq_true] at h
    simp only [JSONItems.toList, List.mem_cons] at ht
    rcases ht with ht | ht
    · subst ht
      exact h.1.1.1
    · exact items_wellFormed rest h.2 t ht

theorem elements_wellFormed (doc : JSONText) (elems : List JSONText)
    (hwf : doc.wellFormed = true) (hel : doc.elements = some elems) :
    ∀ t ∈ elems, t.wellFormed = true := by
  cases doc with
  | emptyArray ws =>
    simp only [JSONText.elements, Option.some.injEq] at hel
    subst hel
    simp
  | array ws items =>
    simp only [JSONText.elements, Option.some.injEq] at hel
    subst hel
    simp only [JSONText.wellFormed, Bool.and_eq_true] at hwf
    exact items_wellFormed items hwf.2
  | null => simp [JSONText.elements] at hel
  | bool b => simp [JSONText.elements] at hel
  | number n => simp [JSONText.elements] at hel
  | string body => simp [JSONText.elements] at hel
  | emptyObject ws => simp [JSONText.elements] at hel
  | object ws members => simp [JSONText.elements] at hel

/-! ### Every number that the decoder yields is a literal of the payload -/

theorem suffix_cons_of (r cs : List Nat) (c : Nat) (h : r <:+ cs) : r <:+ c :: cs :=
  h.trans (List.suffix_cons c cs)

theorem skipSpace_suffix (cs : List Nat) : skipSpace cs <:+ cs := by
  induction cs with
  | nil => exact List.suffix_refl _
  | cons c cs ih =>
    unfold skipSpace
    split
    · exact suffix_cons_of _ _ _ ih
    · exact List.suffix_refl _

theorem skipSpace_cons_suffix (cs r : List Nat) (c : Nat) (h : skipSpace cs = c :: r) :
    r <:+ cs := by
  have := skipSpace_suffix cs
  rw [h] at this
  exact (List.suffix_cons c r).trans this

theorem scanWord_suffix (es : List Nat) (name : String) (cs r : List Nat)
    (h : scanWord es name cs = .ok r) : r <:+ cs := by
  induction es generalizing cs with
  | nil =>
    simp [scanWord] at h
    subst h
    exact List.suffix_refl _
  | cons e es ih =>
    cases cs with
    | nil => simp [scanWord] at h
    | cons c cs =>
      simp only [scanWord] at h
      split at h
      · exact suffix_cons_of _ _ _ (ih cs h)
      · cases h

theorem scanHex_suffix (n acc : Nat) (cs r : List Nat) (x : Nat)
    (h : scanHex n acc cs = .ok (x, r)) : r <:+ cs := by
  induction n generalizing acc cs with
  | zero =>
    simp [scanHex] at h
    obtain ⟨_, h⟩ := h
    subst h
    exact List.suffix_refl _
  | succ n ih =>
    cases cs with
    | nil => simp [scanHex] at h
    | cons c cs =>
      simp only [scanHex] at h
      split at h
      · exact suffix_cons_of _ _ _ (ih _ _ h)
      · cases h

theorem getu4_suffix (cs r : List Nat) (x : Nat) (h : getu4 cs = some (x, r)) :
    r <:+ cs := by
  unfold getu4 at h
  split at h
  · rename_i r0
    split at h
    · rename_i p hp
      cases h
      exact suffix_cons_of _ _ _ (suffix_cons_of _ _ _ (scanHex_suffix _ _ _ _ _ hp))
    · cases h
  · cases h

theorem decodeRune_suffix (c : Nat) (cs : List Nat) : (decodeRune c cs).2 <:+ cs := by
  unfold decodeRune
  split_ifs <;> (try split) <;> (try split_ifs) <;>
    first
    | exact List.suffix_refl _
    | exact ⟨[_], rfl⟩
    | exact ⟨[_, _], rfl⟩
    | exact ⟨[_, _, _], rfl⟩

theorem scanString_suffix (fuel : Nat) (cs : List Nat) (acc : List Char) (s : String)
    (r : List Nat) (h : scanString fuel cs acc = .ok (s, r)) : r <:+ cs := by
  induction fuel generalizing cs acc with
  | zero => simp [scanString] at h
  | succ fuel ih =>
    cases cs with
    | nil => simp [scanString] at h
    | cons c cs =>
      simp only [scanString] at h
      split_ifs at h
      · simp at h
        obtain ⟨_, h⟩ := h
        subst h
        exact List.suffix_cons _ _
      · split at h
        · cases h
        · rename_i e r0
          split_ifs at h
          · split at h
            · cases h
            · rename_i rr r1 hhex
              have l1 := scanHex_suffix _ _ _ _ _ hhex
              split_ifs at h
              · split at h
                · rename_i rr1 r2 hu
                  have l2 := getu4_suffix _ _ _ hu
                  split_ifs at h
                  · exact suffix_cons_of _ _ _ (suffix_cons_of _ _ _
                      (((ih _ _ h).trans l2).trans l1))
                  · exact suffix_cons_of _ _ _ (suffix_cons_of _ _ _ ((ih _ _ h).trans l1))
                · exact suffix_cons_of _ _ _ (suffix_cons_of _ _ _ ((ih _ _ h).trans l1))
              · exact suffix_cons_of _ _ _ (suffix_cons_of _ _ _ ((ih _ _ h).trans l1))
          · split at h
            · exact suffix_cons_of _ _ _ (suffix_cons_of _ _ _ (ih _ _ h))
            · cases h
      · exact suffix_cons_of _ _ _ (ih _ _ h)
      · exact suffix_cons_of _ _ _ ((ih _ _ h).trans (decodeRune_suffix c cs))

theorem parse_suffix (fuel : Nat) :
    (∀ (d : Nat) (cs : List Nat) (v : JSONValue) (r : List Nat),
      parseValue fuel d cs = .ok (v, r) → r <:+ cs) ∧
    (∀ (d : Nat) (cs : List Nat) (vs : List JSONValue) (r : List Nat),
      parseItems fuel d cs = .ok (vs, r) → r <:+ cs) ∧
    (∀ (d : Nat) (cs : List Nat) (m ms : List (String × JSONValue)) (r : List Nat),
      parseMembers fuel d cs m = .ok (ms, r) → r <:+ cs) := by
  induction fuel with
  | zero =>
    refine ⟨?_, ?_, ?_⟩
    · intro d cs v r h
      simp [parseValue] at h
    · intro d cs vs r h
      simp [parseItems] at h
    · intro d cs m ms r h
      simp [parseMembers] at h
  | succ fuel ih =>
    obtain ⟨ihV, ihI, ihM⟩ := ih
    refine ⟨?_, ?_, ?_⟩
    · intro d cs v r h
      cases cs with
      | nil => simp [parseValue] at h
      | cons c rest =>
        unfold parseValue at h
        split_ifs at h
        · split at h
          · rename_i r0 hs
            have := skipSpace_cons_suffix _ _ _ hs
            simp at h
            obtain ⟨_, h⟩ := h
            subst h
            exact suffix_cons_of _ _ _ this
          · obtain ⟨p, hp, hf⟩ := except_map_ok _ _ _ h
            have l1 := ihI _ _ _ _ (by rw [hp])
            have l2 := skipSpace_suffix rest
            simp at hf
            obtain ⟨_, hf⟩ := hf
            subst hf
            exact suffix_cons_of _ _ _ (l1.trans l2)
        · split at h
          · rename_i r0 hs
            have := skipSpace_cons_suffix _ _ _ hs
            simp at h
            obtain ⟨_, h⟩ := h
            subst h
            exact suffix_cons_of _ _ _ this
          · obtain ⟨p, hp, hf⟩ := except_map_ok _ _ _ h
            have l1 := ihM _ _ _ _ _ (by rw [hp])
            have l2 := skipSpace_suffix rest
            simp at hf
            obtain ⟨_, hf⟩ := hf
            subst hf
            exact suffix_cons_of _ _ _ (l1.trans l2)
        · obtain ⟨p, hp, hf⟩ := except_map_ok _ _ _ h
          have l1 := scanString_suffix _ _ _ _ _ (by rw [hp])
          simp at hf
          obtain ⟨_, hf⟩ := hf
          subst hf
          exact suffix_cons_of _ _ _ l1
        · obtain ⟨p, hp, hf⟩ := except_map_ok _ _ _ h
          obtain ⟨lit, r'⟩ := p
          have l1 := scanNumber_eq _ _ _ hp
          simp at hf
          obtain ⟨_, hf⟩ := hf
          subst hf
          exact ⟨lit, l1.symm⟩
        all_goals
          obtain ⟨p, hp, hf⟩ := except_map_ok _ _ _ h
          have l1 := scanWord_suffix _ _ _ _ hp
          simp at hf
          obtain ⟨_, hf⟩ := hf
          subst hf
          exact suffix_cons_of _ _ _ l1
    · intro d cs vs r h
      unfold parseItems at h
      split at h
      · cases h
      · rename_i v r0 hv
        have l1 := ihV _ _ _ _ hv
        split at h
        · cases h
        · rename_i c r1 hs
          have l2 := skipSpace_cons_suffix _ _ _ hs
          split_ifs at h
          · obtain ⟨p, hp, hf⟩ := except_map_ok _ _ _ h
            have l3 := ihI _ _ _ _ (by rw [hp])
            have l4 := skipSpace_suffix r1
            simp at hf
            obtain ⟨_, hf⟩ := hf
            subst hf
            exact ((l3.trans l4).trans l2).trans l1
          · simp at h
            obtain ⟨_, h⟩ := h
            subst h
            exact l2.trans l1
    · intro d cs m ms r h
      cases cs with
      | nil => simp [parseMembers] at h
      | cons c rest =>
        unfold parseMembers at h
        split_ifs at h
        split at h
        · cases h
        · rename_i k r0 hk
          have l1 := scanString_suffix _ _ _ _ _ hk
          split at h
          · cases h
          · rename_i c1 r1 hs1
            have l2 := skipSpace_cons_suffix _ _ _ hs1
            split_ifs at h
            split at h
            · cases h
            · rename_i v r2 hv
              have l3 := ihV _ _ _ _ hv
              have l4 := skipSpace_suffix r1
              split at h
              · cases h
              · rename_i c2 r3 hs2
                have l5 := skipSpace_cons_suffix _ _ _ hs2
                split_ifs at h
                · have l6 := ihM _ _ _ _ _ h
                  have l7 := skipSpace_suffix r3
                  exact suffix_cons_of _ _ _
                    ((((((l6.trans l7).trans l5).trans l3).trans l4).trans l2).trans l1)
                · simp at h
                  obtain ⟨_, h⟩ := h
                  subst h
                  exact suffix_cons_of _ _ _ ((((l5.trans l3).trans l4).trans l2).trans l1)

theorem takeDigits_all (cs : List Nat) : (takeDigits cs).1.all isDigit = true := by
  induction cs with
  | nil => simp [takeDigits]
  | cons c cs ih =>
    unfold takeDigits
    split
    · rename_i hc
      simp [hc, ih]
    · simp

theorem scanInt_wellFormed (cs a r : List Nat) (h : scanInt cs = .ok (a, r)) :
    intWellFormed a = true := by
  cases cs with
  | nil => simp [scanInt] at h
  | cons c cs =>
    simp only [scanInt] at h
    split_ifs at h with h1 h2
    · simp at h
      obtain ⟨ha, _⟩ := h
      subst ha
      rfl
    · simp at h
      obtain ⟨ha, _⟩ := h
      subst ha
      simp [intWellFormed, h2.1, h2.2, takeDigits_all cs]

theorem scanFrac_wellFormed (cs a r : List Nat) (h : scanFrac cs = .ok (a, r)) :
    ∃ frac, fracWellFormed frac = true ∧ fracBytes frac = a := by
  unfold scanFrac at h
  split at h
  · cases h
  · rename_i c cs'
    split_ifs at h with hc
    simp at h
    obtain ⟨ha, _⟩ := h
    subst ha
    exact ⟨some (c :: (takeDigits cs').1),
      by simp [fracWellFormed, isDigits, hc, takeDigits_all cs'], rfl⟩
  · simp at h
    obtain ⟨ha, _⟩ := h
    subst ha
    exact ⟨none, rfl, rfl⟩

theorem scanExpDigits_wellFormed (cs a r : List Nat) (h : scanExpDigits cs = .ok (a, r)) :
    isDigits a = true := by
  cases cs with
  | nil => simp [scanExpDigits] at h
  | cons c cs =>
    simp only [scanExpDigits] at h
    split_ifs at h with hc
    simp at h
    obtain ⟨ha, _⟩ := h
    subst ha
    simp [isDigits, hc, takeDigits_all cs]

theorem scanExp_wellFormed (cs a r : List Nat) (h : scanExp cs = .ok (a, r)) :
    ∃ exp, expWellFormed exp = true ∧ expBytes exp = a := by
  cases cs with
  | nil =>
    simp [scanExp] at h
    obtain ⟨ha, _⟩ := h
    subst ha
    exact ⟨none, rfl, rfl⟩
  | cons c cs =>
    simp only [scanExp] at h
    split_ifs at h with hc
    · have hmark : (c == 101 || c == 69) = true := by simpa using hc
      split at h
      · obtain ⟨p, hp, hf⟩ := except_map_ok _ _ _ h
        obtain ⟨p1, p2⟩ := p
        have hd := scanExpDigits_wellFormed _ _ _ hp
        simp at hf
        obtain ⟨hf1, _⟩ := hf
        subst hf1
        exact ⟨some (c, [43], p1), by simp [expWellFormed, hmark, hd], rfl⟩
      · obtain ⟨p, hp, hf⟩ := except_map_ok _ _ _ h
        obtain ⟨p1, p2⟩ := p
        have hd := scanExpDigits_wellFormed _ _ _ hp
        simp at hf
        obtain ⟨hf1, _⟩ := hf
        subst hf1
        exact ⟨some (c, [45], p1), by simp [expWellFormed, hmark, hd], rfl⟩
      · obtain ⟨p, hp, hf⟩ := except_map_ok _ _ _ h
        obtain ⟨p1, p2⟩ := p
        have hd := scanExpDigits_wellFormed _ _ _ hp
        simp at hf
        obtain ⟨hf1, _⟩ := hf
        subst hf1
        exact ⟨some (c, [], p1), by simp [expWellFormed, hmark, hd], rfl⟩
    · simp at h
      obtain ⟨ha, _⟩ := h
      subst ha
      exact ⟨none, rfl, rfl⟩

theorem scanSign_cases (cs : List Nat) :
    (scanSign cs).1 = [45] ∨ (scanSign cs).1 = [] := by
  unfold scanSign
  split
  · exact Or.inl rfl
  · exact Or.inr rfl

/-- What the scanner reads as a number is a literal of the grammar of JSON numbers. -/
theorem scanNumber_wellFormed (cs lit r : List Nat) (h : scanNumber cs = .ok (lit, r)) :
    ∃ n : NumberLiteral, n.wellFormed = true ∧ n.bytes = lit := by
  unfold scanNumber at h
  cases h1 : scanInt (scanSign cs).2 with
  | error e => simp [h1] at h
  | ok p1 =>
    obtain ⟨a1, r1⟩ := p1
    have w1 := scanInt_wellFormed _ _ _ h1
    simp only [h1] at h
    cases h2 : scanFrac r1 with
    | error e => simp [h2] at h
    | ok p2 =>
      obtain ⟨a2, r2⟩ := p2
      obtain ⟨frac, w2, b2⟩ := scanFrac_wellFormed _ _ _ h2
      simp only [h2] at h
      cases h3 : scanExp r2 with
      | error e => simp [h3] at h
      | ok p3 =>
        obtain ⟨a3, r3⟩ := p3
        obtain ⟨exp, w3, b3⟩ := scanExp_wellFormed _ _ _ h3
        simp only [h3] at h
        simp at h
        obtain ⟨hl, _⟩ := h
        subst hl
        rcases scanSign_cases cs with hs | hs
        · exact ⟨⟨true, a1, frac, exp⟩, by simp [NumberLiteral.wellFormed, w1, w2, w3],
            by simp [NumberLiteral.bytes, hs, b2, b3]⟩
        · exact ⟨⟨false, a1, frac, exp⟩, by simp [NumberLiteral.wellFormed, w1, w2, w3],
            by simp [NumberLiteral.bytes, hs, b2, b3]⟩

theorem parseValue_number_inv (fuel d : Nat) (cs r : List Nat) (s : String)
    (h : parseValue fuel d cs = .ok (.number s, r)) :
    ∃ lit, cs = lit ++ r ∧ scanNumber cs = .ok (lit, r) ∧ s = asciiText lit := by
  cases fuel with
  | zero => simp [parseValue] at h
  | succ fuel =>
    cases cs with
    | nil => simp [parseValue] at h
    | cons c rest =>
      unfold parseValue at h
      split_ifs at h
      · split at h
        · cases h
        · obtain ⟨a, _, ha⟩ := except_map_ok _ _ _ h
          cases ha
      · split at h
        · cases h
        · obtain ⟨a, _, ha⟩ := except_map_ok _ _ _ h
          cases ha
      · obtain ⟨a, _, ha⟩ := except_map_ok _ _ _ h
        cases ha
      · obtain ⟨p, hp, hf⟩ := except_map_ok _ _ _ h
        obtain ⟨lit, r'⟩ := p
        simp at hf
        obtain ⟨hf1, hf2⟩ := hf
        subst hf1 hf2
        exact ⟨lit, scanNumber_eq _ _ _ hp, hp, rfl⟩
      all_goals
        obtain ⟨a, _, ha⟩ := except_map_ok _ _ _ h
        cases ha

theorem parseValue_array_inv (fuel d : Nat) (cs r : List Nat) (items : List JSONValue)
    (h : parseValue fuel d cs = .ok (.array items, r)) :
    items = [] ∨ ∃ (f : Nat) (d' : Nat) (cs' : List Nat),
      cs' <:+ cs ∧ parseItems f d' cs' = .ok (items, r) := by
  cases fuel with
  | zero => simp [parseValue] at h
  | succ fuel =>
    cases cs with
    | nil => simp [parseValue] at h
    | cons c rest =>
      unfold parseValue at h
      split_ifs at h
      · split at h
        · simp at h
          exact Or.inl h.1
        · obtain ⟨p, hp, hf⟩ := except_map_ok _ _ _ h
          obtain ⟨p1, p2⟩ := p
          simp at hf
          obtain ⟨hf1, hf2⟩ := hf
          subst hf1 hf2
          exact Or.inr ⟨fuel, d - 1, skipSpace rest,
            suffix_cons_of _ _ _ (skipSpace_suffix rest), hp⟩
      · split at h
        · cases h
        · obtain ⟨a, _, ha⟩ := except_map_ok _ _ _ h
          cases ha
      all_goals
        obtain ⟨a, _, ha⟩ := except_map_ok _ _ _ h
        cases ha

theorem parseItems_number (fuel : Nat) :
    ∀ (d : Nat) (cs : List Nat) (items : List JSONValue) (r : List Nat) (s : String),
      parseItems fuel d cs = .ok (items, r) → JSONValue.number s ∈ items →
      ∃ (n : NumberLiteral) (before after : List Nat),
        n.wellFormed = true ∧ s = asciiText n.bytes ∧ cs = before ++ (n.bytes ++ after) := by
  induction fuel with
  | zero =>
    intro d cs items r s h
    simp [parseItems] at h
  | succ fuel ih =>
    intro d cs items r s h hmem
    unfold parseItems at h
    split at h
    · cases h
    · rename_i v r0 hv
      have l1 := (parse_suffix fuel).1 _ _ _ _ hv
      have hhead : JSONValue.number s = v →
          ∃ (n : NumberLiteral) (before after : List Nat),
            n.wellFormed = true ∧ s = asciiText n.bytes ∧
              cs = before ++ (n.bytes ++ after) := by
        intro hsv
        subst hsv
        obtain ⟨lit, hcs, hscan, hs⟩ := parseValue_number_inv _ _ _ _ _ hv
        obtain ⟨n, hn, hb⟩ := scanNumber_wellFormed _ _ _ hscan
        exact ⟨n, [], r0, hn, by rw [hb]; exact hs, by rw [hb]; simpa using hcs⟩
      split at h
      · cases h
      · rename_i c r1 hs
        have l2 := skipSpace_cons_suffix _ _ _ hs
        split_ifs at h
        · obtain ⟨p, hp, hf⟩ := except_map_ok _ _ _ h
          obtain ⟨p1, p2⟩ := p
          simp at hf
          obtain ⟨hf1, _⟩ := hf
          subst hf1
          rcases List.mem_cons.mp hmem with hm | hm
          · exact hhead hm
          · obtain ⟨n, before, after, hn, hs', hcs⟩ := ih _ _ _ _ _ hp hm
            obtain ⟨pre, hpre⟩ := ((skipSpace_suffix r1).trans l2).trans l1
            refine ⟨n, pre ++ before, after, hn, hs', ?_⟩
            rw [← hpre, hcs, List.append_assoc]
        · simp at h
          obtain ⟨hf1, _⟩ := h
          subst hf1
          exact hhead (List.mem_singleton.mp hmem)

/-- Every number that the decoder yields as an element of the response is the
text of a number literal that stands in the payload. -/
theorem jsonDecode_number (bytes : List Nat) (inputData : List JSONValue) (s : String)
    (h : jsonDecode bytes = .ok inputData) (hmem : JSONValue.number s ∈ inputData) :
    ∃ (n : NumberLiteral) (before after : List Nat),
      n.wellFormed = true ∧ s = asciiText n.bytes ∧ bytes = before ++ (n.bytes ++ after) := by
  unfold jsonDecode at h
  have hsuf := skipSpace_suffix bytes
  split at h
  · cases h
  · rename_i cs _
    split at h
    · cases h
    · rename_i items r hp
      simp only [Except.ok.injEq] at h
      subst h
      rcases parseValue_array_inv _ _ _ _ _ hp with h0 | ⟨f, d', cs', hcs', hitems⟩
      · subst h0
        simp at hmem
      · obtain ⟨n, before, after, hn, hs, hc⟩ := parseItems_number f d' cs' _ r s hitems hmem
        obtain ⟨pre, hpre⟩ := hcs'.trans hsuf
        refine ⟨n, pre ++ before, after, hn, hs, ?_⟩
        rw [← hpre, hc, List.append_assoc]
    · simp only [Except.ok.injEq] at h
      subst h
      simp at hmem
    all_goals cases h

/-! ### Slices in memory -/

theorem submitDecoded_eq (form : Custom) (inputData : List JSONValue) (submitter : Submitter)
    (tx : Tx) :
    submitDecoded form inputData submitter tx =
      match matchElements form inputData with
      | none => ⟨[], .returned (some countMismatch)⟩
      | some elements => submitMatched form.Submit inputData elements submitter tx := rfl

theorem cellsOf_append_left (mem fresh : Memory) (a : Nat) (h : a < mem.length) :
    cellsOf (mem ++ fresh) a = cellsOf mem a := by
  simp [cellsOf, List.getElem?_append_left h]

theorem lt_length_of_cells (mem : Memory) (a i : Nat) (h : i < (cellsOf mem a).length) :
    a < mem.length := by
  by_contra hlt
  have : mem[a]? = none := List.getElem?_eq_none (by omega)
  simp [cellsOf, this] at h

theorem sliceElements_length (mem : Memory) (s : Slice)
    (h : s.offset + s.len ≤ (cellsOf mem s.array).length) :
    (sliceElements mem s).length = s.len := by
  simp [sliceElements]
  omega

theorem sliceElements_getElem (mem : Memory) (s : Slice) (i : Nat) (h : i < s.len) :
    (sliceElements mem s)[i]? = (cellsOf mem s.array)[s.offset + i]? := by
  simp [sliceElements, List.getElem?_take_of_lt h, List.getElem?_drop]

theorem nonDecorative_cons (e : IdentifiedElement) (es : List IdentifiedElement) :
    nonDecorative (e :: es) =
      match e.Value.kind with
      | .Divider | .Header | .Label => nonDecorative es
      | _ => e :: nonDecorative es := by
  cases hk : e.Value.kind <;>
    simp [nonDecorative, List.filter_cons, hk, ElementKind.isDecorative]

theorem appendSlice_inv (grow : Nat → Nat → Nat) (mem0 mem : Memory) (el : Slice)
    (acc : List IdentifiedElement) (x : IdentifiedElement)
    (hmem : ∃ fresh, mem = mem0 ++ fresh) (harr : mem0.length ≤ el.array)
    (hlt : el.array < mem.length) (hoff : el.offset = 0)
    (hcells : cellsOf mem el.array = acc) (hlen : el.len = acc.length) :
    (∃ fresh, (appendSlice grow mem el x).1 = mem0 ++ fresh) ∧
      mem0.length ≤ (appendSlice grow mem el x).2.array ∧
      (appendSlice grow mem el x).2.array < (appendSlice grow mem el x).1.length ∧
      (appendSlice grow mem el x).2.offset = 0 ∧
      cellsOf (appendSlice grow mem el x).1 (appendSlice grow mem el x).2.array = acc ++ [x] ∧
      (appendSlice grow mem el x).2.len = (acc ++ [x]).length := by
  obtain ⟨fresh, hfresh⟩ := hmem
  unfold appendSlice
  split
  · have hsome : mem[el.array]? = some mem[el.array] := List.getElem?_eq_getElem hlt
    have hc : mem[el.array].cells = acc := by
      simpa [cellsOf, hsome] using hcells
    simp only [hsome]
    refine ⟨⟨fresh.set (el.array - mem0.length) (mem[el.array].write (el.offset + el.len) x),
      ?_⟩, harr, by simpa using hlt, hoff, ?_, by simp [hlen]⟩
    · subst hfresh
      rw [List.set_append_right _ _ harr]
    · simp only [cellsOf, List.getElem?_set_self hlt, BackingArray.write, hc, hoff, hlen,
        Nat.zero_add]
      simp
  · refine ⟨⟨fresh ++ [⟨grow el.cap (el.len + 1), sliceElements mem el ++ [x]⟩], ?_⟩,
      by simp; omega, by simp, rfl, ?_, by simp [hlen]⟩
    · subst hfresh
      simp
    · simp only [cellsOf, List.getElem?_append_right (Nat.le_refl _), Nat.sub_self,
        List.getElem?_cons_zero]
      simp [sliceElements, hcells, hoff, hlen]

theorem filterLoop_inv (grow : Nat → Nat → Nat) (mem0 : Memory) (source : Slice)
    (hwf : source.offset + source.len ≤ (cellsOf mem0 source.array).length)
    (n i : Nat) (mem : Memory) (el : Slice) (acc : List IdentifiedElement)
    (hin : i + n = source.len)
    (hmem : ∃ fresh, mem = mem0 ++ fresh) (harr : mem0.length ≤ el.array)
    (hlt : el.array < mem.length) (hoff : el.offset = 0)
    (hcells : cellsOf mem el.array = acc) (hlen : el.len = acc.length) :
    (∃ fresh, (filterLoop grow source n i mem el).1 = mem0 ++ fresh) ∧
      mem0.length ≤ (filterLoop grow source n i mem el).2.array ∧
      (filterLoop grow source n i mem el).2.array < (filterLoop grow source n i mem el).1.length ∧
      (filterLoop grow source n i mem el).2.offset = 0 ∧
      cellsOf (filterLoop grow source n i mem el).1 (filterLoop grow source n i mem el).2.array =
        acc ++ nonDecorative ((sliceElements mem0 source).drop i) ∧
      (filterLoop grow source n i mem el).2.len =
        (acc ++ nonDecorative ((sliceElements mem0 source).drop i)).length := by
  have hsl := sliceElements_length mem0 source hwf
  induction n generalizing i mem el acc with
  | zero =>
    have hdrop : (sliceElements mem0 source).drop i = [] :=
      List.drop_eq_nil_of_le (by omega)
    simp only [filterLoop, hdrop, nonDecorative, List.filter_nil, List.append_nil]
    exact ⟨hmem, harr, hlt, hoff, hcells, hlen⟩
  | succ n ih =>
    have hi : i < source.len := by omega
    have hidx : source.offset + i < (cellsOf mem0 source.array).length := by omega
    have ha : source.array < mem0.length := lt_length_of_cells mem0 _ _ hidx
    obtain ⟨fresh, hfresh⟩ := hmem
    have hcs : cellsOf mem source.array = cellsOf mem0 source.array := by
      rw [hfresh]
      exact cellsOf_append_left mem0 fresh _ ha
    have hread : (cellsOf mem source.array)[source.offset + i]? =
        some ((cellsOf mem0 source.array)[source.offset + i]) := by
      rw [hcs]
      exact List.getElem?_eq_getElem hidx
    have hsi : (sliceElements mem0 source)[i]? =
        some ((cellsOf mem0 source.array)[source.offset + i]) := by
      rw [sliceElements_getElem mem0 source i hi]
      exact List.getElem?_eq_getElem hidx
    have hdrop : (sliceElements mem0 source).drop i =
        (cellsOf mem0 source.array)[source.offset + i] ::
          (sliceElements mem0 source).drop (i + 1) := by
      obtain ⟨hlt', hv⟩ := List.getElem?_eq_some.mp hsi
      rw [List.drop_eq_getElem_cons hlt', hv]
    have hA := ih (i + 1) mem el acc (by omega) ⟨fresh, hfresh⟩ harr hlt hoff hcells hlen
    obtain ⟨b1, b2, b3, b4, b5, b6⟩ := appendSlice_inv grow mem0 mem el acc
      ((cellsOf mem0 source.array)[source.offset + i]) ⟨fresh, hfresh⟩ harr hlt hoff hcells hlen
    have hB := ih (i + 1) _ _ _ (by omega) b1 b2 b3 b4 b5 b6
    simp only [filterLoop, hread, hdrop, nonDecorative_cons]
    cases hk : ((cellsOf mem0 source.array)[source.offset + i]).Value.kind <;>
      simp only [hk] <;> first | exact hA | simpa using hB

theorem wellFormed_append (record : CustomRecord) (mem fresh : Memory)
    (hwf : record.wellFormed mem) :
    record.wellFormed (mem ++ fresh) ∧
      sliceElements (mem ++ fresh) record.Elements = sliceElements mem record.Elements := by
  unfold CustomRecord.wellFormed at *
  by_cases ha : record.Elements.array < mem.length
  · rw [sliceElements, sliceElements, cellsOf_append_left mem fresh _ ha]
    exact ⟨hwf, rfl⟩
  · have hnone : mem[record.Elements.array]? = none := List.getElem?_eq_none (by omega)
    have hc : cellsOf mem record.Elements.array = [] := by simp [cellsOf, hnone]
    rw [hc] at hwf
    simp only [List.length_nil, Nat.le_zero_eq, Nat.add_eq_zero_iff] at hwf
    refine ⟨by omega, ?_⟩
    simp [sliceElements, hwf.2]

theorem filterLoop_result (grow : Nat → Nat → Nat) (record : CustomRecord) (mem : Memory)
    (hwf : record.wellFormed mem) :
    (∃ fresh, (filterLoop grow record.Elements record.Elements.len 0 (makeEmpty mem).1
        (makeEmpty mem).2).1 = mem ++ fresh) ∧
      sliceElements
          (filterLoop grow record.Elements record.Elements.len 0 (makeEmpty mem).1
            (makeEmpty mem).2).1
          (filterLoop grow record.Elements record.Elements.len 0 (makeEmpty mem).1
            (makeEmpty mem).2).2 =
        nonDecorative (sliceElements mem record.Elements) ∧
      (filterLoop grow record.Elements record.Elements.len 0 (makeEmpty mem).1
          (makeEmpty mem).2).2.len =
        (nonDecorative (sliceElements mem record.Elements)).length := by
  obtain ⟨h1, _, _, h4, h5, h6⟩ := filterLoop_inv grow mem record.Elements hwf
    record.Elements.len 0 (makeEmpty mem).1 (makeEmpty mem).2 [] (by omega)
    ⟨[⟨0, []⟩], rfl⟩ (Nat.le_refl _) (by simp [makeEmpty]) rfl
    (by simp [makeEmpty, cellsOf]) rfl
  simp only [List.drop_zero, List.nil_append] at h5 h6
  refine ⟨h1, ?_, h6⟩
  rw [sliceElements, h4, h5, h6]
  simp

theorem SubmitJSON_record_run (grow : Nat → Nat → Nat) (record : CustomRecord)
    (mem : Memory) (data : Option (List Nat)) (submitter : Submitter) (tx : Tx)
    (hwf : record.wellFormed mem) :
    (∃ fresh, (record.SubmitJSON grow mem data submitter tx).1 = mem ++ fresh) ∧
      (record.SubmitJSON grow mem data submitter tx).2.2 =
        (record.form mem).SubmitJSON data submitter tx := by
  have hsl := sliceElements_length mem record.Elements hwf
  obtain ⟨f1, f2, f3⟩ := filterLoop_result grow record mem hwf
  cases data with
  | none =>
    simp only [CustomRecord.SubmitJSON, Custom.SubmitJSON, CustomRecord.form]
    cases record.Close <;> exact ⟨⟨[], by simp⟩, rfl⟩
  | some bytes =>
    cases hdec : jsonDecode bytes with
    | error e =>
      simp only [CustomRecord.SubmitJSON, Custom.SubmitJSON, hdec]
      exact ⟨⟨[], by simp⟩, trivial⟩
    | ok inputData =>
      simp only [CustomRecord.SubmitJSON, Custom.SubmitJSON, hdec, submitDecoded_eq,
        matchElements_eq]
      simp only [CustomRecord.form, hsl]
      by_cases h1 : record.Elements.len = inputData.length
      · simp only [h1, ne_eq, not_true_eq_false, if_false, if_true]
        exact ⟨⟨[], by simp⟩, trivial⟩
      · simp only [h1, ne_eq, not_false_eq_true, if_true, if_false, f3]
        by_cases h2 : (nonDecorative (sliceElements mem record.Elements)).length =
            inputData.length
        · simp only [h2, not_true_eq_false, if_false, if_true, f2]
          exact ⟨f1, trivial⟩
        · simp only [h2, not_false_eq_true, if_true, if_false]
          exact ⟨f1, rfl⟩

theorem appendSlice_elements (grow : Nat → Nat → Nat) (mem : Memory) (s : Slice)
    (x : IdentifiedElement) (hwf : s.offset + s.len ≤ (cellsOf mem s.array).length)
    (hcap : s.len < s.cap → s.array < mem.length) :
    sliceElements (appendSlice grow mem s x).1 (appendSlice grow mem s x).2 =
      sliceElements mem s ++ [x] := by
  have hsl := sliceElements_length mem s hwf
  unfold appendSlice
  split
  · rename_i hlt
    have ha := hcap hlt
    have hsome : mem[s.array]? = some mem[s.array] := List.getElem?_eq_getElem ha
    have hc : cellsOf mem s.array = mem[s.array].cells := by simp [cellsOf, hsome]
    rw [hc] at hwf
    simp only [hsome, sliceElements, cellsOf, List.getElem?_set_self ha, BackingArray.write]
    have h1 : (mem[s.array].cells.take (s.offset + s.len)).length = s.offset + s.len := by
      rw [List.length_take]
      omega
    have h2 : (List.take s.len (List.drop s.offset mem[s.array].cells)).length = s.len := by
      rw [List.length_take, List.length_drop]
      omega
    have h3 : List.drop s.offset (List.take (s.offset + s.len) mem[s.array].cells) =
        List.take s.len (List.drop s.offset mem[s.array].cells) := by
      rw [List.drop_take, Nat.add_sub_cancel_left]
    rw [List.drop_append_of_le_length (by rw [h1]; omega), h3,
      List.take_append_eq_append_take, h2, List.take_of_length_le (by rw [h2]; omega)]
    simp
  · simp only [sliceElements, cellsOf, List.getElem?_append_right (Nat.le_refl _),
      Nat.sub_self, List.getElem?_cons_zero, List.drop_zero]
    rw [List.take_of_length_le]
    rw [List.length_append, List.length_singleton]
    have := hsl
    simp only [sliceElements, cellsOf] at this
    omega

/-! ## The claims -/

/-- C1. On a form without elements `MarshalJSON` returns no bytes (`nil`) and
the error `menu form requires at least one element`, whatever the title and
the callbacks. -/
theorem MarshalJSON_no_elements (form : Custom) (h : form.Elements = []) :
    form.MarshalJSON = (none, some (.new "menu form requires at least one element")) := by
  simp [Custom.MarshalJSON, h]

theorem MarshalJSON_no_elements_witness :
    formNoElements.Elements = [] ∧
      formNoElements.MarshalJSON =
        (none, some (.new "menu form requires at least one element")) :=
  ⟨rfl, MarshalJSON_no_elements formNoElements rfl⟩

/-- C2. On a form with `N ≥ 1` elements `MarshalJSON` returns no error and the
JSON object with exactly the members `content`, `title` and `type`: `type` is
`custom_form`, `title` is the title of the form, and `content` is the array of
the JSON forms of a list `content` of `N` elements whose entry `i` is
`Elements[i].Value()`. -/
theorem MarshalJSON_elements (form : Custom) (N : Nat) (hN : 1 ≤ N)
    (hlen : form.Elements.length = N) :
    ∃ content : List Element,
      form.MarshalJSON =
        (some (.object [
          ("content", .array (content.map (fun e => e.json))),
          ("title", .string form.Title),
          ("type", .string "custom_form")]), none) ∧
      content = loMap form.Elements (fun item _ => item.Value) ∧
      content.length = N ∧
      ∀ i, i < N → content[i]? = (form.Elements[i]?).map (fun item => item.Value) := by
  refine ⟨loMap form.Elements (fun item _ => item.Value), ?_, rfl, ?_, ?_⟩
  · have h0 : form.Elements.length ≠ 0 := by omega
    simp only [Custom.MarshalJSON, if_neg h0]
    rfl
  · rw [loMap_value, List.length_map, hlen]
  · intro i _
    rw [loMap_value, List.getElem?_map]

theorem MarshalJSON_elements_witness :
    ∃ content : List Element,
      formLabelToggleSlider.MarshalJSON =
        (some (.object [
          ("content", .array (content.map (fun e => e.json))),
          ("title", .string formLabelToggleSlider.Title),
          ("type", .string "custom_form")]), none) ∧
      content = loMap formLabelToggleSlider.Elements (fun item _ => item.Value) ∧
      content.length = 3 ∧
      ∀ i, i < 3 →
        content[i]? = (formLabelToggleSlider.Elements[i]?).map (fun item => item.Value) :=
  MarshalJSON_elements formLabelToggleSlider 3 (by decide) rfl

/-- C3. With an absent (`nil`) payload `SubmitJSON` returns `nil`, and all it
calls is the `Close` callback, once, when there is one: no `Submit`, no
`submit` of an element, whatever the elements of the form. -/
theorem SubmitJSON_nil_payload (form : Custom) (submitter : Submitter) (tx : Tx) :
    (form.SubmitJSON none submitter tx).status = .returned none ∧
      (form.SubmitJSON none submitter tx).trace =
        (match form.Close with
          | some close => [Event.close close submitter tx]
          | none => []) := by
  unfold Custom.SubmitJSON
  cases form.Close <;> exact ⟨rfl, rfl⟩

/-- C4. When the decoded response has as many values as the form has
non-decorative elements (those that are no `Divider`, `Header` or `Label`),
the `submit` of each non-decorative element accepts the value at its position
and the keys of these elements are distinct, `SubmitJSON` returns `nil`; it
calls `submit` on each non-decorative element with the value at its position,
in order, and then the `Submit` callback, if there is one, with a map that
holds under the key of the `i`-th non-decorative element the `i`-th response
value and holds no other key. -/
theorem SubmitJSON_accepted (form : Custom) (data : List Nat) (inputData : List JSONValue)
    (submitter : Submitter) (tx : Tx)
    (hdec : jsonDecode data = .ok inputData)
    (hlen : inputData.length = (nonDecorative form.Elements).length)
    (hacc : ∀ (i : Nat) (e : IdentifiedElement) (v : JSONValue),
      (nonDecorative form.Elements)[i]? = some e → inputData[i]? = some v →
      e.Value.submit v = none)
    (hkeys : ((nonDecorative form.Elements).map (fun e => e.Key)).Nodup) :
    ∃ dataMap : DataMap,
      (form.SubmitJSON (some data) submitter tx).status = .returned none ∧
      (form.SubmitJSON (some data) submitter tx).trace =
        parseEvents (nonDecorative form.Elements) inputData 0 ++
          (match form.Submit with
            | some submit => [Event.submit submit submitter tx dataMap]
            | none => []) ∧
      (∀ (i : Nat) (e : IdentifiedElement) (v : JSONValue),
        (nonDecorative form.Elements)[i]? = some e → inputData[i]? = some v →
        mapGet dataMap e.Key = some v) ∧
      (∀ k, (mapGet dataMap k).isSome → ∃ e ∈ nonDecorative form.Elements, e.Key = k) := by
  refine ⟨recordAll (nonDecorative form.Elements) inputData [], ?_, ?_, ?_, ?_⟩
  · simp only [Custom.SubmitJSON, hdec, submitDecoded,
      matchElements_of_nonDecorative form inputData hlen]
    rw [parseLoop_ok inputData _ 0 [] (by omega) (by simpa using hacc)]
    cases form.Submit <;> rfl
  · simp only [Custom.SubmitJSON, hdec, submitDecoded,
      matchElements_of_nonDecorative form inputData hlen]
    rw [parseLoop_ok inputData _ 0 [] (by omega) (by simpa using hacc)]
    cases form.Submit <;> simp
  · intro i e v he hv
    exact mapGet_recordAll_last _ _ _ i e v he hv
      (fun j e' hij he' => key_ne_of_nodup _ hkeys i j e e' hij he he')
  · intro k hk
    rcases mapGet_recordAll_isSome _ _ _ k hk with h | h
    · simp [mapGet] at h
    · exact h

theorem SubmitJSON_accepted_witness :
    (∃ dataMap : DataMap,
      (formLabelToggleSlider.SubmitJSON (some (bytesOf "[true, 3]")) somebody someTx).status
        = .returned none ∧
      (formLabelToggleSlider.SubmitJSON (some (bytesOf "[true, 3]")) somebody someTx).trace =
        parseEvents (nonDecorative formLabelToggleSlider.Elements)
          [.bool true, .number "3"] 0 ++
          (match formLabelToggleSlider.Submit with
            | some submit => [Event.submit submit somebody someTx dataMap]
            | none => []) ∧
      (∀ (i : Nat) (e : IdentifiedElement) (v : JSONValue),
        (nonDecorative formLabelToggleSlider.Elements)[i]? = some e →
        [JSONValue.bool true, JSONValue.number "3"][i]? = some v →
        mapGet dataMap e.Key = some v) ∧
      (∀ k, (mapGet dataMap k).isSome →
        ∃ e ∈ nonDecorative formLabelToggleSlider.Elements, e.Key = k)) ∧
    (formLabelToggleSlider.SubmitJSON (some (bytesOf "[true, 3]")) somebody someTx).trace =
      [.parse 0 keyA (.bool true), .parse 1 keyB (.number "3"),
        .submit ⟨1⟩ somebody someTx [(keyA, .bool true), (keyB, .number "3")]] ∧
    (formToggleSlider.SubmitJSON (some (bytesOf "[true, 3]")) somebody someTx).trace =
      [.parse 0 keyA (.bool true), .parse 1 keyB (.number "3"),
        .submit ⟨1⟩ somebody someTx [(keyA, .bool true), (keyB, .number "3")]] :=
  ⟨SubmitJSON_accepted formLabelToggleSlider (bytesOf "[true, 3]")
      [.bool true, .number "3"] somebody someTx rfl rfl
      (by
        intro i e v he hv
        have hnd : nonDecorative formLabelToggleSlider.Elements =
            [⟨keyA, exampleToggle⟩, ⟨keyB, exampleSlider⟩] := rfl
        rw [hnd] at he
        match i, he, hv with
        | 0, he, hv => simp at he hv; subst he hv; rfl
        | 1, he, hv => simp at he hv; subst he hv; rfl
        | n + 2, he, _ => simp at he)
      (by decide),
    rfl, rfl⟩

/-- C5. `SubmitJSON` is all or nothing. If it returns an error, its trace holds
no call of `Submit` or `Close`. If its trace holds a call of `Submit`, that
call is the only one, `SubmitJSON` returns `nil`, the payload was decoded and
matched with a list of elements (the elements of the form or the
non-decorative ones), the `submit` of every element of that list accepted the
value at its position, and the map given to `Submit` has an entry for the key
of every element of that list. -/
theorem SubmitJSON_all_or_nothing (form : Custom) (data : Option (List Nat))
    (submitter : Submitter) (tx : Tx) :
    (∀ err : GoError, (form.SubmitJSON data submitter tx).status = .returned (some err) →
      ∀ ev ∈ (form.SubmitJSON data submitter tx).trace, ev.isCallback = false) ∧
    (∀ (cb : Callback) (s : Submitter) (t : Tx) (values : DataMap),
      Event.submit cb s t values ∈ (form.SubmitJSON data submitter tx).trace →
      (form.SubmitJSON data submitter tx).status = .returned none ∧
      ((form.SubmitJSON data submitter tx).trace.filter Event.isSubmit).length = 1 ∧
      ∃ (bytes : List Nat) (inputData : List JSONValue) (elements : List IdentifiedElement),
        data = some bytes ∧ jsonDecode bytes = .ok inputData ∧
        matchElements form inputData = some elements ∧
        (elements = form.Elements ∨ elements = nonDecorative form.Elements) ∧
        (∀ (i : Nat) (e : IdentifiedElement), elements[i]? = some e →
          ∃ v, inputData[i]? = some v ∧ e.Value.submit v = none) ∧
        (∀ e ∈ elements, (mapGet values e.Key).isSome)) := by
  cases data with
  | none =>
    constructor
    · intro err herr
      simp only [Custom.SubmitJSON] at herr
      cases hc : form.Close <;> simp [hc] at herr
    · intro cb s t values hmem
      simp only [Custom.SubmitJSON] at hmem
      cases hc : form.Close <;> simp [hc] at hmem
  | some bytes =>
    cases hdec : jsonDecode bytes with
    | error e =>
      rw [SubmitJSON_undecoded form bytes e submitter tx hdec]
      exact ⟨fun _ _ ev hev => by simp at hev, fun _ _ _ _ hmem => by simp at hmem⟩
    | ok inputData =>
      rw [SubmitJSON_decoded form bytes inputData submitter tx hdec]
      cases hm : matchElements form inputData with
      | none =>
        rw [submitDecoded_unmatched form inputData submitter tx hm]
        exact ⟨fun _ _ ev hev => by simp at hev, fun _ _ _ _ hmem => by simp at hmem⟩
      | some elements =>
        cases hl : (parseLoop inputData elements 0 []).2 with
        | error st =>
          rw [submitDecoded_failed form inputData submitter tx elements st hm hl]
          constructor
          · intro _ _ ev hev
            exact parseLoop_trace inputData elements 0 [] ev hev
          · intro cb s t values hmem
            have := parseLoop_trace inputData elements 0 [] _ hmem
            simp [Event.isCallback] at this
        | ok dataMap =>
          rw [submitDecoded_finished form inputData submitter tx elements dataMap hm hl]
          obtain ⟨hlen, hacc, _, hmap⟩ := parseLoop_result inputData elements dataMap hl
          constructor
          · intro err herr
            simp at herr
          · intro cb s t values hmem
            simp only [List.mem_append] at hmem
            rcases hmem with hmem | hmem
            · have := parseLoop_trace inputData elements 0 [] _ hmem
              simp [Event.isCallback] at this
            · cases hs : form.Submit with
              | none => simp [hs] at hmem
              | some submit =>
                simp only [hs, List.mem_singleton, Event.submit.injEq] at hmem
                obtain ⟨_, _, _, hv⟩ := hmem
                subst hv
                refine ⟨rfl, ?_, bytes, inputData, elements, rfl, hdec, hm,
                  matchElements_cases form inputData elements hm, ?_, ?_⟩
                · have hnone : (parseLoop inputData elements 0 []).1.filter Event.isSubmit
                      = [] := by
                    rw [List.filter_eq_nil_iff]
                    intro ev hev
                    rw [isSubmit_of_not_callback ev
                      (parseLoop_trace inputData elements 0 [] ev hev)]
                    simp
                  simp [List.filter_append, hnone, Event.isSubmit]
                · intro i e he
                  have hi : i < inputData.length := by
                    have := (List.getElem?_eq_some.mp he).1
                    omega
                  exact ⟨inputData[i], List.getElem?_eq_getElem hi,
                    hacc i e _ he (List.getElem?_eq_getElem hi)⟩
                · rw [hmap]
                  exact mapGet_recordAll_mem elements inputData [] hlen

theorem SubmitJSON_all_or_nothing_witness :
    ((formToggleSlider.SubmitJSON (some (bytesOf "[true, true]")) somebody someTx).status =
        .returned (some (.wrapf "error parsing form response value: "
          (.new "value is not a number"))) ∧
      ∀ ev ∈ (formToggleSlider.SubmitJSON (some (bytesOf "[true, true]")) somebody
        someTx).trace, ev.isCallback = false) ∧
    (Event.submit ⟨1⟩ somebody someTx [(keyA, .bool true), (keyB, .number "3")] ∈
        (formToggleSlider.SubmitJSON (some (bytesOf "[true, 3]")) somebody someTx).trace ∧
      (formToggleSlider.SubmitJSON (some (bytesOf "[true, 3]")) somebody someTx).status =
        .returned none ∧
      ((formToggleSlider.SubmitJSON (some (bytesOf "[true, 3]")) somebody
        someTx).trace.filter Event.isSubmit).length = 1 ∧
      ∃ (bytes : List Nat) (inputData : List JSONValue) (elements : List IdentifiedElement),
        some (bytesOf "[true, 3]") = some bytes ∧ jsonDecode bytes = .ok inputData ∧
        matchElements formToggleSlider inputData = some elements ∧
        (elements = formToggleSlider.Elements ∨
          elements = nonDecorative formToggleSlider.Elements) ∧
        (∀ (i : Nat) (e : IdentifiedElement), elements[i]? = some e →
          ∃ v, inputData[i]? = some v ∧ e.Value.submit v = none) ∧
        (∀ e ∈ elements,
          (mapGet [(keyA, .bool true), (keyB, .number "3")] e.Key).isSome)) :=
  have hmem : Event.submit ⟨1⟩ somebody someTx [(keyA, .bool true), (keyB, .number "3")] ∈
      (formToggleSlider.SubmitJSON (some (bytesOf "[true, 3]")) somebody someTx).trace := by
    rw [show (formToggleSlider.SubmitJSON (some (bytesOf "[true, 3]")) somebody someTx).trace
      = [.parse 0 keyA (.bool true), .parse 1 keyB (.number "3"),
        .submit ⟨1⟩ somebody someTx [(keyA, .bool true), (keyB, .number "3")]] from rfl]
    simp
  ⟨⟨rfl, (SubmitJSON_all_or_nothing formToggleSlider (some (bytesOf "[true, true]"))
      somebody someTx).1 _ rfl⟩,
    hmem, (SubmitJSON_all_or_nothing formToggleSlider (some (bytesOf "[true, 3]"))
      somebody someTx).2 _ _ _ _ hmem⟩

/-- C6. For a decoded response whose length is neither the number of elements
of the form nor the number of its non-decorative elements, `SubmitJSON` returns
the error `form JSON data array does not have enough values` and calls nothing
(no `submit` of an element, no callback); when the length is one of these two
numbers, `SubmitJSON` does not end with that error. -/
theorem SubmitJSON_count (form : Custom) (data : List Nat) (inputData : List JSONValue)
    (submitter : Submitter) (tx : Tx) (hdec : jsonDecode data = .ok inputData) :
    (inputData.length ≠ form.Elements.length →
      inputData.length ≠ (nonDecorative form.Elements).length →
      (form.SubmitJSON (some data) submitter tx).status = .returned (some countMismatch) ∧
      (form.SubmitJSON (some data) submitter tx).trace = []) ∧
    (inputData.length = form.Elements.length ∨
        inputData.length = (nonDecorative form.Elements).length →
      (form.SubmitJSON (some data) submitter tx).status ≠ .returned (some countMismatch)) := by
  rw [SubmitJSON_decoded form data inputData submitter tx hdec]
  constructor
  · intro h1 h2
    have hm : matchElements form inputData = none := by
      rw [matchElements_eq, if_neg (Ne.symm h1), if_neg (Ne.symm h2)]
    rw [submitDecoded_unmatched form inputData submitter tx hm]
    exact ⟨rfl, rfl⟩
  · intro h
    have hm : ∃ elements, matchElements form inputData = some elements := by
      rw [matchElements_eq]
      rcases h with h | h
      · exact ⟨_, if_pos h.symm⟩
      · by_cases h1 : form.Elements.length = inputData.length
        · exact ⟨_, if_pos h1⟩
        · exact ⟨_, by rw [if_neg h1, if_pos h.symm]⟩
    obtain ⟨elements, hm⟩ := hm
    cases hl : (parseLoop inputData elements 0 []).2 with
    | error st =>
      rw [submitDecoded_failed form inputData submitter tx elements st hm hl]
      rcases parseLoop_inv_error inputData elements 0 [] st hl with ⟨h1, _⟩ | ⟨err, h1⟩
      · subst h1
        simp
      · subst h1
        simp [countMismatch]
    | ok dataMap =>
      rw [submitDecoded_finished form inputData submitter tx elements dataMap hm hl]
      simp

theorem SubmitJSON_count_witness :
    (jsonDecode (bytesOf "[true]") = .ok [.bool true] ∧
      [JSONValue.bool true].length ≠ formToggleSlider.Elements.length ∧
      [JSONValue.bool true].length ≠ (nonDecorative formToggleSlider.Elements).length ∧
      (formToggleSlider.SubmitJSON (some (bytesOf "[true]")) somebody someTx).status =
        .returned (some countMismatch) ∧
      (formToggleSlider.SubmitJSON (some (bytesOf "[true]")) somebody someTx).trace = []) ∧
    (jsonDecode (bytesOf "[3, true]") = .ok [.number "3", .bool true] ∧
      [JSONValue.number "3", JSONValue.bool true].length = formToggleSlider.Elements.length ∧
      (formToggleSlider.SubmitJSON (some (bytesOf "[3, true]")) somebody someTx).status ≠
        .returned (some countMismatch)) :=
  ⟨⟨rfl, by decide, by decide,
      (SubmitJSON_count formToggleSlider (bytesOf "[true]") [.bool true] somebody someTx
        rfl).1 (by decide) (by decide)⟩,
    rfl, rfl,
    (SubmitJSON_count formToggleSlider (bytesOf "[3, true]") [.number "3", .bool true]
      somebody someTx rfl).2 (Or.inl rfl)⟩

/-- C7. When the decoded response is matched with a list of elements and the
element at position `j` of that list is the first whose `submit` rejects the
value at its position, with error `err`, then `SubmitJSON` returns an error
that wraps `err` (`Unwrap` gives `err` back); the calls it made are the
`submit` of the elements at positions `0` to `j`, in order, and nothing else:
no `submit` at a position above `j` and no callback, so the values accepted
before `j` reach nobody. -/
theorem SubmitJSON_rejected (form : Custom) (data : List Nat) (inputData : List JSONValue)
    (elements : List IdentifiedElement) (j : Nat) (e : IdentifiedElement) (v : JSONValue)
    (err : GoError) (submitter : Submitter) (tx : Tx)
    (hdec : jsonDecode data = .ok inputData)
    (hm : matchElements form inputData = some elements)
    (he : elements[j]? = some e) (hv : inputData[j]? = some v)
    (herr : e.Value.submit v = some err)
    (hfirst : ∀ (i : Nat) (e' : IdentifiedElement) (v' : JSONValue), i < j →
      elements[i]? = some e' → inputData[i]? = some v' → e'.Value.submit v' = none) :
    ∃ returned : GoError,
      (form.SubmitJSON (some data) submitter tx).status = .returned (some returned) ∧
      returned = .wrapf "error parsing form response value: " err ∧
      returned.Unwrap = some err ∧
      (form.SubmitJSON (some data) submitter tx).trace =
        parseEvents (elements.take (j + 1)) inputData 0 ∧
      (∀ ev ∈ (form.SubmitJSON (some data) submitter tx).trace, ev.isCallback = false) ∧
      (∀ (i : Nat) (k : UUID) (w : JSONValue),
        Event.parse i k w ∈ (form.SubmitJSON (some data) submitter tx).trace → i ≤ j) := by
  have hloop := parseLoop_fail inputData elements 0 [] j e v err he (by simpa using hv) herr
    (fun k e' v' hk he' hv' => hfirst k e' v' hk he' (by simpa using hv'))
  have hrun : form.SubmitJSON (some data) submitter tx =
      ⟨parseEvents (elements.take (j + 1)) inputData 0,
        .returned (some (.wrapf "error parsing form response value: " err))⟩ := by
    rw [SubmitJSON_decoded form data inputData submitter tx hdec,
      submitDecoded_failed form inputData submitter tx elements _ hm (by rw [hloop]), hloop]
    simp
  refine ⟨.wrapf "error parsing form response value: " err, by rw [hrun], rfl, rfl,
    by rw [hrun], ?_, ?_⟩
  · intro ev hev
    rw [hrun] at hev
    obtain ⟨i, e', v', h1, _, _⟩ := mem_parseEvents _ _ _ ev hev
    subst h1
    rfl
  · intro i k w hev
    rw [hrun] at hev
    obtain ⟨i', e', v', h1, h2, _⟩ := mem_parseEvents _ _ _ _ hev
    simp only [Event.parse.injEq] at h1
    have := (List.getElem?_eq_some.mp h2).1
    simp only [List.length_take] at this
    omega

theorem SubmitJSON_rejected_witness :
    ∃ returned : GoError,
      (formToggleSlider.SubmitJSON (some (bytesOf "[true, true]")) somebody someTx).status =
        .returned (some returned) ∧
      returned =
        .wrapf "error parsing form response value: " (.new "value is not a number") ∧
      returned.Unwrap = some (.new "value is not a number") ∧
      (formToggleSlider.SubmitJSON (some (bytesOf "[true, true]")) somebody someTx).trace =
        parseEvents (formToggleSlider.Elements.take (1 + 1))
          [.bool true, .bool true] 0 ∧
      (∀ ev ∈ (formToggleSlider.SubmitJSON (some (bytesOf "[true, true]")) somebody
        someTx).trace, ev.isCallback = false) ∧
      (∀ (i : Nat) (k : UUID) (w : JSONValue),
        Event.parse i k w ∈ (formToggleSlider.SubmitJSON (some (bytesOf "[true, true]"))
          somebody someTx).trace → i ≤ 1) :=
  SubmitJSON_rejected formToggleSlider (bytesOf "[true, true]") [.bool true, .bool true]
    formToggleSlider.Elements 1 ⟨keyB, exampleSlider⟩ (.bool true)
    (.new "value is not a number") somebody someTx rfl rfl rfl rfl rfl
    (by
      intro i e' v' hi he' hv'
      match i, hi, he', hv' with
      | 0, _, he', hv' =>
        simp [formToggleSlider] at he' hv'
        subst he' hv'
        rfl)

/-- C8, as amended. Whenever the decoder fails on a present payload, with
error `err`, `SubmitJSON` returns an error that wraps `err` and calls nothing:
no `submit` of an element and no callback. The decoder fails on every payload
that is empty or blank or whose first non-blank byte is neither `[` nor `n`,
so on every object, string, number and boolean. -/
theorem SubmitJSON_decode_failure (form : Custom) (data : List Nat) (submitter : Submitter)
    (tx : Tx) :
    (∀ err : GoError, jsonDecode data = .error err →
      ∃ returned : GoError,
        (form.SubmitJSON (some data) submitter tx).status = .returned (some returned) ∧
        returned = .wrapf "error decoding JSON data to slice: " err ∧
        returned.Unwrap = some err ∧
        (form.SubmitJSON (some data) submitter tx).trace = []) ∧
    ((∀ (c : Nat) (rest : List Nat), skipSpace data = c :: rest → c ≠ 91 ∧ c ≠ 110) →
      ∃ err : GoError, jsonDecode data = .error err) := by
  constructor
  · intro err herr
    rw [SubmitJSON_undecoded form data err submitter tx herr]
    exact ⟨_, rfl, rfl, rfl, rfl⟩
  · intro h
    cases hs : skipSpace data with
    | nil => exact ⟨.ioEOF, by simp [jsonDecode, hs]⟩
    | cons c rest => exact jsonDecode_first_byte data rest c hs (h c rest hs).1 (h c rest hs).2

theorem SubmitJSON_decode_failure_witness :
    (∃ returned : GoError,
      (formToggleSlider.SubmitJSON (some (bytesOf "")) somebody someTx).status =
        .returned (some returned) ∧
      returned = .wrapf "error decoding JSON data to slice: " .ioEOF ∧
      returned.Unwrap = some .ioEOF ∧
      (formToggleSlider.SubmitJSON (some (bytesOf "")) somebody someTx).trace = []) ∧
    (∃ returned : GoError,
      (formToggleSlider.SubmitJSON (some (bytesOf "\x7b\"a\": true\x7d")) somebody someTx).status =
        .returned (some returned) ∧
      returned = .wrapf "error decoding JSON data to slice: " (.jsonUnmarshalType "object") ∧
      returned.Unwrap = some (.jsonUnmarshalType "object") ∧
      (formToggleSlider.SubmitJSON (some (bytesOf "\x7b\"a\": true\x7d")) somebody someTx).trace
        = []) ∧
    (∃ returned : GoError,
      (formToggleSlider.SubmitJSON (some (bytesOf "[true, 3")) somebody someTx).status =
        .returned (some returned) ∧
      returned = .wrapf "error decoding JSON data to slice: " .ioUnexpectedEOF ∧
      returned.Unwrap = some .ioUnexpectedEOF ∧
      (formToggleSlider.SubmitJSON (some (bytesOf "[true, 3")) somebody someTx).trace = []) ∧
    (∃ err : GoError, jsonDecode (bytesOf " \"text\"") = .error err) ∧
    (∃ err : GoError, jsonDecode (bytesOf "true") = .error err) :=
  ⟨(SubmitJSON_decode_failure formToggleSlider (bytesOf "") somebody someTx).1 _ rfl,
    (SubmitJSON_decode_failure formToggleSlider (bytesOf "\x7b\"a\": true\x7d") somebody
      someTx).1 _ rfl,
    (SubmitJSON_decode_failure formToggleSlider (bytesOf "[true, 3") somebody someTx).1 _ rfl,
    (SubmitJSON_decode_failure formToggleSlider (bytesOf " \"text\"") somebody someTx).2
      (by
        intro c rest h
        have h' : skipSpace (bytesOf " \"text\"") = 34 :: bytesOf "text\"" := rfl
        rw [h'] at h
        cases h
        decide),
    (SubmitJSON_decode_failure formToggleSlider (bytesOf "true") somebody someTx).2
      (by
        intro c rest h
        have h' : skipSpace (bytesOf "true") = 116 :: bytesOf "rue" := rfl
        rw [h'] at h
        cases h
        decide)⟩

/-- C8, counterexample. The payload `null` is well-formed JSON and no array,
yet on a form with a label only `SubmitJSON` returns `nil` and calls `Submit`
(with an empty map), and on the form `[Toggle(A), Slider(B)]` the error it
returns wraps nothing. The payload `[true, 3]]` is not well-formed JSON, yet
`SubmitJSON` returns `nil` on it after calling `submit` on both elements and
`Submit`. -/
theorem SubmitJSON_decode_failure_counterexample :
    (formLabelOnly.SubmitJSON (some (bytesOf "null")) somebody someTx).status =
        .returned none ∧
      (formLabelOnly.SubmitJSON (some (bytesOf "null")) somebody someTx).trace =
        [.submit ⟨1⟩ somebody someTx []] ∧
      (formToggleSlider.SubmitJSON (some (bytesOf "null")) somebody someTx).status =
        .returned (some countMismatch) ∧
      countMismatch.Unwrap = none ∧
      (formToggleSlider.SubmitJSON (some (bytesOf "[true, 3]]")) somebody someTx).status =
        .returned none ∧
      (formToggleSlider.SubmitJSON (some (bytesOf "[true, 3]]")) somebody someTx).trace =
        [.parse 0 keyA (.bool true), .parse 1 keyB (.number "3"),
          .submit ⟨1⟩ somebody someTx [(keyA, .bool true), (keyB, .number "3")]] :=
  ⟨rfl, rfl, rfl, rfl, rfl, rfl⟩

/-- C9, as amended. The payload `null` is no close: it is decoded as an empty
response, and `SubmitJSON` never calls `Close` on it. On a form without
non-decorative elements `SubmitJSON` returns `nil` and calls `Submit`, if
there is one, with an empty map; on any other form it returns the error
`form JSON data array does not have enough values` and calls nothing. -/
theorem SubmitJSON_null_payload (form : Custom) (submitter : Submitter) (tx : Tx) :
    (∀ ev ∈ (form.SubmitJSON (some (bytesOf "null")) submitter tx).trace,
      ev.isClose = false) ∧
    (nonDecorative form.Elements = [] →
      (form.SubmitJSON (some (bytesOf "null")) submitter tx).status = .returned none ∧
      (form.SubmitJSON (some (bytesOf "null")) submitter tx).trace =
        (match form.Submit with
          | some submit => [Event.submit submit submitter tx []]
          | none => [])) ∧
    (nonDecorative form.Elements ≠ [] →
      (form.SubmitJSON (some (bytesOf "null")) submitter tx).status =
        .returned (some countMismatch) ∧
      (form.SubmitJSON (some (bytesOf "null")) submitter tx).trace = []) := by
  rw [SubmitJSON_decoded form (bytesOf "null") [] submitter tx jsonDecode_null]
  by_cases hnd : nonDecorative form.Elements = []
  · have hm : matchElements form [] = some [] := by
      have := matchElements_of_nonDecorative form [] (by simp [hnd])
      rw [this, hnd]
    have hrun := submitDecoded_finished form [] submitter tx [] [] hm rfl
    rw [hrun]
    refine ⟨?_, fun _ => ⟨rfl, by simp [parseLoop]⟩, fun h => absurd hnd h⟩
    intro ev hev
    cases hs : form.Submit with
    | none => simp [hs, parseLoop] at hev
    | some submit =>
      simp [hs, parseLoop] at hev
      subst hev
      rfl
  · have hm : matchElements form [] = none := by
      rw [matchElements_eq]
      have h1 : ¬ form.Elements.length = ([] : List JSONValue).length := by
        intro h
        apply hnd
        have : form.Elements = [] := List.length_eq_zero.mp (by simpa using h)
        simp [this, nonDecorative]
      have h2 : ¬ (nonDecorative form.Elements).length = ([] : List JSONValue).length := by
        intro h
        exact hnd (List.length_eq_zero.mp (by simpa using h))
      rw [if_neg h1, if_neg h2]
    rw [submitDecoded_unmatched form [] submitter tx hm]
    exact ⟨fun ev hev => by simp at hev, fun h => absurd h hnd, fun _ => ⟨rfl, rfl⟩⟩

theorem SubmitJSON_null_payload_witness :
    (nonDecorative formLabelOnly.Elements = [] ∧
      (formLabelOnly.SubmitJSON (some (bytesOf "null")) somebody someTx).status =
        .returned none ∧
      (formLabelOnly.SubmitJSON (some (bytesOf "null")) somebody someTx).trace =
        (match formLabelOnly.Submit with
          | some submit => [Event.submit submit somebody someTx []]
          | none => [])) ∧
    (nonDecorative formLabelToggleSlider.Elements ≠ [] ∧
      (formLabelToggleSlider.SubmitJSON (some (bytesOf "null")) somebody someTx).status =
        .returned (some countMismatch) ∧
      (formLabelToggleSlider.SubmitJSON (some (bytesOf "null")) somebody someTx).trace
        = []) :=
  ⟨⟨rfl, (SubmitJSON_null_payload formLabelOnly somebody someTx).2.1 rfl⟩,
    ⟨by
      rw [show nonDecorative formLabelToggleSlider.Elements =
        [⟨keyA, exampleToggle⟩, ⟨keyB, exampleSlider⟩] from rfl]
      exact List.cons_ne_nil _ _,
    (SubmitJSON_null_payload formLabelToggleSlider somebody someTx).2.2 (by
      rw [show nonDecorative formLabelToggleSlider.Elements =
        [⟨keyA, exampleToggle⟩, ⟨keyB, exampleSlider⟩] from rfl]
      exact List.cons_ne_nil _ _)⟩⟩

/-- C9, counterexample. On the form `[Toggle(A), Slider(B)]`, which has a
`Close` callback, the payload `null` makes `SubmitJSON` return an error, and
`Close` is not called. -/
theorem SubmitJSON_null_payload_counterexample :
    formToggleSlider.Close = some ⟨2⟩ ∧
      (formToggleSlider.SubmitJSON (some (bytesOf "null")) somebody someTx).status =
        .returned (some (.new "form JSON data array does not have enough values")) ∧
      (formToggleSlider.SubmitJSON (some (bytesOf "null")) somebody someTx).trace = [] :=
  ⟨rfl, rfl, rfl⟩

/-- C10, as amended. When `SubmitJSON` calls `Submit`, the map it passes holds,
under the key of each element of the matched list that no later element of the
list shares its key with, the raw decoded response value at the position of
that element, which the `submit` of the element accepted. The method `submit`
returns an error only, so there is no parsed value to record. -/
theorem SubmitJSON_records_raw (form : Custom) (data : List Nat)
    (inputData : List JSONValue) (elements : List IdentifiedElement)
    (submitter : Submitter) (tx : Tx) (cb : Callback) (s : Submitter) (t : Tx)
    (values : DataMap)
    (hdec : jsonDecode data = .ok inputData)
    (hm : matchElements form inputData = some elements)
    (hmem : Event.submit cb s t values ∈ (form.SubmitJSON (some data) submitter tx).trace) :
    ∀ (i : Nat) (e : IdentifiedElement), elements[i]? = some e →
      (∀ (j : Nat) (e' : IdentifiedElement), i < j → elements[j]? = some e' →
        e'.Key ≠ e.Key) →
      ∃ raw : JSONValue, inputData[i]? = some raw ∧ e.Value.submit raw = none ∧
        mapGet values e.Key = some raw := by
  rw [SubmitJSON_decoded form data inputData submitter tx hdec] at hmem
  cases hl : (parseLoop inputData elements 0 []).2 with
  | error st =>
    rw [submitDecoded_failed form inputData submitter tx elements st hm hl] at hmem
    have := parseLoop_trace inputData elements 0 [] _ hmem
    simp [Event.isCallback] at this
  | ok dataMap =>
    rw [submitDecoded_finished form inputData submitter tx elements dataMap hm hl] at hmem
    obtain ⟨hlen, hacc, _, hmap⟩ := parseLoop_result inputData elements dataMap hl
    simp only [List.mem_append] at hmem
    rcases hmem with hmem | hmem
    · have := parseLoop_trace inputData elements 0 [] _ hmem
      simp [Event.isCallback] at this
    · cases hs : form.Submit with
      | none => simp [hs] at hmem
      | some submit =>
        simp only [hs, List.mem_singleton, Event.submit.injEq] at hmem
        obtain ⟨_, _, _, hv⟩ := hmem
        subst hv hmap
        intro i e he hlast
        have hi : i < inputData.length := by
          have := (List.getElem?_eq_some.mp he).1
          omega
        exact ⟨inputData[i], List.getElem?_eq_getElem hi,
          hacc i e _ he (List.getElem?_eq_getElem hi),
          mapGet_recordAll_last elements inputData [] i e _ he
            (List.getElem?_eq_getElem hi) hlast⟩

theorem SubmitJSON_records_raw_witness :
    ∃ raw : JSONValue, [JSONValue.number "1"][0]? = some raw ∧
      exampleDropdown.identified.Value.submit raw = none ∧
      mapGet [(keyB, JSONValue.number "1")] exampleDropdown.identified.Key = some raw :=
  SubmitJSON_records_raw formDropdown (bytesOf "[1]") [.number "1"]
    [exampleDropdown.identified] somebody someTx ⟨1⟩ somebody someTx
    [(keyB, .number "1")] rfl rfl
    (by
      rw [show (formDropdown.SubmitJSON (some (bytesOf "[1]")) somebody someTx).trace =
        [.parse 0 keyB (.number "1"),
          .submit ⟨1⟩ somebody someTx [(keyB, .number "1")]] from rfl]
      simp)
    0 exampleDropdown.identified rfl
    (by
      intro j e' hj he'
      match j, hj, he' with
      | n + 1, _, he' => simp at he')

/-- C10, counterexample. The dropdown of the example parses the raw value `1`
to the option `green`, and the specification records `B → green`; on the
payload `[1]` `SubmitJSON` calls `Submit` with the map `B → 1`, the raw
decoded number, and not with the parsed value. -/
theorem SubmitJSON_records_raw_counterexample :
    exampleDropdown.parseResponse (.number "1") = .ok (.string "green") ∧
      recordParsed [exampleDropdown] [.number "1"] [] = some [(keyB, .string "green")] ∧
      (formDropdown.SubmitJSON (some (bytesOf "[1]")) somebody someTx).trace =
        [.parse 0 keyB (.number "1"),
          .submit ⟨1⟩ somebody someTx [(keyB, .number "1")]] ∧
      mapGet [(keyB, JSONValue.number "1")] keyB ≠ some (.string "green") :=
  ⟨rfl, rfl, rfl, by simp [mapGet]⟩

/-- C11. When the decoded response is matched with a list of elements and the
`submit` of every element of the list accepts the value at its position, then
`SubmitJSON` returns `nil` whether or not elements share a key, and the map it
passes to `Submit` holds, under the key of an element that no later element of
the list shares its key with, the value at the position of that element (the
last write wins). The keys of the map are exactly the keys of the elements of
the list, each once, so the map has at most as many entries as the list has
elements, and as many exactly when the keys of the elements are pairwise
distinct. -/
theorem SubmitJSON_last_write_wins (form : Custom) (data : List Nat)
    (inputData : List JSONValue) (elements : List IdentifiedElement)
    (submitter : Submitter) (tx : Tx)
    (hdec : jsonDecode data = .ok inputData)
    (hm : matchElements form inputData = some elements)
    (hacc : ∀ (i : Nat) (e : IdentifiedElement) (v : JSONValue),
      elements[i]? = some e → inputData[i]? = some v → e.Value.submit v = none) :
    ∃ values : DataMap,
      (form.SubmitJSON (some data) submitter tx).status = .returned none ∧
      (form.SubmitJSON (some data) submitter tx).trace =
        parseEvents elements inputData 0 ++
          (match form.Submit with
            | some submit => [Event.submit submit submitter tx values]
            | none => []) ∧
      (∀ (i : Nat) (e : IdentifiedElement) (v : JSONValue),
        elements[i]? = some e → inputData[i]? = some v →
        (∀ (j : Nat) (e' : IdentifiedElement), i < j → elements[j]? = some e' →
          e'.Key ≠ e.Key) →
        mapGet values e.Key = some v) ∧
      (∀ k : UUID, k ∈ mapKeys values ↔ ∃ e ∈ elements, e.Key = k) ∧
      (mapKeys values).Nodup ∧
      values.length ≤ elements.length ∧
      (values.length = elements.length ↔ (elements.map (fun e => e.Key)).Nodup) := by
  have hlen := matchElements_length form inputData elements hm
  have hloop := parseLoop_ok inputData elements 0 [] (by omega) (by simpa using hacc)
  simp only [List.drop_zero] at hloop
  have hrun : form.SubmitJSON (some data) submitter tx =
      ⟨parseEvents elements inputData 0 ++
          (match form.Submit with
            | some submit => [Event.submit submit submitter tx (recordAll elements inputData [])]
            | none => []),
        .returned none⟩ := by
    rw [SubmitJSON_decoded form data inputData submitter tx hdec,
      submitDecoded_finished form inputData submitter tx elements
        (recordAll elements inputData []) hm (by rw [hloop]), hloop]
  obtain ⟨hle, heq⟩ := length_recordAll elements inputData [] (by omega)
  refine ⟨recordAll elements inputData [], by rw [hrun], by rw [hrun], ?_, ?_,
    nodup_mapKeys_recordAll _ _ _ (by simp [mapKeys]), by simpa using hle, ?_⟩
  · intro i e v he hv hlast
    exact mapGet_recordAll_last elements inputData [] i e v he hv hlast
  · intro k
    rw [mem_mapKeys_iff]
    constructor
    · intro h
      rcases mapGet_recordAll_isSome elements inputData [] k h with h' | h'
      · simp [mapGet] at h'
      · exact h'
    · rintro ⟨e, he, hk⟩
      rw [← hk]
      exact mapGet_recordAll_mem elements inputData [] (by omega) e he
  · simp only [List.length_nil, Nat.zero_add] at heq
    rw [heq]
    simp [mapKeys]

theorem SubmitJSON_last_write_wins_witness :
    (∃ values : DataMap,
      (formSharedKey.SubmitJSON (some (bytesOf "[true, 3]")) somebody someTx).status =
        .returned none ∧
      (formSharedKey.SubmitJSON (some (bytesOf "[true, 3]")) somebody someTx).trace =
        parseEvents formSharedKey.Elements [.bool true, .number "3"] 0 ++
          (match formSharedKey.Submit with
            | some submit => [Event.submit submit somebody someTx values]
            | none => []) ∧
      (∀ (i : Nat) (e : IdentifiedElement) (v : JSONValue),
        formSharedKey.Elements[i]? = some e →
        [JSONValue.bool true, JSONValue.number "3"][i]? = some v →
        (∀ (j : Nat) (e' : IdentifiedElement), i < j →
          formSharedKey.Elements[j]? = some e' → e'.Key ≠ e.Key) →
        mapGet values e.Key = some v) ∧
      (∀ k : UUID, k ∈ mapKeys values ↔ ∃ e ∈ formSharedKey.Elements, e.Key = k) ∧
      (mapKeys values).Nodup ∧
      values.length ≤ formSharedKey.Elements.length ∧
      (values.length = formSharedKey.Elements.length ↔
        (formSharedKey.Elements.map (fun e => e.Key)).Nodup)) ∧
    (formSharedKey.SubmitJSON (some (bytesOf "[true, 3]")) somebody someTx).trace =
      [.parse 0 keyA (.bool true), .parse 1 keyA (.number "3"),
        .submit ⟨1⟩ somebody someTx [(keyA, .number "3")]] :=
  ⟨SubmitJSON_last_write_wins formSharedKey (bytesOf "[true, 3]")
      [.bool true, .number "3"] formSharedKey.Elements somebody someTx rfl rfl
      (by
        intro i e v he hv
        match i, he, hv with
        | 0, he, hv => simp [formSharedKey] at he hv; subst he hv; rfl
        | 1, he, hv => simp [formSharedKey] at he hv; subst he hv; rfl
        | n + 2, he, _ => simp [formSharedKey] at he),
    rfl⟩

/-- C12. The callbacks of a form have no part in what `SubmitJSON` returns and
in the calls of `submit` it makes. Two forms with the same title and elements
and any callbacks end the same way on the same payload and make the same calls
of `submit`, on the same values, in the same order; with no callback at all the
trace holds these calls only. What they return is fixed by the payload and the
elements: `nil` for an absent payload; `nil` for a payload that is decoded,
matched with a list of elements and accepted by the `submit` of each of them,
and without a `Submit` callback the run is then these calls of `submit` and
nothing else; the decoding error, wrapped, with no call at all for a payload
that is not decoded; the count error with no call at all for a response that
is not matched; and the wrapped error of the first element that rejects its
value, after the calls of `submit` up to that element and no other call. -/
theorem SubmitJSON_callbacks_irrelevant (title : String) (elements : List IdentifiedElement)
    (submit close submit' close' : Option Callback) (data : Option (List Nat))
    (submitter : Submitter) (tx : Tx) :
    ((Custom.SubmitJSON ⟨title, elements, submit, close⟩ data submitter tx).status =
        (Custom.SubmitJSON ⟨title, elements, submit', close'⟩ data submitter tx).status ∧
      (Custom.SubmitJSON ⟨title, elements, submit, close⟩ data submitter tx).trace.filter
          (fun ev => !ev.isCallback) =
        (Custom.SubmitJSON ⟨title, elements, submit', close'⟩ data submitter tx).trace.filter
          (fun ev => !ev.isCallback) ∧
      (Custom.SubmitJSON ⟨title, elements, none, none⟩ data submitter tx).trace =
        (Custom.SubmitJSON ⟨title, elements, submit, close⟩ data submitter tx).trace.filter
          (fun ev => !ev.isCallback)) ∧
    (data = none →
      (Custom.SubmitJSON ⟨title, elements, submit, close⟩ data submitter tx).status =
          .returned none ∧
        Custom.SubmitJSON ⟨title, elements, submit, none⟩ data submitter tx =
          ⟨[], .returned none⟩) ∧
    (∀ (bytes : List Nat) (inputData : List JSONValue) (matched : List IdentifiedElement),
      data = some bytes → jsonDecode bytes = .ok inputData →
      matchElements ⟨title, elements, submit, close⟩ inputData = some matched →
      (∀ (i : Nat) (e : IdentifiedElement) (v : JSONValue),
        matched[i]? = some e → inputData[i]? = some v → e.Value.submit v = none) →
      (Custom.SubmitJSON ⟨title, elements, submit, close⟩ data submitter tx).status =
          .returned none ∧
        Custom.SubmitJSON ⟨title, elements, none, close⟩ data submitter tx =
          ⟨parseEvents matched inputData 0, .returned none⟩) ∧
    (∀ (bytes : List Nat) (err : GoError),
      data = some bytes → jsonDecode bytes = .error err →
      Custom.SubmitJSON ⟨title, elements, submit, close⟩ data submitter tx =
        ⟨[], .returned (some (.wrapf "error decoding JSON data to slice: " err))⟩) ∧
    (∀ (bytes : List Nat) (inputData : List JSONValue),
      data = some bytes → jsonDecode bytes = .ok inputData →
      matchElements ⟨title, elements, submit, close⟩ inputData = none →
      Custom.SubmitJSON ⟨title, elements, submit, close⟩ data submitter tx =
        ⟨[], .returned (some countMismatch)⟩) ∧
    (∀ (bytes : List Nat) (inputData : List JSONValue) (matched : List IdentifiedElement)
      (j : Nat) (e : IdentifiedElement) (v : JSONValue) (err : GoError),
      data = some bytes → jsonDecode bytes = .ok inputData →
      matchElements ⟨title, elements, submit, close⟩ inputData = some matched →
      matched[j]? = some e → inputData[j]? = some v → e.Value.submit v = some err →
      (∀ (i : Nat) (e' : IdentifiedElement) (v' : JSONValue), i < j →
        matched[i]? = some e' → inputData[i]? = some v' → e'.Value.submit v' = none) →
      Custom.SubmitJSON ⟨title, elements, submit, close⟩ data submitter tx =
        ⟨parseEvents (matched.take (j + 1)) inputData 0,
          .returned (some (.wrapf "error parsing form response value: " err))⟩) := by
  have hmatch : ∀ (s c : Option Callback) (inputData : List JSONValue),
      matchElements ⟨title, elements, s, c⟩ inputData =
        matchElements ⟨title, elements, none, none⟩ inputData := fun _ _ _ => rfl
  refine ⟨?_, ?_, ?_, ?_, ?_, ?_⟩
  · cases data with
    | none =>
      cases submit <;> cases close <;> cases submit' <;> cases close' <;>
        simp [Custom.SubmitJSON, Event.isCallback]
    | some bytes =>
      cases hdec : jsonDecode bytes with
      | error e => simp [Custom.SubmitJSON, hdec]
      | ok inputData =>
        simp only [Custom.SubmitJSON, hdec]
        cases hm : matchElements ⟨title, elements, none, none⟩ inputData with
        | none =>
          simp [submitDecoded, hmatch, hm]
        | some matched =>
          have hparse : (parseLoop inputData matched 0 []).1.filter
              (fun ev => !ev.isCallback) = (parseLoop inputData matched 0 []).1 := by
            rw [List.filter_eq_self]
            intro ev hev
            simp [parseLoop_trace inputData matched 0 [] ev hev]
          cases hl : (parseLoop inputData matched 0 []).2 with
          | error st =>
            rw [submitDecoded_failed _ inputData submitter tx matched st
                ((hmatch submit close inputData).trans hm) hl,
              submitDecoded_failed _ inputData submitter tx matched st
                ((hmatch submit' close' inputData).trans hm) hl,
              submitDecoded_failed _ inputData submitter tx matched st hm hl]
            exact ⟨rfl, rfl, hparse.symm⟩
          | ok dataMap =>
            rw [submitDecoded_finished _ inputData submitter tx matched dataMap
                ((hmatch submit close inputData).trans hm) hl,
              submitDecoded_finished _ inputData submitter tx matched dataMap
                ((hmatch submit' close' inputData).trans hm) hl,
              submitDecoded_finished _ inputData submitter tx matched dataMap hm hl]
            have hs : ∀ (cb : Callback) (s : Submitter) (t : Tx) (m : DataMap),
                (Event.submit cb s t m).isCallback = true := fun _ _ _ _ => rfl
            cases submit <;> cases submit' <;>
              simp [List.filter_append, hparse, List.filter_cons, hs]
  · intro hd
    subst hd
    cases close <;> exact ⟨rfl, rfl⟩
  · intro bytes inputData matched hd hdec hm hacc
    subst hd
    have hlen : matched.length = inputData.length := matchElements_length _ _ _ hm
    have hloop := parseLoop_ok inputData matched 0 [] (by omega) (by simpa using hacc)
    have hl : (parseLoop inputData matched 0 []).2 =
        .ok (recordAll matched (inputData.drop 0) []) := by rw [hloop]
    rw [SubmitJSON_run_finished _ bytes inputData matched _ submitter tx hdec hm hl,
      SubmitJSON_run_finished _ bytes inputData matched _ submitter tx hdec
        ((hmatch none close inputData).trans (hmatch submit close inputData).symm ▸ hm) hl]
    exact ⟨rfl, by simp⟩
  · intro bytes err hd hdec
    subst hd
    exact SubmitJSON_undecoded _ bytes err submitter tx hdec
  · intro bytes inputData hd hdec hm
    subst hd
    rw [SubmitJSON_decoded _ bytes inputData submitter tx hdec,
      submitDecoded_unmatched _ inputData submitter tx hm]
  · intro bytes inputData matched j e v err hd hdec hm he hv herr hfirst
    subst hd
    exact SubmitJSON_run_rejected _ bytes inputData matched j e v err submitter tx hdec hm he
      hv herr hfirst

theorem SubmitJSON_callbacks_irrelevant_witness :
    (Custom.SubmitJSON ⟨"settings", formToggleSlider.Elements, none, none⟩
        (some (bytesOf "[true, 3]")) somebody someTx).status = .returned none ∧
      Custom.SubmitJSON ⟨"settings", formToggleSlider.Elements, none, none⟩
          (some (bytesOf "[true, 3]")) somebody someTx =
        ⟨parseEvents formToggleSlider.Elements [.bool true, .number "3"] 0, .returned none⟩ ∧
      parseEvents formToggleSlider.Elements [.bool true, .number "3"] 0 =
        [.parse 0 keyA (.bool true), .parse 1 keyB (.number "3")] ∧
      Custom.SubmitJSON ⟨"settings", formToggleSlider.Elements, none, none⟩
          (some (bytesOf "[true, true]")) somebody someTx =
        ⟨parseEvents (formToggleSlider.Elements.take (1 + 1)) [.bool true, .bool true] 0,
          .returned (some (.wrapf "error parsing form response value: "
            (.new "value is not a number")))⟩ ∧
      Custom.SubmitJSON ⟨"settings", formToggleSlider.Elements, none, none⟩
          (some (bytesOf "[true]")) somebody someTx =
        ⟨[], .returned (some countMismatch)⟩ ∧
      Custom.SubmitJSON ⟨"settings", formToggleSlider.Elements, none, none⟩
          (some (bytesOf "true")) somebody someTx =
        ⟨[], .returned (some (.wrapf "error decoding JSON data to slice: "
          (.jsonUnmarshalType "bool")))⟩ :=
  ⟨((SubmitJSON_callbacks_irrelevant "settings" formToggleSlider.Elements none none
        (some ⟨1⟩) (some ⟨2⟩) (some (bytesOf "[true, 3]")) somebody someTx).2.2.1
      (bytesOf "[true, 3]") [.bool true, .number "3"] formToggleSlider.Elements rfl rfl rfl
      (by
        intro i e v he hv
        match i, he, hv with
        | 0, he, hv => simp [formToggleSlider] at he hv; subst he hv; rfl
        | 1, he, hv => simp [formToggleSlider] at he hv; subst he hv; rfl
        | n + 2, he, _ => simp [formToggleSlider] at he)).1,
    ((SubmitJSON_callbacks_irrelevant "settings" formToggleSlider.Elements none none
        (some ⟨1⟩) (some ⟨2⟩) (some (bytesOf "[true, 3]")) somebody someTx).2.2.1
      (bytesOf "[true, 3]") [.bool true, .number "3"] formToggleSlider.Elements rfl rfl rfl
      (by
        intro i e v he hv
        match i, he, hv with
        | 0, he, hv => simp [formToggleSlider] at he hv; subst he hv; rfl
        | 1, he, hv => simp [formToggleSlider] at he hv; subst he hv; rfl
        | n + 2, he, _ => simp [formToggleSlider] at he)).2,
    rfl,
    (SubmitJSON_callbacks_irrelevant "settings" formToggleSlider.Elements none none
        (some ⟨1⟩) (some ⟨2⟩) (some (bytesOf "[true, true]")) somebody someTx).2.2.2.2.2
      (bytesOf "[true, true]") [.bool true, .bool true] formToggleSlider.Elements 1
      ⟨keyB, exampleSlider⟩ (.bool true) (.new "value is not a number") rfl rfl rfl rfl rfl rfl
      (by
        intro i e' v' hi he' hv'
        match i, hi, he', hv' with
        | 0, _, he', hv' =>
          simp [formToggleSlider] at he' hv'
          subst he' hv'
          rfl),
    (SubmitJSON_callbacks_irrelevant "settings" formToggleSlider.Elements none none
        (some ⟨1⟩) (some ⟨2⟩) (some (bytesOf "[true]")) somebody someTx).2.2.2.2.1
      (bytesOf "[true]") [.bool true] rfl rfl rfl,
    (SubmitJSON_callbacks_irrelevant "settings" formToggleSlider.Elements none none
        (some ⟨1⟩) (some ⟨2⟩) (some (bytesOf "true")) somebody someTx).2.2.2.1
      (bytesOf "true") (.jsonUnmarshalType "bool") rfl rfl⟩

/-- C13. The method `Element` appends: afterwards the elements of the form
are the earlier ones, unchanged and in their order, followed by the new element,
so there is one more; an element whose key is already in the form is appended
like any other; the title and the callbacks are as before. The same holds on a
record in memory with a well-formed slice, whether `append` writes into the
backing array of the slice or into a new one. -/
theorem Element_appends (form : Custom) (element : IdentifiedElement)
    (grow : Nat → Nat → Nat) (record : CustomRecord) (mem : Memory) :
    (form.Element element).Elements = form.Elements ++ [element] ∧
      (form.Element element).Elements.length = form.Elements.length + 1 ∧
      (∀ i : Nat, i < form.Elements.length →
        (form.Element element).Elements[i]? = form.Elements[i]?) ∧
      (form.Element element).Elements[form.Elements.length]? = some element ∧
      (form.Element element).Title = form.Title ∧
      (form.Element element).Submit = form.Submit ∧
      (form.Element element).Close = form.Close ∧
      (record.wellFormed mem →
        (record.Elements.len < record.Elements.cap → record.Elements.array < mem.length) →
        (record.Element grow mem element).2.form (record.Element grow mem element).1 =
          (record.form mem).Element element) := by
  refine ⟨rfl, by simp [Custom.Element], ?_, by simp [Custom.Element], rfl, rfl, rfl, ?_⟩
  · intro i hi
    simp [Custom.Element, List.getElem?_append_left hi]
  · intro hwf hcap
    simp only [CustomRecord.Element, CustomRecord.form, Custom.Element,
      appendSlice_elements grow mem record.Elements element hwf hcap]

theorem Element_appends_witness :
    recordOfExample.wellFormed memoryOfExample ∧
      (recordOfExample.Element growDouble memoryOfExample ⟨keyA, exampleSlider⟩).2.form
          (recordOfExample.Element growDouble memoryOfExample ⟨keyA, exampleSlider⟩).1 =
        (recordOfExample.form memoryOfExample).Element ⟨keyA, exampleSlider⟩ ∧
      ((recordOfExample.form memoryOfExample).Element ⟨keyA, exampleSlider⟩).Elements =
        [⟨keyL, exampleLabel⟩, ⟨keyA, exampleToggle⟩, ⟨keyB, exampleSlider⟩,
          ⟨keyA, exampleSlider⟩] :=
  ⟨by unfold CustomRecord.wellFormed; decide,
    (Element_appends formNoElements ⟨keyA, exampleSlider⟩ growDouble recordOfExample
      memoryOfExample).2.2.2.2.2.2.2
      (by unfold CustomRecord.wellFormed; decide)
      (fun h => absurd h (by decide)),
    rfl⟩

/-- C19. `SubmitJSON` never indexes the response out of range: the loop runs
on a list of elements that has as many elements as the response has values, and
no call of `SubmitJSON` ends in a panic of `inputData[i]`. -/
theorem SubmitJSON_index_in_range (form : Custom) (data : Option (List Nat))
    (submitter : Submitter) (tx : Tx) :
    (form.SubmitJSON data submitter tx).status ≠ .panicked ∧
      ∀ (bytes : List Nat) (inputData : List JSONValue) (elements : List IdentifiedElement),
        data = some bytes → jsonDecode bytes = .ok inputData →
        matchElements form inputData = some elements →
        elements.length = inputData.length ∧
        ∀ i : Nat, i < elements.length → ∃ v, inputData[i]? = some v := by
  constructor
  · cases data with
    | none =>
      simp only [Custom.SubmitJSON]
      cases form.Close <;> simp
    | some bytes =>
      cases hdec : jsonDecode bytes with
      | error e => simp [Custom.SubmitJSON, hdec]
      | ok inputData =>
        rw [SubmitJSON_decoded form bytes inputData submitter tx hdec]
        cases hm : matchElements form inputData with
        | none => simp [submitDecoded, hm]
        | some elements =>
          have hlen := matchElements_length form inputData elements hm
          cases hl : (parseLoop inputData elements 0 []).2 with
          | error st =>
            rw [submitDecoded_failed form inputData submitter tx elements st hm hl]
            rcases parseLoop_inv_error inputData elements 0 [] st hl with ⟨_, h⟩ | ⟨err, h⟩
            · omega
            · subst h
              simp
          | ok dataMap =>
            rw [submitDecoded_finished form inputData submitter tx elements dataMap hm hl]
            simp
  · intro bytes inputData elements _ _ hm
    have hlen := matchElements_length form inputData elements hm
    refine ⟨hlen, fun i hi => ⟨inputData[i], ?_⟩⟩
    exact List.getElem?_eq_getElem (by omega)

theorem SubmitJSON_index_in_range_witness :
    (formLabelToggleSlider.SubmitJSON (some (bytesOf "[true, 3]")) somebody someTx).status ≠
        .panicked ∧
      (nonDecorative formLabelToggleSlider.Elements).length =
        [JSONValue.bool true, JSONValue.number "3"].length ∧
      ∀ i : Nat, i < (nonDecorative formLabelToggleSlider.Elements).length →
        ∃ v, [JSONValue.bool true, JSONValue.number "3"][i]? = some v :=
  ⟨(SubmitJSON_index_in_range formLabelToggleSlider (some (bytesOf "[true, 3]")) somebody
      someTx).1,
    (SubmitJSON_index_in_range formLabelToggleSlider (some (bytesOf "[true, 3]")) somebody
      someTx).2 (bytesOf "[true, 3]") [.bool true, .number "3"]
      (nonDecorative formLabelToggleSlider.Elements) rfl rfl rfl⟩

/-- C14. On the form `[Label, Toggle(A), Slider(B)]` and the payload
`[true, 3]` the response has one value less than the form has elements, so
`SubmitJSON` ranges over the filtered list: it calls `submit` on the toggle and
on the slider and then `Submit`, and `submit` was never called on the label,
which is the first element of the form. On the payload `[null, true, 3]`, with
a value for each element, the same form has `submit` called on the label too
before `Submit`. -/
theorem SubmitJSON_submit_skips_label :
    formLabelToggleSlider.Elements[0]? = some ⟨keyL, exampleLabel⟩ ∧
      (formLabelToggleSlider.SubmitJSON (some (bytesOf "[true, 3]")) somebody someTx).trace =
        [.parse 0 keyA (.bool true), .parse 1 keyB (.number "3"),
          .submit ⟨1⟩ somebody someTx [(keyA, .bool true), (keyB, .number "3")]] ∧
      (∀ (i : Nat) (v : JSONValue), Event.parse i keyL v ∉
        (formLabelToggleSlider.SubmitJSON (some (bytesOf "[true, 3]")) somebody
          someTx).trace) ∧
      (formLabelToggleSlider.SubmitJSON (some (bytesOf "[null, true, 3]")) somebody
          someTx).trace =
        [.parse 0 keyL .null, .parse 1 keyA (.bool true), .parse 2 keyB (.number "3"),
          .submit ⟨1⟩ somebody someTx
            [(keyL, .null), (keyA, .bool true), (keyB, .number "3")]] := by
  refine ⟨rfl, rfl, ?_, rfl⟩
  intro i v
  rw [show (formLabelToggleSlider.SubmitJSON (some (bytesOf "[true, 3]")) somebody
      someTx).trace =
    [.parse 0 keyA (.bool true), .parse 1 keyB (.number "3"),
      .submit ⟨1⟩ somebody someTx [(keyA, .bool true), (keyB, .number "3")]] from rfl]
  simp [keyL, keyA, keyB]

/-- C15, as amended. The error that `SubmitJSON` returns when an element
rejects its value is the error of the element behind the fixed text
`error parsing form response value: `, and nothing else: two runs in which the
first rejection has the same error `err` return equal errors, whatever the
forms, the responses and the positions `j` and `j'` of the rejections. -/
theorem SubmitJSON_rejection_error (form form' : Custom) (data data' : List Nat)
    (inputData inputData' : List JSONValue) (elements elements' : List IdentifiedElement)
    (j j' : Nat) (e e' : IdentifiedElement) (v v' : JSONValue) (err : GoError)
    (submitter : Submitter) (tx : Tx)
    (hdec : jsonDecode data = .ok inputData)
    (hm : matchElements form inputData = some elements)
    (he : elements[j]? = some e) (hv : inputData[j]? = some v)
    (herr : e.Value.submit v = some err)
    (hfirst : ∀ (i : Nat) (x : IdentifiedElement) (w : JSONValue), i < j →
      elements[i]? = some x → inputData[i]? = some w → x.Value.submit w = none)
    (hdec' : jsonDecode data' = .ok inputData')
    (hm' : matchElements form' inputData' = some elements')
    (he' : elements'[j']? = some e') (hv' : inputData'[j']? = some v')
    (herr' : e'.Value.submit v' = some err)
    (hfirst' : ∀ (i : Nat) (x : IdentifiedElement) (w : JSONValue), i < j' →
      elements'[i]? = some x → inputData'[i]? = some w → x.Value.submit w = none) :
    (form.SubmitJSON (some data) submitter tx).status =
        .returned (some (.wrapf "error parsing form response value: " err)) ∧
      (form'.SubmitJSON (some data') submitter tx).status =
        (form.SubmitJSON (some data) submitter tx).status := by
  rw [SubmitJSON_run_rejected form data inputData elements j e v err submitter tx hdec hm he
      hv herr hfirst,
    SubmitJSON_run_rejected form' data' inputData' elements' j' e' v' err submitter tx hdec'
      hm' he' hv' herr' hfirst']
  exact ⟨rfl, rfl⟩

theorem SubmitJSON_rejection_error_witness :
    (formToggleToggle.SubmitJSON (some (bytesOf "[3, true]")) somebody someTx).status =
        .returned (some (.wrapf "error parsing form response value: "
          (.new "value is not a bool"))) ∧
      (formToggleToggle.SubmitJSON (some (bytesOf "[true, 3]")) somebody someTx).status =
        (formToggleToggle.SubmitJSON (some (bytesOf "[3, true]")) somebody someTx).status :=
  SubmitJSON_rejection_error formToggleToggle formToggleToggle (bytesOf "[3, true]")
    (bytesOf "[true, 3]") [.number "3", .bool true] [.bool true, .number "3"]
    formToggleToggle.Elements formToggleToggle.Elements 0 1
    ⟨keyA, exampleToggle⟩ ⟨keyB, exampleToggle⟩ (.number "3") (.number "3")
    (.new "value is not a bool") somebody someTx rfl rfl rfl rfl rfl
    (fun i _ _ hi => absurd hi (Nat.not_lt_zero i))
    rfl rfl rfl rfl rfl
    (by
      intro i x w hi hx hw
      match i, hi, hx, hw with
      | 0, _, hx, hw =>
        simp [formToggleToggle] at hx hw
        subst hx hw
        rfl)

/-- C15, counterexample. On the form `[Toggle(A), Toggle(B)]` the payload
`[3, true]` is rejected at position 0 and the payload `[true, 3]` at position
1, as the calls of `submit` show, and `SubmitJSON` returns the same error for
both: the error does not tell the positions apart. -/
theorem SubmitJSON_rejection_error_counterexample :
    (formToggleToggle.SubmitJSON (some (bytesOf "[3, true]")) somebody someTx).trace =
        [.parse 0 keyA (.number "3")] ∧
      (formToggleToggle.SubmitJSON (some (bytesOf "[true, 3]")) somebody someTx).trace =
        [.parse 0 keyA (.bool true), .parse 1 keyB (.number "3")] ∧
      (formToggleToggle.SubmitJSON (some (bytesOf "[3, true]")) somebody someTx).status =
        .returned (some (.wrapf "error parsing form response value: "
          (.new "value is not a bool"))) ∧
      (formToggleToggle.SubmitJSON (some (bytesOf "[true, 3]")) somebody someTx).status =
        .returned (some (.wrapf "error parsing form response value: "
          (.new "value is not a bool"))) :=
  ⟨rfl, rfl, rfl, rfl⟩

/-- C18, as amended. When the decoded response has as many values as the form
has elements, nothing is filtered: the matched list is the list of all
elements of the form, decorative ones included. `submit` is called on the
elements in order, each with the response value at its own index, as long as
the elements before accept theirs. When `Submit` is called, the map it gets
has an entry for the key of every element, decorative ones included, and the
entry holds the response value at the index of the element unless a later
element shares its key. -/
theorem SubmitJSON_raw_match (form : Custom) (data : List Nat) (inputData : List JSONValue)
    (submitter : Submitter) (tx : Tx)
    (hdec : jsonDecode data = .ok inputData)
    (hlen : inputData.length = form.Elements.length) :
    matchElements form inputData = some form.Elements ∧
      (∀ (i : Nat) (e : IdentifiedElement) (v : JSONValue),
        form.Elements[i]? = some e → inputData[i]? = some v →
        (∀ (k : Nat) (x : IdentifiedElement) (w : JSONValue), k < i →
          form.Elements[k]? = some x → inputData[k]? = some w → x.Value.submit w = none) →
        Event.parse i e.Key v ∈ (form.SubmitJSON (some data) submitter tx).trace) ∧
      (∀ (cb : Callback) (s : Submitter) (t : Tx) (values : DataMap),
        Event.submit cb s t values ∈ (form.SubmitJSON (some data) submitter tx).trace →
        ∀ (i : Nat) (e : IdentifiedElement) (v : JSONValue),
          form.Elements[i]? = some e → inputData[i]? = some v →
          (mapGet values e.Key).isSome ∧
          ((∀ (j : Nat) (e' : IdentifiedElement), i < j → form.Elements[j]? = some e' →
            e'.Key ≠ e.Key) → mapGet values e.Key = some v)) := by
  have hm : matchElements form inputData = some form.Elements := by
    rw [matchElements_eq, if_pos hlen.symm]
  refine ⟨hm, ?_, ?_⟩
  · intro i e v he hv hacc
    have hmem := parseLoop_mem_of_accepted inputData form.Elements 0 [] i e v he
      (by simpa using hv) (fun k x w hk hx hw => hacc k x w hk hx (by simpa using hw))
    simp only [Nat.zero_add] at hmem
    rw [SubmitJSON_decoded form data inputData submitter tx hdec]
    cases hl : (parseLoop inputData form.Elements 0 []).2 with
    | error st =>
      rw [submitDecoded_failed form inputData submitter tx form.Elements st hm hl]
      exact hmem
    | ok dataMap =>
      rw [submitDecoded_finished form inputData submitter tx form.Elements dataMap hm hl]
      exact List.mem_append_left _ hmem
  · intro cb s t values hmem i e v he hv
    obtain ⟨bytes, inputData', elements, hd, hdec', hm', hl, _, _, _⟩ :=
      SubmitJSON_submit_inv form (some data) submitter tx cb s t values hmem
    cases hd
    rw [hdec] at hdec'
    cases hdec'
    rw [hm] at hm'
    cases hm'
    obtain ⟨hle, _, _, hmap⟩ := parseLoop_result inputData form.Elements values hl
    subst hmap
    exact ⟨mapGet_recordAll_mem form.Elements inputData [] hle e (List.getElem?_mem he),
      fun hlast => mapGet_recordAll_last form.Elements inputData [] i e v he hv hlast⟩

theorem SubmitJSON_raw_match_witness :
    matchElements formToggleLabel [.bool true, .string "x"] =
        some formToggleLabel.Elements ∧
      (∀ (i : Nat) (e : IdentifiedElement) (v : JSONValue),
        formToggleLabel.Elements[i]? = some e →
        [JSONValue.bool true, JSONValue.string "x"][i]? = some v →
        (∀ (k : Nat) (x : IdentifiedElement) (w : JSONValue), k < i →
          formToggleLabel.Elements[k]? = some x →
          [JSONValue.bool true, JSONValue.string "x"][k]? = some w →
          x.Value.submit w = none) →
        Event.parse i e.Key v ∈
          (formToggleLabel.SubmitJSON (some (bytesOf "[true, \"x\"]")) somebody someTx).trace) ∧
      (∀ (cb : Callback) (s : Submitter) (t : Tx) (values : DataMap),
        Event.submit cb s t values ∈
          (formToggleLabel.SubmitJSON (some (bytesOf "[true, \"x\"]")) somebody
            someTx).trace →
        ∀ (i : Nat) (e : IdentifiedElement) (v : JSONValue),
          formToggleLabel.Elements[i]? = some e →
          [JSONValue.bool true, JSONValue.string "x"][i]? = some v →
          (mapGet values e.Key).isSome ∧
          ((∀ (j : Nat) (e' : IdentifiedElement), i < j →
            formToggleLabel.Elements[j]? = some e' → e'.Key ≠ e.Key) →
            mapGet values e.Key = some v)) ∧
      (formToggleLabel.SubmitJSON (some (bytesOf "[true, \"x\"]")) somebody someTx).trace =
        [.parse 0 keyA (.bool true), .parse 1 keyL (.string "x"),
          .submit ⟨1⟩ somebody someTx [(keyA, .bool true), (keyL, .string "x")]] :=
  ⟨(SubmitJSON_raw_match formToggleLabel (bytesOf "[true, \"x\"]")
      [.bool true, .string "x"] somebody someTx rfl rfl).1,
    (SubmitJSON_raw_match formToggleLabel (bytesOf "[true, \"x\"]")
      [.bool true, .string "x"] somebody someTx rfl rfl).2.1,
    (SubmitJSON_raw_match formToggleLabel (bytesOf "[true, \"x\"]")
      [.bool true, .string "x"] somebody someTx rfl rfl).2.2,
    rfl⟩

/-- C18, counterexample. The form `[Toggle(A), Label]` has a decorative
element and the payload `[3, true]` has as many values as the form has
elements, yet `submit` is not called on the label: the toggle rejects `3`
and `SubmitJSON` returns. -/
theorem SubmitJSON_raw_match_counterexample :
    jsonDecode (bytesOf "[3, true]") = .ok [.number "3", .bool true] ∧
      formToggleLabel.Elements.length = [JSONValue.number "3", JSONValue.bool true].length ∧
      formToggleLabel.Elements[1]? = some ⟨keyL, exampleLabel⟩ ∧
      (formToggleLabel.SubmitJSON (some (bytesOf "[3, true]")) somebody someTx).trace =
        [.parse 0 keyA (.number "3")] ∧
      ∀ (i : Nat) (v : JSONValue), Event.parse i keyL v ∉
        (formToggleLabel.SubmitJSON (some (bytesOf "[3, true]")) somebody someTx).trace := by
  refine ⟨rfl, rfl, rfl, rfl, ?_⟩
  intro i v
  rw [show (formToggleLabel.SubmitJSON (some (bytesOf "[3, true]")) somebody someTx).trace =
    [.parse 0 keyA (.number "3")] from rfl]
  simp [keyL, keyA]

/-- C17. A payload that holds a JSON array (any white space before the array
and between its tokens, any bytes after it, elements of any kind, nested to the
depth the decoder allows) is decoded to the values of the elements of the
array, and a number literal, at any depth, to the `json.Number` with exactly the
bytes of the literal: the text spells the bytes of the literal back. Every call
of `submit` that `SubmitJSON` makes gets the value of the element at its index,
for a number literal `n` the text of `n`; the call is made when the response is
matched and the elements before accept their values. Every value of the map
given to `Submit` is the value of an element, and the key of an element at the
index of a number literal holds the text of the literal, unless a later element
has the same key. And on any payload at all, a number that reaches a `submit`
or the map of `Submit` is the text of a number literal that stands in the
payload, byte for byte. No number is turned into a floating-point number. -/
theorem SubmitJSON_number_text (form : Custom) (lead : List Nat) (doc : JSONText)
    (elems : List JSONText) (trailing : List Nat) (submitter : Submitter) (tx : Tx)
    (hlead : isBlank lead = true) (hwf : doc.wellFormed = true)
    (hel : doc.elements = some elems) (hd : doc.depth ≤ maxNestingDepth) :
    jsonDecode (lead ++ (doc.bytes ++ trailing)) = .ok (elems.map JSONText.value) ∧
      (∀ (i : Nat) (k : UUID) (v : JSONValue),
        Event.parse i k v ∈
          (form.SubmitJSON (some (lead ++ (doc.bytes ++ trailing))) submitter tx).trace →
        (∃ t : JSONText, elems[i]? = some t ∧ v = t.value) ∧
          ∀ n : NumberLiteral, elems[i]? = some (.number n) →
            v = .number (asciiText n.bytes)) ∧
      (∀ (matched : List IdentifiedElement) (i : Nat) (e : IdentifiedElement)
        (n : NumberLiteral),
        matchElements form (elems.map JSONText.value) = some matched →
        matched[i]? = some e → elems[i]? = some (.number n) →
        (∀ (j : Nat) (x : IdentifiedElement) (t : JSONText), j < i →
          matched[j]? = some x → elems[j]? = some t → x.Value.submit t.value = none) →
        Event.parse i e.Key (.number (asciiText n.bytes)) ∈
          (form.SubmitJSON (some (lead ++ (doc.bytes ++ trailing))) submitter tx).trace) ∧
      (∀ (cb : Callback) (s : Submitter) (t : Tx) (values : DataMap),
        Event.submit cb s t values ∈
          (form.SubmitJSON (some (lead ++ (doc.bytes ++ trailing))) submitter tx).trace →
        (∀ (k : UUID) (v : JSONValue), mapGet values k = some v →
          ∃ (i : Nat) (a : JSONText), elems[i]? = some a ∧ v = a.value) ∧
        ∀ (matched : List IdentifiedElement) (i : Nat) (e : IdentifiedElement)
          (n : NumberLiteral),
          matchElements form (elems.map JSONText.value) = some matched →
          matched[i]? = some e → elems[i]? = some (.number n) →
          (∀ (j : Nat) (x : IdentifiedElement), i < j → matched[j]? = some x →
            x.Key ≠ e.Key) →
          mapGet values e.Key = some (.number (asciiText n.bytes))) ∧
      (∀ (i : Nat) (n : NumberLiteral), elems[i]? = some (.number n) →
        bytesOf (asciiText n.bytes) = n.bytes) ∧
      (∀ (bytes : List Nat) (i : Nat) (k : UUID) (s : String),
        Event.parse i k (.number s) ∈ (form.SubmitJSON (some bytes) submitter tx).trace →
        ∃ (n : NumberLiteral) (before after : List Nat),
          n.wellFormed = true ∧ s = asciiText n.bytes ∧
            bytes = before ++ (n.bytes ++ after)) ∧
      (∀ (bytes : List Nat) (cb : Callback) (s0 : Submitter) (t : Tx) (values : DataMap)
        (k : UUID) (s : String),
        Event.submit cb s0 t values ∈ (form.SubmitJSON (some bytes) submitter tx).trace →
        mapGet values k = some (.number s) →
        ∃ (n : NumberLiteral) (before after : List Nat),
          n.wellFormed = true ∧ s = asciiText n.bytes ∧
            bytes = before ++ (n.bytes ++ after)) := by
  have hdec := jsonDecode_text lead doc elems trailing hlead hwf hel hd
  refine ⟨hdec, ?_, ?_, ?_, ?_, ?_, ?_⟩
  · intro i k v hmem
    obtain ⟨bytes, inputData, hb, hdec', hv⟩ :=
      SubmitJSON_parse_inv form _ submitter tx i k v hmem
    cases hb
    rw [hdec] at hdec'
    cases hdec'
    rw [List.getElem?_map] at hv
    cases ht : elems[i]? with
    | none => simp [ht] at hv
    | some t =>
      rw [ht] at hv
      have hvt : v = t.value := by simpa using hv.symm
      refine ⟨⟨t, rfl, hvt⟩, ?_⟩
      intro n hn
      cases hn
      exact hvt
  · intro matched i e n hm he hn hacc
    refine SubmitJSON_parse_made form _ _ matched i e _ submitter tx hdec hm he
      (by rw [List.getElem?_map, hn]; rfl) ?_
    intro j x w hj hx hw
    rw [List.getElem?_map] at hw
    cases ht : elems[j]? with
    | none => simp [ht] at hw
    | some t =>
      rw [ht] at hw
      have hwt : w = t.value := by simpa using hw.symm
      rw [hwt]
      exact hacc j x t hj hx ht
  · intro cb s t values hmem
    obtain ⟨bytes, inputData, matched', hb, hdec', hm', hl, _, _, _⟩ :=
      SubmitJSON_submit_inv form _ submitter tx cb s t values hmem
    cases hb
    rw [hdec] at hdec'
    cases hdec'
    obtain ⟨_, _, _, hmap⟩ := parseLoop_result _ matched' values hl
    subst hmap
    constructor
    · intro k v hk
      rcases mapGet_recordAll_value matched' _ [] k v hk with h | ⟨i, hi⟩
      · simp [mapGet] at h
      · rw [List.getElem?_map] at hi
        cases ha : elems[i]? with
        | none => simp [ha] at hi
        | some a =>
          rw [ha] at hi
          exact ⟨i, a, ha, by simpa using hi.symm⟩
    · intro matched i e n hm he hn hlater
      rw [hm'] at hm
      cases hm
      exact mapGet_recordAll_last matched' _ [] i e _ he
        (by rw [List.getElem?_map, hn]; rfl) hlater
  · intro i n hn
    exact bytesOf_asciiText n.bytes
      (numberLiteral_ascii n (elements_wellFormed doc elems hwf hel _ (List.getElem?_mem hn)))
  · intro bytes i k s hmem
    obtain ⟨bytes', inputData, hb, hdec', hv⟩ :=
      SubmitJSON_parse_inv form _ submitter tx i k _ hmem
    cases hb
    exact jsonDecode_number bytes inputData s hdec' (List.getElem?_mem hv)
  · intro bytes cb s0 t values k s hmem hk
    obtain ⟨bytes', inputData, matched', hb, hdec', _, hl, _, _, _⟩ :=
      SubmitJSON_submit_inv form _ submitter tx cb s0 t values hmem
    cases hb
    obtain ⟨_, _, _, hmap⟩ := parseLoop_result _ matched' values hl
    subst hmap
    rcases mapGet_recordAll_value matched' _ [] k _ hk with h | ⟨i, hi⟩
    · simp [mapGet] at h
    · exact jsonDecode_number bytes inputData s hdec' (List.getElem?_mem hi)

theorem SubmitJSON_number_text_witness :
    (jsonDecode ([32] ++ (exampleArray.bytes ++ bytesOf " x")) =
        .ok ([JSONText.bool true, JSONText.number bigLiteral].map JSONText.value) ∧
      (∀ (i : Nat) (k : UUID) (v : JSONValue),
        Event.parse i k v ∈
          (formToggleSlider.SubmitJSON (some ([32] ++ (exampleArray.bytes ++ bytesOf " x")))
            somebody someTx).trace →
        (∃ t : JSONText, [JSONText.bool true, JSONText.number bigLiteral][i]? = some t ∧
            v = t.value) ∧
          ∀ n : NumberLiteral,
            [JSONText.bool true, JSONText.number bigLiteral][i]? = some (.number n) →
            v = .number (asciiText n.bytes)) ∧
      (∀ (matched : List IdentifiedElement) (i : Nat) (e : IdentifiedElement)
        (n : NumberLiteral),
        matchElements formToggleSlider
          ([JSONText.bool true, JSONText.number bigLiteral].map JSONText.value) =
            some matched →
        matched[i]? = some e →
        [JSONText.bool true, JSONText.number bigLiteral][i]? = some (.number n) →
        (∀ (j : Nat) (x : IdentifiedElement) (t : JSONText), j < i →
          matched[j]? = some x →
          [JSONText.bool true, JSONText.number bigLiteral][j]? = some t →
          x.Value.submit t.value = none) →
        Event.parse i e.Key (.number (asciiText n.bytes)) ∈
          (formToggleSlider.SubmitJSON (some ([32] ++ (exampleArray.bytes ++ bytesOf " x")))
            somebody someTx).trace) ∧
      (∀ (cb : Callback) (s : Submitter) (t : Tx) (values : DataMap),
        Event.submit cb s t values ∈
          (formToggleSlider.SubmitJSON (some ([32] ++ (exampleArray.bytes ++ bytesOf " x")))
            somebody someTx).trace →
        (∀ (k : UUID) (v : JSONValue), mapGet values k = some v →
          ∃ (i : Nat) (a : JSONText),
            [JSONText.bool true, JSONText.number bigLiteral][i]? = some a ∧ v = a.value) ∧
        ∀ (matched : List IdentifiedElement) (i : Nat) (e : IdentifiedElement)
          (n : NumberLiteral),
          matchElements formToggleSlider
            ([JSONText.bool true, JSONText.number bigLiteral].map JSONText.value) =
              some matched →
          matched[i]? = some e →
          [JSONText.bool true, JSONText.number bigLiteral][i]? = some (.number n) →
          (∀ (j : Nat) (x : IdentifiedElement), i < j → matched[j]? = some x →
            x.Key ≠ e.Key) →
          mapGet values e.Key = some (.number (asciiText n.bytes))) ∧
      (∀ (i : Nat) (n : NumberLiteral),
        [JSONText.bool true, JSONText.number bigLiteral][i]? = some (.number n) →
        bytesOf (asciiText n.bytes) = n.bytes) ∧
      (∀ (bytes : List Nat) (i : Nat) (k : UUID) (s : String),
        Event.parse i k (.number s) ∈
          (formToggleSlider.SubmitJSON (some bytes) somebody someTx).trace →
        ∃ (n : NumberLiteral) (before after : List Nat),
          n.wellFormed = true ∧ s = asciiText n.bytes ∧
            bytes = before ++ (n.bytes ++ after)) ∧
      (∀ (bytes : List Nat) (cb : Callback) (s0 : Submitter) (t : Tx) (values : DataMap)
        (k : UUID) (s : String),
        Event.submit cb s0 t values ∈
          (formToggleSlider.SubmitJSON (some bytes) somebody someTx).trace →
        mapGet values k = some (.number s) →
        ∃ (n : NumberLiteral) (before after : List Nat),
          n.wellFormed = true ∧ s = asciiText n.bytes ∧
            bytes = before ++ (n.bytes ++ after))) ∧
    [32] ++ (exampleArray.bytes ++ bytesOf " x") = bytesOf " [true, 9007199254740993 ] x" ∧
    (formToggleSlider.SubmitJSON (some (bytesOf " [true, 9007199254740993 ] x")) somebody
        someTx).trace =
      [.parse 0 keyA (.bool true), .parse 1 keyB (.number "9007199254740993"),
        .submit ⟨1⟩ somebody someTx
          [(keyA, .bool true), (keyB, .number "9007199254740993")]] ∧
    JSONValue.number "9007199254740993" ≠ JSONValue.number "9007199254740992" ∧
    jsonDecode (bytesOf "[ [1.50e+3 , -0],\n 9007199254740993 ]") =
      .ok [.array [.number "1.50e+3", .number "-0"], .number "9007199254740993"] :=
  ⟨SubmitJSON_number_text formToggleSlider [32] exampleArray
      [.bool true, .number bigLiteral] (bytesOf " x") somebody someTx rfl rfl rfl
      (by decide),
    rfl, rfl, by simp, rfl⟩

/-- C20. `SubmitJSON` leaves the form alone on every path. On a record in
memory whose slice is well formed, the record is the same after the call, the
arrays that were there hold what they held (the filtered slice is built in new
arrays), so the title and the elements of the form are the same, in the same
order, decorative ones included; the run is the run of `SubmitJSON` on the list
of these elements; and a second call on the same payload gives the same run,
with the same map. -/
theorem SubmitJSON_leaves_form (grow : Nat → Nat → Nat) (record : CustomRecord)
    (mem : Memory) (data : Option (List Nat)) (submitter : Submitter) (tx : Tx)
    (hwf : record.wellFormed mem) :
    (record.SubmitJSON grow mem data submitter tx).2.1 = record ∧
      (∃ fresh, (record.SubmitJSON grow mem data submitter tx).1 = mem ++ fresh) ∧
      (record.form (record.SubmitJSON grow mem data submitter tx).1).Title =
        (record.form mem).Title ∧
      (record.form (record.SubmitJSON grow mem data submitter tx).1).Elements =
        (record.form mem).Elements ∧
      (record.SubmitJSON grow mem data submitter tx).2.2 =
        (record.form mem).SubmitJSON data submitter tx ∧
      (record.SubmitJSON grow (record.SubmitJSON grow mem data submitter tx).1 data
          submitter tx).2.2 =
        (record.SubmitJSON grow mem data submitter tx).2.2 := by
  obtain ⟨⟨fresh, hfresh⟩, hrun⟩ := SubmitJSON_record_run grow record mem data submitter tx hwf
  obtain ⟨hwf', hsame⟩ := wellFormed_append record mem fresh hwf
  have hform : record.form (mem ++ fresh) = record.form mem := by
    simp only [CustomRecord.form, hsame]
  refine ⟨?_, ⟨fresh, hfresh⟩, rfl, ?_, hrun, ?_⟩
  · unfold CustomRecord.SubmitJSON
    repeat' split
    all_goals rfl
  · rw [hfresh]
    exact hsame
  · rw [hfresh, (SubmitJSON_record_run grow record (mem ++ fresh) data submitter tx hwf').2,
      hform, ← hrun]

theorem SubmitJSON_leaves_form_witness :
    ((recordOfExample.SubmitJSON growDouble memoryOfExample (some (bytesOf "[true, 3]"))
          somebody someTx).2.1 = recordOfExample ∧
      (∃ fresh, (recordOfExample.SubmitJSON growDouble memoryOfExample
          (some (bytesOf "[true, 3]")) somebody someTx).1 = memoryOfExample ++ fresh) ∧
      (recordOfExample.form (recordOfExample.SubmitJSON growDouble memoryOfExample
          (some (bytesOf "[true, 3]")) somebody someTx).1).Title =
        (recordOfExample.form memoryOfExample).Title ∧
      (recordOfExample.form (recordOfExample.SubmitJSON growDouble memoryOfExample
          (some (bytesOf "[true, 3]")) somebody someTx).1).Elements =
        (recordOfExample.form memoryOfExample).Elements ∧
      (recordOfExample.SubmitJSON growDouble memoryOfExample (some (bytesOf "[true, 3]"))
          somebody someTx).2.2 =
        (recordOfExample.form memoryOfExample).SubmitJSON (some (bytesOf "[true, 3]"))
          somebody someTx ∧
      (recordOfExample.SubmitJSON growDouble
          (recordOfExample.SubmitJSON growDouble memoryOfExample
            (some (bytesOf "[true, 3]")) somebody someTx).1
          (some (bytesOf "[true, 3]")) somebody someTx).2.2 =
        (recordOfExample.SubmitJSON growDouble memoryOfExample (some (bytesOf "[true, 3]"))
          somebody someTx).2.2) ∧
    (recordOfExample.SubmitJSON growDouble memoryOfExample (some (bytesOf "[true, 3]"))
        somebody someTx).1 =
      memoryOfExample ++
        [⟨0, []⟩, ⟨1, [⟨keyA, exampleToggle⟩]⟩,
          ⟨2, [⟨keyA, exampleToggle⟩, ⟨keyB, exampleSlider⟩]⟩] ∧
    (recordOfExample.SubmitJSON growDouble memoryOfExample (some (bytesOf "[true, 3]"))
        somebody someTx).2.2.trace =
      [.parse 0 keyA (.bool true), .parse 1 keyB (.number "3"),
        .submit ⟨1⟩ somebody someTx [(keyA, .bool true), (keyB, .number "3")]] :=
  ⟨SubmitJSON_leaves_form growDouble recordOfExample memoryOfExample
      (some (bytesOf "[true, 3]")) somebody someTx
      (by unfold CustomRecord.wellFormed; decide),
    rfl, rfl⟩

/-- C16. `MarshalJSON` leaves the form alone and gives the same result when
called again. On a record in memory, the memory and the record are the same
after the call, so the title, the elements and the callbacks of the form are
unchanged, and a second call returns the same result: the same document, or the
same error. On a well-formed record the result is that of `MarshalJSON` on the
list of the elements. The document does not depend on the order in which the
three entries of the map are met, since `json.Marshal` writes them by key. -/
theorem MarshalJSON_leaves_form (record : CustomRecord) (mem : Memory) :
    (record.MarshalJSON mem).1 = mem ∧
      (record.MarshalJSON mem).2.1 = record ∧
      (record.MarshalJSON (record.MarshalJSON mem).1).2.2 = (record.MarshalJSON mem).2.2 ∧
      (record.wellFormed mem →
        (record.MarshalJSON mem).2.2 = (record.form mem).MarshalJSON) ∧
      (∀ kind title content : MapEntry,
        jsonMarshal [("type", kind), ("content", content), ("title", title)] =
            jsonMarshal [("type", kind), ("title", title), ("content", content)] ∧
          jsonMarshal [("title", title), ("type", kind), ("content", content)] =
            jsonMarshal [("type", kind), ("title", title), ("content", content)] ∧
          jsonMarshal [("title", title), ("content", content), ("type", kind)] =
            jsonMarshal [("type", kind), ("title", title), ("content", content)] ∧
          jsonMarshal [("content", content), ("type", kind), ("title", title)] =
            jsonMarshal [("type", kind), ("title", title), ("content", content)] ∧
          jsonMarshal [("content", content), ("title", title), ("type", kind)] =
            jsonMarshal [("type", kind), ("title", title), ("content", content)]) := by
  have h1 : (record.MarshalJSON mem).1 = mem := by
    unfold CustomRecord.MarshalJSON
    split <;> rfl
  refine ⟨h1, ?_, by rw [h1], ?_, fun _ _ _ => ⟨rfl, rfl, rfl, rfl, rfl⟩⟩
  · unfold CustomRecord.MarshalJSON
    split <;> rfl
  · intro hwf
    have hsl := sliceElements_length mem record.Elements hwf
    unfold CustomRecord.MarshalJSON Custom.MarshalJSON
    simp only [CustomRecord.form, hsl]
    split <;> rfl

theorem MarshalJSON_leaves_form_witness :
    (recordOfExample.MarshalJSON memoryOfExample).1 = memoryOfExample ∧
      (recordOfExample.MarshalJSON memoryOfExample).2.1 = recordOfExample ∧
      (recordOfExample.MarshalJSON (recordOfExample.MarshalJSON memoryOfExample).1).2.2 =
        (recordOfExample.MarshalJSON memoryOfExample).2.2 ∧
      recordOfExample.wellFormed memoryOfExample ∧
      (recordOfExample.MarshalJSON memoryOfExample).2.2 =
        (recordOfExample.form memoryOfExample).MarshalJSON ∧
      (recordOfExample.MarshalJSON memoryOfExample).2.2 =
        (some (.object [
          ("content", .array [
            .object [("type", .string "label")],
            .object [("type", .string "toggle")],
            .object [("type", .string "slider")]]),
          ("title", .string "settings"),
          ("type", .string "custom_form")]), none) :=
  ⟨(MarshalJSON_leaves_form recordOfExample memoryOfExample).1,
    (MarshalJSON_leaves_form recordOfExample memoryOfExample).2.1,
    (MarshalJSON_leaves_form recordOfExample memoryOfExample).2.2.1,
    by unfold CustomRecord.wellFormed; decide,
    (MarshalJSON_leaves_form recordOfExample memoryOfExample).2.2.2.1
      (by unfold CustomRecord.wellFormed; decide),
    rfl⟩

end Form
